import Mathlib

/-!
# Row flattening, collapse state and row merge of the document list

A shallow embedding of

* `frontend/src/utils/documentListHelper.js`
  (`flattenRows`, `mapIncluded`, `parseToDisplay`, `parseDateToReadable`,
  `createCollapsedMap`, `indexRows`, `mapRows`, `removeRows`, `mergeRows`,
  `mergeColumnInfosIntoViewRow`) and
* `frontend/src/actions/TableActions.js`
  (`createCollapsedRows`, `collapseTableRow`).

Conventions of the embedding.

* A JavaScript object of the row tree is a value of `Node`; an absent property
  (`undefined`) is `none`.  Ids are natural numbers.
* A JavaScript array and an Immutable `List` both hold their elements in a Lean
  `List`.  `removeRows` calls `delete`, a method of an `Immutable.List` that a
  plain array does not have; there the kind of the list is an argument
  (`RowsKind`).
* An assignment to a property of an object is a functional update of the value.
  `mapIncluded` and `flattenRows`, which assign to the nodes they are given,
  return the changed nodes next to their rows.
* The merge engine assigns `widgetType` on field objects, and the same field
  object is held by an entry of the index, by the parent entry that has the
  entry among its `includedDocuments`, and by the rows returned.  So in the
  merge engine a field object is an address into a heap (`FieldHeap`), a node
  holds its fields by address (`RefNode`), every function takes the heap and
  returns the heap after it, and `readRows` gives rows as values, with the field
  objects as the heap has them at that moment.  The nodes themselves are values
  there too: `mapRows` assigns `includedDocuments` to the rows it is given and
  returns those changed rows.
* Values are compared by content.  Outside the merge engine two results that
  hold the same JavaScript object hold equal values, and an assignment made
  later through one of them is not traced into the other.
* A thrown `TypeError` is `none` in a function that returns `Option`.
-/

namespace DocumentList

/-! ## Data model -/

/-- One entry of `fieldsByName`: the field descriptor the server sends. -/
structure ViewRowField where
  field : String
  value : String
  widgetType : Option String
deriving DecidableEq, Repr

/-- The object `fieldsByName`, as the list of its entries in enumeration order. -/
abbrev FieldsByName := List (String × ViewRowField)

/-- One entry of `columnInfosByFieldName`. -/
structure ColumnInfo where
  widgetType : Option String
deriving DecidableEq, Repr

/-- The object `columnInfosByFieldName`. -/
abbrev ColumnInfos := List (String × ColumnInfo)

/-- A node of the row tree.  A raw node has `indent = none` and usually
`lastChild = none`; a flattened row carries `indent`. -/
inductive Node where
  | mk (id : Nat) (fieldsByName : FieldsByName)
      (includedDocuments : Option (List Node))
      (indent : Option (List Bool)) (lastChild : Option Bool)
deriving Repr

namespace Node

/-- Property `id`. -/
def id : Node → Nat
  | mk i _ _ _ _ => i

/-- Property `fieldsByName`. -/
def fieldsByName : Node → FieldsByName
  | mk _ f _ _ _ => f

/-- Property `includedDocuments`. -/
def includedDocuments : Node → Option (List Node)
  | mk _ _ c _ _ => c

/-- Property `indent`. -/
def indent : Node → Option (List Bool)
  | mk _ _ _ i _ => i

/-- Property `lastChild`. -/
def lastChild : Node → Option Bool
  | mk _ _ _ _ l => l

/-- Assignment `row.includedDocuments = c`. -/
def setIncludedDocuments : Node → Option (List Node) → Node
  | mk i f _ ind l, c => mk i f c ind l

/-- Copy with `fieldsByName` replaced: `Object.assign({}, row, { fieldsByName })`. -/
def setFieldsByName : Node → FieldsByName → Node
  | mk i _ c ind l, f => mk i f c ind l

end Node

mutual
/-- Equality of nodes is decidable. -/
def Node.decEq : (a b : Node) → Decidable (a = b)
  | Node.mk i f c ind l, Node.mk i' f' c' ind' l' =>
    if h1 : i = i' then
      if h2 : f = f' then
        match decEqDocs c c' with
        | isTrue h3 =>
          if h4 : ind = ind' then
            if h5 : l = l' then isTrue (by rw [h1, h2, h3, h4, h5])
            else isFalse (by intro h; cases h; exact h5 rfl)
          else isFalse (by intro h; cases h; exact h4 rfl)
        | isFalse h3 => isFalse (by intro h; cases h; exact h3 rfl)
      else isFalse (by intro h; cases h; exact h2 rfl)
    else isFalse (by intro h; cases h; exact h1 rfl)
/-- Equality of `includedDocuments` properties is decidable. -/
def decEqDocs : (a b : Option (List Node)) → Decidable (a = b)
  | none, none => isTrue rfl
  | none, some _ => isFalse (by intro h; cases h)
  | some _, none => isFalse (by intro h; cases h)
  | some a, some b =>
    match decEqList a b with
    | isTrue h => isTrue (by rw [h])
    | isFalse h => isFalse (by intro h'; cases h'; exact h rfl)
/-- Equality of lists of nodes is decidable. -/
def decEqList : (a b : List Node) → Decidable (a = b)
  | [], [] => isTrue rfl
  | [], _ :: _ => isFalse (by intro h; cases h)
  | _ :: _, [] => isFalse (by intro h; cases h)
  | a :: as, b :: bs =>
    match Node.decEq a b with
    | isTrue h =>
      match decEqList as bs with
      | isTrue h' => isTrue (by rw [h, h'])
      | isFalse h' => isFalse (by intro h''; cases h''; exact h' rfl)
    | isFalse h => isFalse (by intro h'; cases h'; exact h rfl)
end

instance : DecidableEq Node := Node.decEq

/-- JavaScript truthiness of an optional boolean property. -/
def truthy : Option Bool → Bool
  | some true => true
  | _ => false

/-! ## Array primitives -/

/-- Method `Array.prototype.indexOf`: the first index of `x`, or `-1`. -/
def indexOf {α : Type} [DecidableEq α] (l : List α) (x : α) : Int :=
  if x ∈ l then (List.indexOf x l : Int) else -1

/-- Method `Array.prototype.splice(start, deleteCount)`: the array that is left.  A
negative `start` counts from the end and is clamped at `0`; a `start` beyond the
end is clamped at the length. -/
def splice {α : Type} (l : List α) (start : Int) (deleteCount : Nat) : List α :=
  let s : Nat := if start < 0 then l.length - start.natAbs else min start.toNat l.length
  l.take s ++ l.drop (s + deleteCount)

/-! ## Tree normalizer: `flattenRows`, `mapIncluded` -/

/-- The statement `if (isParentLastChild) ind[ind.length - 2] = false`.  With
fewer than two entries the index is negative: the assignment then creates a
property of that name and leaves the entries of the array alone. -/
def markParentLast (ind : List Bool) (isParentLastChild : Bool) : List Bool :=
  if isParentLastChild ∧ 2 ≤ ind.length then ind.set (ind.length - 2) false else ind

mutual
/-- The part `if (node.includedDocuments) { for ... }` of `mapIncluded`, for a
node whose indent is `ind` and whose `lastChild` is truthy iff `nodeLast`.
Returns the rows of all descendants and `includedDocuments` as the loop leaves
it (the loop assigns `fieldsByName` of each child). -/
def mapIncludedDocs (parseToDisplay : FieldsByName → FieldsByName) :
    Option (List Node) → List Bool → Bool → List Node × Option (List Node)
  | none, _, _ => ([], none)
  | some l, ind, nodeLast =>
    ((mapIncludedLoop parseToDisplay l ind nodeLast).1,
      some (mapIncludedLoop parseToDisplay l ind nodeLast).2)
/-- The `for` loop of `mapIncluded` from index `i` on, `l` being the children
from `i` on: the rows of these children and of their descendants, and the
children as the loop leaves them. -/
def mapIncludedLoop (parseToDisplay : FieldsByName → FieldsByName) :
    List Node → List Bool → Bool → List Node × List Node
  | [], _, _ => ([], [])
  | child :: rest, ind, nodeLast =>
    ((mapIncludedChild parseToDisplay child rest.isEmpty ind nodeLast).1 ++
        (mapIncludedLoop parseToDisplay rest ind nodeLast).1,
      (mapIncludedChild parseToDisplay child rest.isEmpty ind nodeLast).2 ::
        (mapIncludedLoop parseToDisplay rest ind nodeLast).2)
/-- The body of the `for` loop for the child `node.includedDocuments[i]`, with
`isLast` for `i === node.includedDocuments.length - 1`.  It assigns
`copy.fieldsByName`, marks the last child with `lastChild: true` on a copy, and
calls `mapIncluded(copy, ind.concat([true]), node.lastChild)`, whose body is
unfolded here: the row of the child, then the rows of its descendants.  The
second component is the child as the body leaves it. -/
def mapIncludedChild (parseToDisplay : FieldsByName → FieldsByName) :
    Node → Bool → List Bool → Bool → List Node × Node
  | Node.mk i f c oldIndent l, isLast, ind, nodeLast =>
    (Node.mk i (parseToDisplay f)
        (mapIncludedDocs parseToDisplay c (markParentLast (ind ++ [true]) nodeLast)
          (truthy (if isLast then some true else l))).2
        (some (markParentLast (ind ++ [true]) nodeLast))
        (if isLast then some true else l) ::
      (mapIncludedDocs parseToDisplay c (markParentLast (ind ++ [true]) nodeLast)
          (truthy (if isLast then some true else l))).1,
      Node.mk i (parseToDisplay f)
        (mapIncludedDocs parseToDisplay c (markParentLast (ind ++ [true]) nodeLast)
          (truthy (if isLast then some true else l))).2
        oldIndent l)
end

/-- Function `mapIncluded(node, indent, isParentLastChild = false)`: the rows of
`node` and of its descendants, and `node` as the call leaves it.  `nodeCopy`
shares the array `includedDocuments` with `node`, so the row shows the children
as the loop leaves them. -/
def mapIncluded (parseToDisplay : FieldsByName → FieldsByName) (node : Node)
    (indent : Option (List Bool)) (isParentLastChild : Bool) : List Node × Node :=
  let ind := markParentLast (indent.getD []) isParentLastChild
  let sub := mapIncludedDocs parseToDisplay node.includedDocuments ind (truthy node.lastChild)
  (Node.mk node.id node.fieldsByName sub.2 (some ind) node.lastChild :: sub.1,
    node.setIncludedDocuments sub.2)

/-- The callback loop of `flattenRows`: the concatenated rows of the root nodes
and the root nodes as the calls leave them. -/
def flattenRowsLoop (parseToDisplay : FieldsByName → FieldsByName) :
    List Node → List Node × List Node
  | [] => ([], [])
  | item :: rest =>
    ((mapIncluded parseToDisplay item none false).1 ++ (flattenRowsLoop parseToDisplay rest).1,
      (mapIncluded parseToDisplay item none false).2 :: (flattenRowsLoop parseToDisplay rest).2)

/-- Function `flattenRows(rowData)`: the flat rows; `[]` when `rowData` is absent. -/
def flattenRows (parseToDisplay : FieldsByName → FieldsByName) :
    Option (List Node) → List Node
  | none => []
  | some rowData => (flattenRowsLoop parseToDisplay rowData).1

/-- The argument `rowData` of `flattenRows` after the call. -/
def flattenRowsInputAfter (parseToDisplay : FieldsByName → FieldsByName) :
    Option (List Node) → Option (List Node)
  | none => none
  | some rowData => some (flattenRowsLoop parseToDisplay rowData).2

/-! ## Row merge engine: `mergeRows` -/

/-- The address of a field object, a value of some `fieldsByName`, in the heap. -/
abbrev FieldRef := Nat

/-- The heap of field objects: the object with address `a` is the entry at
position `a`.  `mergeColumnInfoIntoViewRowField` assigns `widgetType` on a field
object that several rows can hold, so the merge engine is given its field
objects by address. -/
abbrev FieldHeap := List ViewRowField

/-- A node as the merge engine holds it: a `Node` whose `fieldsByName` has, as
the value of each property, the address of the field object. -/
inductive RefNode where
  | mk (id : Nat) (fieldsByName : List (String × FieldRef))
      (includedDocuments : Option (List RefNode))
      (indent : Option (List Bool)) (lastChild : Option Bool)
deriving Repr

namespace RefNode

/-- Property `id`. -/
def id : RefNode → Nat
  | mk i _ _ _ _ => i

/-- Property `fieldsByName`. -/
def fieldsByName : RefNode → List (String × FieldRef)
  | mk _ f _ _ _ => f

/-- Property `includedDocuments`. -/
def includedDocuments : RefNode → Option (List RefNode)
  | mk _ _ c _ _ => c

/-- Property `indent`. -/
def indent : RefNode → Option (List Bool)
  | mk _ _ _ i _ => i

/-- Property `lastChild`. -/
def lastChild : RefNode → Option Bool
  | mk _ _ _ _ l => l

end RefNode

/-- The object `fieldsByName` read in a heap: each property with the field
object found at its address. -/
def readFields (heap : FieldHeap) (fieldsByName : List (String × FieldRef)) : FieldsByName :=
  fieldsByName.filterMap (fun e => (heap[e.2]?).map (fun viewRowField => (e.1, viewRowField)))

mutual
/-- The rows read in a heap: what a caller sees who reads them while the field
objects are as the heap has them. -/
def readRows (heap : FieldHeap) : List RefNode → List Node
  | [] => []
  | row :: rest => readNode heap row :: readRows heap rest
/-- One node read in a heap. -/
def readNode (heap : FieldHeap) : RefNode → Node
  | RefNode.mk i f c ind l => Node.mk i (readFields heap f) (readDocs heap c) ind l
/-- The property `includedDocuments` read in a heap. -/
def readDocs (heap : FieldHeap) : Option (List RefNode) → Option (List Node)
  | none => none
  | some l => some (readRows heap l)
end

/-- Fresh field objects for the values of a `fieldsByName`, as a parsed server
response has them: each value is put at the end of the heap and the property
holds its address. -/
def allocFields : FieldsByName → FieldHeap → List (String × FieldRef) × FieldHeap
  | [], heap => ([], heap)
  | e :: rest, heap =>
    let others := allocFields rest (heap ++ [e.2])
    ((e.1, heap.length) :: others.1, others.2)

mutual
/-- Rows given as values put into a heap, every field as a fresh object. -/
def allocRows : List Node → FieldHeap → List RefNode × FieldHeap
  | [], heap => ([], heap)
  | row :: rest, heap =>
    let first := allocNode row heap
    let others := allocRows rest first.2
    (first.1 :: others.1, others.2)
/-- One node put into a heap. -/
def allocNode : Node → FieldHeap → RefNode × FieldHeap
  | Node.mk i f c ind l, heap =>
    let fields := allocFields f heap
    let docs := allocDocs c fields.2
    (RefNode.mk i fields.1 docs.1 ind l, docs.2)
/-- The property `includedDocuments` put into a heap. -/
def allocDocs : Option (List Node) → FieldHeap → Option (List RefNode) × FieldHeap
  | none, heap => (none, heap)
  | some l, heap =>
    let rows := allocRows l heap
    (some rows.1, rows.2)
end

/-- Function `mergeColumnInfoIntoViewRowField(columnInfo, viewRowField)`: without
a column info nothing happens; with a truthy `widgetType` in the column info the
statement `viewRowField['widgetType'] = columnInfo.widgetType` changes the field
object in place.  The function returns the object it was given, so the result
here is the heap after the call. -/
def mergeColumnInfoIntoViewRowField (columnInfo : Option ColumnInfo)
    (viewRowField : FieldRef) (heap : FieldHeap) : FieldHeap :=
  match columnInfo with
  | none => heap
  | some info =>
    match info.widgetType with
    | none => heap
    | some w =>
      if w = "" then heap
      else
        match heap[viewRowField]? with
        | none => heap
        | some field => heap.set viewRowField { field with widgetType := some w }

/-- The assignment `acc[key] = value` on an object: an existing property keeps
its place, a new one goes to the end. -/
def setProperty {β : Type} (acc : List (String × β)) (key : String) (value : β) :
    List (String × β) :=
  if acc.any (fun e => e.1 == key) then
    acc.map (fun e => if e.1 == key then (key, value) else e)
  else acc ++ [(key, value)]

/-- The callback of `.map` in `mergeColumnInfosIntoViewRow`, on one value of
`Object.values(row.fieldsByName)`: the column info is looked up under the `field`
of the field object and merged into it. -/
def mergeFieldStep (columnInfosByFieldName : ColumnInfos) (heap : FieldHeap)
    (viewRowField : FieldRef) : FieldHeap :=
  match heap[viewRowField]? with
  | none => heap
  | some field =>
    mergeColumnInfoIntoViewRowField (columnInfosByFieldName.lookup field.field) viewRowField heap

/-- The callback of `.reduce` in `mergeColumnInfosIntoViewRow`:
`acc[viewRowField.field] = viewRowField`. -/
def keyFieldStep (heap : FieldHeap) (acc : List (String × FieldRef))
    (viewRowField : FieldRef) : List (String × FieldRef) :=
  match heap[viewRowField]? with
  | none => acc
  | some field => setProperty acc field.field viewRowField

/-- Function `mergeColumnInfosIntoViewRow(columnInfosByFieldName, row)`: every
field object of `row.fieldsByName` is merged in place with the column info found
under its `field`; the same objects, keyed again by `field`, are the
`fieldsByName` of the result, which is a new object with the other properties of
`row`, so it holds the same `includedDocuments` as `row`. -/
def mergeColumnInfosIntoViewRow (columnInfosByFieldName : ColumnInfos) :
    RefNode → FieldHeap → RefNode × FieldHeap
  | RefNode.mk i f c ind l, heap =>
    let values := f.map (fun e => e.2)
    let merged := values.foldl (mergeFieldStep columnInfosByFieldName) heap
    (RefNode.mk i (values.foldl (keyFieldStep merged) []) c ind l, merged)

/-- The object `map` of `indexRows`: the newest entry of an id comes first, so
`List.lookup` reads what `map[id]` reads. -/
abbrev RowIndex := List (Nat × RefNode)

mutual
/-- Function `indexRows(rows, map)`: the loop `for (const row of rows)`. -/
def indexRows : List RefNode → RowIndex → RowIndex
  | [], map => map
  | row :: rest, map => indexRows rest (indexRow row map)
/-- The body of the loop of `indexRows`: `map[id] = row`, then the rows of
`includedDocuments`. -/
def indexRow : RefNode → RowIndex → RowIndex
  | RefNode.mk i f c ind l, map => indexRowsDocs c ((i, RefNode.mk i f c ind l) :: map)
/-- The part `if (includedDocuments) indexRows(includedDocuments, map)`. -/
def indexRowsDocs : Option (List RefNode) → RowIndex → RowIndex
  | none, map => map
  | some l, map => indexRows l map
end

mutual
/-- Function `mapRows(rows, map, columnInfosByFieldName)`: `rows.map(...)`, with
the heap handed from one call of the callback to the next. -/
def mapRows (map : RowIndex) (columnInfosByFieldName : ColumnInfos) :
    List RefNode → FieldHeap → List RefNode × FieldHeap
  | [], heap => ([], heap)
  | row :: rest, heap =>
    let first := mapRow map columnInfosByFieldName row heap
    let others := mapRows map columnInfosByFieldName rest first.2
    (first.1 :: others.1, others.2)
/-- The callback of `rows.map` in `mapRows`: first the rows of the row's
`includedDocuments` are mapped and assigned to the row, whether or not the row
is replaced afterwards; then, when the row's id is in `map`, the entry is merged
with the column infos and that copy is returned, else the row itself.  The
assignment changes the row, which is a value here, and is not carried into an
entry of `map`: a row that has `includedDocuments` is taken not to be one of the
node objects of `fromRows`. -/
def mapRow (map : RowIndex) (columnInfosByFieldName : ColumnInfos) :
    RefNode → FieldHeap → RefNode × FieldHeap
  | RefNode.mk i f c ind l, heap =>
    let docs := mapRowsDocs map columnInfosByFieldName c heap
    match map.lookup i with
    | some entry => mergeColumnInfosIntoViewRow columnInfosByFieldName entry docs.2
    | none => (RefNode.mk i f docs.1 ind l, docs.2)
/-- The part `if (includedDocuments) row.includedDocuments = mapRows(...)`. -/
def mapRowsDocs (map : RowIndex) (columnInfosByFieldName : ColumnInfos) :
    Option (List RefNode) → FieldHeap → Option (List RefNode) × FieldHeap
  | none, heap => (none, heap)
  | some l, heap =>
    let mapped := mapRows map columnInfosByFieldName l heap
    (some mapped.1, mapped.2)
end

/-- What holds the rows `toRows`: a plain array, as `flattenRows` builds it, or
an `Immutable.List`.  Both have `map` and `findIndex`; the `Immutable.List` alone
has `delete`. -/
inductive RowsKind where
  | array
  | immutableList
deriving DecidableEq, Repr

/-- The object `{ rows, removedRows }` that `mergeRows` and `removeRows` return. -/
structure MergeResult where
  rows : List RefNode
  removedRows : List Nat

/-- One call of the callback of `changedRows.forEach` in `removeRows`.  When a
row has the id, `rowsList.delete(idx)` is called: on an `Immutable.List` it gives
the list without that row, on a plain array it is the `TypeError`
"rowsList.delete is not a function", here `none`. -/
def removeRowsStep (kind : RowsKind) (acc : MergeResult) (id : Nat) : Option MergeResult :=
  match acc.rows.findIdx? (fun row => row.id == id) with
  | some idx =>
    match kind with
    | RowsKind.immutableList =>
      some { rows := acc.rows.eraseIdx idx, removedRows := acc.removedRows ++ [id] }
    | RowsKind.array => none
  | none => some acc

/-- The loop `changedRows.forEach(...)` of `removeRows`; a `TypeError` ends it. -/
def removeRowsLoop (kind : RowsKind) : List Nat → MergeResult → Option MergeResult
  | [], acc => some acc
  | id :: rest, acc =>
    match removeRowsStep kind acc id with
    | none => none
    | some acc' => removeRowsLoop kind rest acc'

/-- Function `removeRows(rowsList, changedRows)`. -/
def removeRows (kind : RowsKind) (rowsList : List RefNode) (changedRows : List Nat) :
    Option MergeResult :=
  removeRowsLoop kind changedRows { rows := rowsList, removedRows := [] }

/-- Function `mergeRows({ toRows, fromRows, columnInfosByFieldName, changedIds })`,
called while the field objects are as `heap` has them; `kind` says what holds
`toRows`.  The result is the returned object and the heap after the call.
`none` is a `TypeError`: of `fromRows.length` on an absent `fromRows`, of
`changedRows.forEach` on an absent `changedIds`, or of `rowsList.delete`. -/
def mergeRows (kind : RowsKind) (toRows : List RefNode) (fromRows : Option (List RefNode))
    (columnInfosByFieldName : ColumnInfos) (changedIds : Option (List Nat))
    (heap : FieldHeap) : Option (MergeResult × FieldHeap) :=
  match fromRows, changedIds with
  | none, none => some ({ rows := toRows, removedRows := [] }, heap)
  | none, some _ => none
  | some [], none => none
  | some [], some ids =>
    match removeRows kind toRows ids with
    | none => none
    | some res => some (res, heap)
  | some (r :: rs), _ =>
    let mapped := mapRows (indexRows (r :: rs) []) columnInfosByFieldName toRows heap
    some ({ rows := mapped.1, removedRows := [] }, mapped.2)

/-! ## Collapse state: `createCollapsedMap`, `createCollapsedRows`, `collapseTableRow` -/

/-- The three collapse structures of a table.  An entry of `collapsedArrayMap`
is a node snapshot, or `none` for an `undefined` element. -/
structure CollapseState where
  collapsedParentRows : List Nat
  collapsedRows : List Nat
  collapsedArrayMap : List (Option Node)

/-- The expression `initialMap.indexOf(node.includedDocuments[0])`.  `indexOf`
compares objects by identity and `collapseTableRow` hands in a `cloneDeep` of the
stored array, so a first child is never found; of an empty `includedDocuments`
the element `[0]` is `undefined`, which is found at the first `undefined` entry. -/
def indexOfFirstChild (initialMap : List (Option Node)) (docs : List Node) : Int :=
  match docs with
  | [] =>
    match initialMap.findIdx? (fun item => item.isNone) with
    | some idx => (idx : Int)
    | none => -1
  | _ :: _ => -1

/-- The argument of `collapsedMap.concat(node.includedDocuments)`: the elements
of the array, or the single element `undefined`. -/
def concatArg : Option (List Node) → List (Option Node)
  | none => [none]
  | some docs => docs.map some

/-- The callback loop `initialMap.map((item) => ...)` of `createCollapsedMap`:
every item is pushed, and after an item with the id of `node` the children of
`node` are appended.  Reading `item.id` of an `undefined` item throws. -/
def createCollapsedMapLoop (node : Node) :
    List (Option Node) → List (Option Node) → Option (List (Option Node))
  | [], collapsedMap => some collapsedMap
  | none :: _, _ => none
  | some item :: rest, collapsedMap =>
    if item.id = node.id then
      createCollapsedMapLoop node rest
        ((collapsedMap ++ [some item]) ++ concatArg node.includedDocuments)
    else createCollapsedMapLoop node rest (collapsedMap ++ [some item])

/-- Function `createCollapsedMap(node, isCollapsed, initialMap)`.  `none` is a
`TypeError`: `node.includedDocuments[0]` on a node without `includedDocuments`,
or `item.id` on an `undefined` item. -/
def createCollapsedMap (node : Node) (isCollapsed : Bool)
    (initialMap : Option (List (Option Node))) : Option (List (Option Node)) :=
  match initialMap with
  | some m =>
    if !isCollapsed then
      match node.includedDocuments with
      | none => none
      | some docs => some (splice m (indexOfFirstChild m docs) docs.length)
    else createCollapsedMapLoop node m []
  | none => if node.includedDocuments.isSome then some [some node] else some []

/-- The callback of `rows.forEach` in `createCollapsedRows`, run over the rows
that are left.  A row without `indent` throws at `row.indent.length`; the
`catch` around the loop swallows it and the loop is abandoned with the state
built so far. -/
def createCollapsedRowsLoop (keyProperty : Node → Nat) (expandedDepth : Nat) :
    List Node → CollapseState → CollapseState
  | [], s => s
  | row :: rest, s =>
    match row.indent with
    | none => s
    | some indent =>
      if expandedDepth ≤ indent.length ∧ row.includedDocuments.isSome then
        match createCollapsedMap row false none with
        | none => s
        | some m =>
          createCollapsedRowsLoop keyProperty expandedDepth rest
            { collapsedArrayMap := s.collapsedArrayMap ++ m,
              collapsedParentRows := s.collapsedParentRows ++ [keyProperty row],
              collapsedRows := s.collapsedRows }
      else if expandedDepth < indent.length then
        createCollapsedRowsLoop keyProperty expandedDepth rest
          { s with collapsedRows := s.collapsedRows ++ [keyProperty row] }
      else createCollapsedRowsLoop keyProperty expandedDepth rest s

/-- Function `createCollapsedRows({ rows, collapsible, expandedDepth, keyProperty })`:
the payload of the `collapseRows` action it dispatches, `none` when it dispatches
nothing (table not collapsible).  `keyProperty` is the projection
`row[keyProperty]`. -/
def createCollapsedRows (rows : List Node) (collapsible : Bool) (expandedDepth : Nat)
    (keyProperty : Node → Nat) : Option CollapseState :=
  if collapsible then
    some (if rows.length ≠ 0 then
        createCollapsedRowsLoop keyProperty expandedDepth rows
          { collapsedParentRows := [], collapsedRows := [], collapsedArrayMap := [] }
      else { collapsedParentRows := [], collapsedRows := [], collapsedArrayMap := [] })
  else none

mutual
/-- The closure `inner(parentNode)` of `collapseTableRow`, with the three
variables it assigns as the state.  `collapse = true` means the row is collapsed
now and gets expanded; `collapse = false` collapses it.  `none` is a thrown
`TypeError`. -/
def inner (keyProperty : Node → Nat) (collapse : Bool) : Node → CollapseState → Option CollapseState
  | Node.mk i f c ind l, s =>
    match createCollapsedMap (Node.mk i f c ind l) collapse (some s.collapsedArrayMap) with
    | none => none
    | some m =>
      if collapse then
        innerDocs keyProperty collapse c
          { collapsedArrayMap := m,
            collapsedParentRows :=
              splice s.collapsedParentRows
                (indexOf s.collapsedParentRows (keyProperty (Node.mk i f c ind l))) 1,
            collapsedRows := s.collapsedRows }
      else if indexOf s.collapsedParentRows (keyProperty (Node.mk i f c ind l)) > -1 then
        some { s with collapsedArrayMap := m }
      else
        innerDocs keyProperty collapse c
          { collapsedArrayMap := m,
            collapsedParentRows := s.collapsedParentRows ++ [keyProperty (Node.mk i f c ind l)],
            collapsedRows := s.collapsedRows }
/-- The statement `parentNode.includedDocuments && parentNode.includedDocuments.map(...)`. -/
def innerDocs (keyProperty : Node → Nat) (collapse : Bool) :
    Option (List Node) → CollapseState → Option CollapseState
  | none, s => some s
  | some docs, s => innerLoop keyProperty collapse docs s
/-- The callback of `parentNode.includedDocuments.map`, run over the children
that are left. -/
def innerLoop (keyProperty : Node → Nat) (collapse : Bool) :
    List Node → CollapseState → Option CollapseState
  | [], s => some s
  | childNode :: rest, s =>
    if collapse then
      innerLoop keyProperty collapse rest
        { s with collapsedRows :=
            splice s.collapsedRows (indexOf s.collapsedRows (keyProperty childNode)) 1 }
    else if indexOf s.collapsedRows (keyProperty childNode) > -1 then
      innerLoop keyProperty collapse rest s
    else
      match childNode.includedDocuments with
      | none =>
        innerLoop keyProperty collapse rest
          { s with collapsedRows := s.collapsedRows ++ [keyProperty childNode] }
      | some _ =>
        match inner keyProperty collapse childNode
            { s with collapsedRows := s.collapsedRows ++ [keyProperty childNode] } with
        | none => none
        | some s' => innerLoop keyProperty collapse rest s'
end

/-- Function `collapseTableRow({ tableId, collapse, node })` on the collapse
state `table` of the table: the `returnData` it dispatches, or `none` when
`inner` throws and nothing is dispatched.  The three structures are deep copies
of the stored ones. -/
def collapseTableRow (keyProperty : Node → Nat) (table : CollapseState) (collapse : Bool)
    (node : Node) : Option CollapseState :=
  inner keyProperty collapse node table

/-! ## Tree vocabulary used by the statements -/

mutual
/-- Ids of a node and of all its descendants in depth-first pre-order. -/
def preorderIds : Node → List Nat
  | Node.mk i _ c _ _ => i :: preorderIdsDocs c
/-- Pre-order ids below an `includedDocuments` property. -/
def preorderIdsDocs : Option (List Node) → List Nat
  | none => []
  | some l => preorderIdsList l
/-- Pre-order ids of a list of sibling nodes, siblings in list order. -/
def preorderIdsList : List Node → List Nat
  | [] => []
  | n :: rest => preorderIds n ++ preorderIdsList rest
end

mutual
/-- Number of nodes of the subtree of a node, the node included. -/
def nodeCount : Node → Nat
  | Node.mk _ _ c _ _ => 1 + nodeCountDocs c
/-- Number of nodes below an `includedDocuments` property. -/
def nodeCountDocs : Option (List Node) → Nat
  | none => 0
  | some l => nodeCountList l
/-- Number of nodes of a list of trees. -/
def nodeCountList : List Node → Nat
  | [] => 0
  | n :: rest => nodeCount n + nodeCountList rest
end

/-- Every entry of the index is filed under its own id. -/
def RowIndex.Keyed (map : RowIndex) : Prop :=
  ∀ i e, map.lookup i = some e → e.id = i

/-- The number `row.indent.length` of a row that carries an indent. -/
def Node.indentLength (row : Node) : Nat := (row.indent.getD []).length

/-- First case of the depth rule of the builder: the row has children and its
depth is at least `expandedDepth`. -/
def collapsesAsParent (expandedDepth : Nat) (row : Node) : Bool :=
  decide (expandedDepth ≤ row.indentLength) && row.includedDocuments.isSome

/-- Second case of the depth rule of the builder: the first case does not apply
and the depth of the row is greater than `expandedDepth`. -/
def collapsesAsRow (expandedDepth : Nat) (row : Node) : Bool :=
  !(collapsesAsParent expandedDepth row) && decide (expandedDepth < row.indentLength)

/-- A raw leaf node with the given id. -/
def leafNode (i : Nat) : Node := Node.mk i [] none none none

/-- The tree `{id:1, includedDocuments:[{id:2},{id:3, includedDocuments:[{id:4}]}]}`
of the scenarios. -/
def scenarioTree : Node :=
  Node.mk 1 [] (some [leafNode 2, Node.mk 3 [] (some [leafNode 4]) none none]) none none

mutual
/-- Ids of the nodes of a subtree, the node itself included, that have an
`includedDocuments` property. -/
def parentIds : Node → List Nat
  | Node.mk i _ c _ _ => (if c.isSome then [i] else []) ++ parentIdsDocs c
/-- Ids of the nodes with `includedDocuments` below an `includedDocuments` property. -/
def parentIdsDocs : Option (List Node) → List Nat
  | none => []
  | some l => parentIdsList l
/-- Ids of the nodes with `includedDocuments` in a list of trees. -/
def parentIdsList : List Node → List Nat
  | [] => []
  | n :: rest => parentIds n ++ parentIdsList rest
end

/-- Ids of all proper descendants of a node, direct and transitive. -/
def descendantIds (n : Node) : List Nat := preorderIdsDocs n.includedDocuments

/-- Ids of the direct children of a node. -/
def childIds (n : Node) : List Nat :=
  match n.includedDocuments with
  | none => []
  | some docs => docs.map Node.id

/-- What a collapse run of `inner` may change between the states `s` and `s'`
when it walks nodes with the ids `ids` whose children and further descendants
have the ids `desc`: `collapsedRows` only grows, it then holds all of `desc`, and
what is new in `collapsedParentRows` and `collapsedRows` comes from `ids` and
`desc`. -/
def CollapseFrame (s s' : CollapseState) (ids desc : List Nat) : Prop :=
  (∀ x ∈ s.collapsedRows, x ∈ s'.collapsedRows) ∧
  (∀ x ∈ desc, x ∈ s'.collapsedRows) ∧
  (∀ x ∈ s'.collapsedParentRows, x ∈ s.collapsedParentRows ∨ x ∈ ids) ∧
  (∀ x ∈ s'.collapsedRows, x ∈ s.collapsedRows ∨ x ∈ desc)

mutual
/-- All nodes of the subtree of a node, the node first. -/
def subnodes : Node → List Node
  | Node.mk i f c ind l => Node.mk i f c ind l :: subnodesDocs c
/-- All nodes below an `includedDocuments` property. -/
def subnodesDocs : Option (List Node) → List Node
  | none => []
  | some l => subnodesList l
/-- All nodes of a list of trees. -/
def subnodesList : List Node → List Node
  | [] => []
  | n :: rest => subnodes n ++ subnodesList rest
end

mutual
/-- The skeleton of a node: its id and the skeletons of its children, without
field values, `indent` and `lastChild`. -/
def skeleton : Node → Node
  | Node.mk i _ c _ _ => Node.mk i [] (skeletonDocs c) none none
/-- Skeleton of an `includedDocuments` property. -/
def skeletonDocs : Option (List Node) → Option (List Node)
  | none => none
  | some l => some (skeletonList l)
/-- Skeletons of a list of nodes. -/
def skeletonList : List Node → List Node
  | [] => []
  | n :: rest => skeleton n :: skeletonList rest
end

/-- The node `n` is a node of the tree `T`, whatever its field values, `indent`
and `lastChild`: a raw node of `T` or the row that `flattenRows` makes of it. -/
def IsNodeOf (T : List Node) (n : Node) : Prop :=
  skeleton n ∈ (subnodesList T).map skeleton

/-- In the tree `T` the id `a` is the id of an ancestor of the node with id `x`. -/
def IsAncestorIn (T : List Node) (a x : Nat) : Prop :=
  ∃ n ∈ subnodesList T, n.id = a ∧ x ∈ descendantIds n

/-- In the forest `F` the id `p` is the id of the parent of the node with id `x`. -/
def IsParentIn (F : List Node) (p x : Nat) : Prop :=
  ∃ n ∈ subnodesList F, n.id = p ∧ x ∈ childIds n

/-- The collapse states of the table of the tree `T`: the state that
`createCollapsedRows` builds from `flattenRows(T)`, and every state that
`collapseTableRow` returns from such a state for a node of `T` with children and
a flag that agrees with the state (`collapse = true`, an expand, iff the id of
the node is in `collapsedParentRows`). -/
inductive Reachable (parseToDisplay : FieldsByName → FieldsByName) (T : List Node)
    (expandedDepth : Nat) : CollapseState → Prop
  | build (s : CollapseState) :
      createCollapsedRows (flattenRows parseToDisplay (some T)) true expandedDepth Node.id
        = some s →
      Reachable parseToDisplay T expandedDepth s
  | toggle (s s' : CollapseState) (n : Node) (collapse : Bool) :
      Reachable parseToDisplay T expandedDepth s →
      IsNodeOf T n → n.includedDocuments.isSome = true →
      (collapse = true ↔ n.id ∈ s.collapsedParentRows) →
      collapseTableRow Node.id s collapse n = some s' →
      Reachable parseToDisplay T expandedDepth s'

/-- The row `r` of the rows `rows`, made from the forest `F` whose roots are at
depth `d`, carries an indent and either is the row of a root of `F`, at depth
`d`, or lies deeper and has the row of its parent among `rows`: a row with
`includedDocuments`, one level up. -/
def RowPlaced (F : List Node) (d : Nat) (rows : List Node) (r : Node) : Prop :=
  r.indent.isSome = true ∧
  ((r.indentLength = d ∧ r.id ∈ F.map Node.id) ∨
    (d < r.indentLength ∧ ∃ q ∈ rows, q.includedDocuments.isSome = true ∧
      q.indentLength + 1 = r.indentLength ∧ IsParentIn F q.id r.id))

/-- What a collapse run of `inner` over the forest `F` keeps between the states
`s` and `s'`: `collapsedParentRows` only grows, `collapsedArrayMap` only shrinks,
`collapsedRows` stays free of duplicates, and every id that is new in
`collapsedRows` is the id of a root of `roots` or has its parent in `F` in
`collapsedParentRows`. -/
def CollapseKeeps (F roots : List Node) (s s' : CollapseState) : Prop :=
  (∀ p ∈ s.collapsedParentRows, p ∈ s'.collapsedParentRows) ∧
  (s.collapsedRows.Nodup → s'.collapsedRows.Nodup) ∧
  s'.collapsedArrayMap.Sublist s.collapsedArrayMap ∧
  (∀ x ∈ s'.collapsedRows, x ∈ s.collapsedRows ∨ x ∈ roots.map Node.id ∨
    ∃ p ∈ s'.collapsedParentRows, IsParentIn F p x)

/-- The invariant of the reachable collapse states of the tree `T`. -/
def CollapseInv (T : List Node) (s : CollapseState) : Prop :=
  s.collapsedRows.Nodup ∧
  (∀ item ∈ s.collapsedArrayMap, item.isSome = true) ∧
  ∀ x ∈ s.collapsedRows, ∃ p ∈ s.collapsedParentRows, IsParentIn T p x

instance (T : List Node) (n : Node) : Decidable (IsNodeOf T n) := by
  unfold IsNodeOf
  infer_instance

/-! ## The field formatter: `parseToDisplay` -/

/-- The widget types that `parseDateToReadable` treats as dates. -/
def dateParse : List String := ["Date", "ZonedDateTime", "Time", "Timestamp"]

/-- Function `parseDateToReadable(fieldsByName)`: every field whose `widgetType`
is in `dateParse` and whose `value` is truthy gets the value
`parseDateWithCurrentTimezone(field.value)`; any other field is kept.  The
Moment object that `parseDateWithCurrentTimezone` builds is outside the
embedding, so that function is a parameter. -/
def parseDateToReadable (parseDateWithCurrentTimezone : String → String)
    (fieldsByName : FieldsByName) : FieldsByName :=
  fieldsByName.foldl
    (fun acc e =>
      setProperty acc e.1
        (if (match e.2.widgetType with
              | some w => decide (w ∈ dateParse)
              | none => false) && decide (e.2.value ≠ "") then
          { e.2 with value := parseDateWithCurrentTimezone e.2.value }
        else e.2)) []

/-- Function `parseToDisplay(fieldsByName)`:
`parseDateToReadable(nullToEmptyStrings(fieldsByName))`.  The helper
`nullToEmptyStrings` of `utils/index` is a parameter. -/
def parseToDisplay (nullToEmptyStrings : FieldsByName → FieldsByName)
    (parseDateWithCurrentTimezone : String → String) (fieldsByName : FieldsByName) :
    FieldsByName :=
  parseDateToReadable parseDateWithCurrentTimezone (nullToEmptyStrings fieldsByName)

/-- A formatter for the evaluations: `parseToDisplay` with a `nullToEmptyStrings`
that finds no `null`, the Moment of a value written as `"Moment"`. -/
def sampleParseToDisplay : FieldsByName → FieldsByName :=
  parseToDisplay (fun fieldsByName => fieldsByName) (fun _ => "Moment")

/-- The tree `{id:1, includedDocuments:[{id:2, fieldsByName:{DateOrdered: ...}}]}`
whose child carries a date field with a value. -/
def datedTree : Node :=
  Node.mk 1 []
    (some [Node.mk 2
      [("DateOrdered",
        { field := "DateOrdered", value := "2020-01-01", widgetType := some "Date" })]
      none none none])
    none none

/-! ## Places of a tree -/

/-- A node of a tree together with its depth (`0` for a root node, one more than
its parent for a child) and whether it is the last element of the
`includedDocuments` list that holds it. -/
structure Place where
  node : Node
  depth : Nat
  isLast : Bool

mutual
/-- The places of a node at depth `d` and of its descendants, in pre-order. -/
def places : Node → Nat → Bool → List Place
  | Node.mk i f c ind l, d, last =>
    { node := Node.mk i f c ind l, depth := d, isLast := last } :: placesDocs c (d + 1)
/-- The places below an `includedDocuments` property whose elements are at depth `d`. -/
def placesDocs : Option (List Node) → Nat → List Place
  | none, _ => []
  | some docs, d => placesList docs d
/-- The places of the elements of an `includedDocuments` list from some index
on, at depth `d`; the last element of the list is marked. -/
def placesList : List Node → Nat → List Place
  | [], _ => []
  | n :: rest, d => places n d rest.isEmpty ++ placesList rest d
end

/-- The places of a tree given by its root nodes: the roots are at depth `0` and
belong to no `includedDocuments` list. -/
def placesRoots : List Node → List Place
  | [] => []
  | n :: rest => places n 0 false ++ placesRoots rest

/-- What the row of a place shows of it: id, `fieldsByName`, length of `indent`
and `lastChild`. -/
def rowInfo (row : Node) : Nat × FieldsByName × Option Nat × Option Bool :=
  (row.id, row.fieldsByName, row.indent.map List.length, row.lastChild)

/-- What `flattenRows` puts into the row of a place: the id of the node, its
`fieldsByName` (formatted unless the node is a root), an indent of the length of
the depth, and `lastChild: true` on a last element (the own `lastChild` of the
node otherwise). -/
def placeInfo (parseToDisplay : FieldsByName → FieldsByName) (pl : Place) :
    Nat × FieldsByName × Option Nat × Option Bool :=
  (pl.node.id,
    if pl.depth = 0 then pl.node.fieldsByName else parseToDisplay pl.node.fieldsByName,
    some pl.depth,
    if pl.isLast then some true else pl.node.lastChild)

/-- The row `r` of the rows `rows`, made from the forest `F` whose roots get the
indent `base`, either is the row of a root of `F` and has the indent `base`, or
has the row of its parent among `rows` and has the indent that the loop of
`mapIncluded` computes from that row: the indent of the parent with `true`
appended, after the statement `markParentLast` for a parent marked `lastChild`. -/
def RowIndented (F : List Node) (base : List Bool) (rows : List Node) (r : Node) : Prop :=
  (r.indent = some base ∧ r.id ∈ F.map Node.id) ∨
    ∃ q ∈ rows, ∃ qind, q.indent = some qind ∧ IsParentIn F q.id r.id ∧
      r.indent = some (markParentLast (qind ++ [true]) (truthy q.lastChild))

/-- The array that the callback loop of `createCollapsedMap` builds from
`initialMap`: every entry, and after every entry with the id of `node` the
children of `node`. -/
def insertChildren (node : Node) : List (Option Node) → List (Option Node)
  | [] => []
  | item :: rest =>
    (if item.map Node.id = some node.id then item :: concatArg node.includedDocuments
      else [item]) ++ insertChildren node rest

/-! ## Ancestor chains -/

/-- A node of a tree together with what its ancestor chain `a_0` (a root),
`a_1`, ..., `a_d` (the node itself) says about last elements: entry `j` of
`lasts` tells whether `a_(j+1)` is the last element of the `includedDocuments`
list of `a_j`.  A root has the empty list; the length of `lasts` is the depth. -/
structure ChainPlace where
  node : Node
  lasts : List Bool

mutual
/-- The chain places of a node whose chain says `lasts`, and of its descendants,
in pre-order. -/
def chains : Node → List Bool → List ChainPlace
  | Node.mk i f c ind l, lasts =>
    { node := Node.mk i f c ind l, lasts := lasts } :: chainsDocs c lasts
/-- The chain places below the `includedDocuments` property of a node whose
chain says `lasts`. -/
def chainsDocs : Option (List Node) → List Bool → List ChainPlace
  | none, _ => []
  | some docs, lasts => chainsList docs lasts
/-- The chain places of the elements of an `includedDocuments` list from some
index on; the chain of an element is the chain of the parent, extended by
whether the element is the last one of the list. -/
def chainsList : List Node → List Bool → List ChainPlace
  | [], _ => []
  | n :: rest, lasts => chains n (lasts ++ [rest.isEmpty]) ++ chainsList rest lasts
end

/-- The chain places of a tree given by its root nodes. -/
def chainsRoots : List Node → List ChainPlace
  | [] => []
  | n :: rest => chains n [] ++ chainsRoots rest

/-- The indent that the chain `lasts` of a node stands for: nothing for a root;
else one entry per ancestor level below the root, `false` where the ancestor on
that level is a last element and `true` where it is not, and `true` at the end
for the node itself. -/
def chainIndent (lasts : List Bool) : List Bool :=
  if lasts = [] then [] else lasts.dropLast.map (fun b => !b) ++ [true]

/-- Whether the node at the end of the chain `lasts` is a last element; a root
is none. -/
def chainLast (lasts : List Bool) : Bool := lasts.getLast?.getD false

/-! ## Theorems -/

/-! ### Flattening -/

mutual
theorem mapIncludedDocs_ids (p : FieldsByName → FieldsByName) :
    ∀ (c : Option (List Node)) (ind : List Bool) (nl : Bool),
      (mapIncludedDocs p c ind nl).1.map Node.id = preorderIdsDocs c
  | none, _, _ => by simp [mapIncludedDocs, preorderIdsDocs]
  | some l, ind, nl => by
    simp only [mapIncludedDocs, preorderIdsDocs]
    exact mapIncludedLoop_ids p l ind nl
theorem mapIncludedLoop_ids (p : FieldsByName → FieldsByName) :
    ∀ (l : List Node) (ind : List Bool) (nl : Bool),
      (mapIncludedLoop p l ind nl).1.map Node.id = preorderIdsList l
  | [], _, _ => by simp [mapIncludedLoop, preorderIdsList]
  | child :: rest, ind, nl => by
    simp only [mapIncludedLoop, preorderIdsList, List.map_append]
    rw [mapIncludedChild_ids p child rest.isEmpty ind nl, mapIncludedLoop_ids p rest ind nl]
theorem mapIncludedChild_ids (p : FieldsByName → FieldsByName) :
    ∀ (n : Node) (isLast : Bool) (ind : List Bool) (nl : Bool),
      (mapIncludedChild p n isLast ind nl).1.map Node.id = preorderIds n
  | Node.mk i f c oi l, isLast, ind, nl => by
    simp only [mapIncludedChild, preorderIds, List.map_cons, Node.id]
    rw [mapIncludedDocs_ids p c]
end

theorem mapIncluded_ids (p : FieldsByName → FieldsByName) (n : Node)
    (indent : Option (List Bool)) (ipl : Bool) :
    (mapIncluded p n indent ipl).1.map Node.id = preorderIds n := by
  cases n with
  | mk i f c oi l =>
    simp only [mapIncluded, preorderIds, List.map_cons, Node.id, Node.includedDocuments]
    rw [mapIncludedDocs_ids p c]

theorem flattenRowsLoop_ids (p : FieldsByName → FieldsByName) (T : List Node) :
    (flattenRowsLoop p T).1.map Node.id = preorderIdsList T := by
  induction T with
  | nil => simp [flattenRowsLoop, preorderIdsList]
  | cons n rest ih =>
    simp only [flattenRowsLoop, preorderIdsList, List.map_append]
    rw [mapIncluded_ids, ih]

mutual
theorem preorderIds_length : ∀ n : Node, (preorderIds n).length = nodeCount n
  | Node.mk i f c oi l => by
    simp only [preorderIds, nodeCount, List.length_cons]
    rw [preorderIdsDocs_length c]; omega
theorem preorderIdsDocs_length : ∀ c : Option (List Node),
    (preorderIdsDocs c).length = nodeCountDocs c
  | none => by simp [preorderIdsDocs, nodeCountDocs]
  | some l => by
    simp only [preorderIdsDocs, nodeCountDocs]
    exact preorderIdsList_length l
theorem preorderIdsList_length : ∀ l : List Node,
    (preorderIdsList l).length = nodeCountList l
  | [] => by simp [preorderIdsList, nodeCountList]
  | n :: rest => by
    simp only [preorderIdsList, nodeCountList, List.length_append]
    rw [preorderIds_length n, preorderIdsList_length rest]
end

/-- C1: for every tree `T` the ids of `flattenRows(T)` are the ids of `T` in
depth-first pre-order with siblings in source order, so `flattenRows(T)` has one
row per node of `T`: its length is the node count of `T`. -/
theorem flattenRows_preorder (parseToDisplay : FieldsByName → FieldsByName) (T : List Node) :
    (flattenRows parseToDisplay (some T)).map Node.id = preorderIdsList T ∧
      (flattenRows parseToDisplay (some T)).length = nodeCountList T := by
  have h := flattenRowsLoop_ids parseToDisplay T
  refine ⟨h, ?_⟩
  have h2 := congrArg List.length h
  rw [List.length_map, preorderIdsList_length] at h2
  exact h2

/-- The loop body of `mapIncluded` is the call `mapIncluded(copy,
ind.concat([true]), node.lastChild)` of the source on the copy of the child. -/
theorem mapIncludedChild_rows (p : FieldsByName → FieldsByName) (i : Nat) (f : FieldsByName)
    (c : Option (List Node)) (oi : Option (List Bool)) (l : Option Bool) (isLast : Bool)
    (ind : List Bool) (nl : Bool) :
    (mapIncludedChild p (Node.mk i f c oi l) isLast ind nl).1 =
      (mapIncluded p (Node.mk i (p f) c oi (if isLast then some true else l))
        (some (ind ++ [true])) nl).1 := by
  simp [mapIncludedChild, mapIncluded, Node.id, Node.fieldsByName, Node.includedDocuments,
    Node.lastChild]


/-! ### Merge: the replace path -/

theorem RowIndex.keyed_nil : RowIndex.Keyed [] := by
  intro i e h
  simp [List.lookup] at h

theorem RowIndex.keyed_cons (map : RowIndex) (n : RefNode) (h : RowIndex.Keyed map) :
    RowIndex.Keyed ((n.id, n) :: map) := by
  intro i e he
  by_cases hi : i = n.id
  · subst hi
    simp [List.lookup] at he
    rw [← he]
  · have hne : (i == n.id) = false := by simpa using hi
    simp only [List.lookup, hne] at he
    exact h i e he

mutual
theorem indexRows_keyed : ∀ (rows : List RefNode) (map : RowIndex),
    RowIndex.Keyed map → RowIndex.Keyed (indexRows rows map)
  | [], map, h => by simpa [indexRows] using h
  | row :: rest, map, h => by
    simp only [indexRows]
    exact indexRows_keyed rest _ (indexRow_keyed row map h)
theorem indexRow_keyed : ∀ (row : RefNode) (map : RowIndex),
    RowIndex.Keyed map → RowIndex.Keyed (indexRow row map)
  | RefNode.mk i f c ind l, map, h => by
    simp only [indexRow]
    exact indexRowsDocs_keyed c _ (RowIndex.keyed_cons map (RefNode.mk i f c ind l) h)
theorem indexRowsDocs_keyed : ∀ (c : Option (List RefNode)) (map : RowIndex),
    RowIndex.Keyed map → RowIndex.Keyed (indexRowsDocs c map)
  | none, map, h => by simpa [indexRowsDocs] using h
  | some l, map, h => by
    simp only [indexRowsDocs]
    exact indexRows_keyed l map h
end

theorem mergeColumnInfosIntoViewRow_id (cols : ColumnInfos) (row : RefNode) (heap : FieldHeap) :
    (mergeColumnInfosIntoViewRow cols row heap).1.id = row.id := by
  cases row
  rfl

theorem mergeColumnInfosIntoViewRow_indent (cols : ColumnInfos) (row : RefNode)
    (heap : FieldHeap) :
    (mergeColumnInfosIntoViewRow cols row heap).1.indent = row.indent := by
  cases row
  rfl

theorem mapRow_id (map : RowIndex) (cols : ColumnInfos) (h : RowIndex.Keyed map) (row : RefNode)
    (heap : FieldHeap) :
    (mapRow map cols row heap).1.id = row.id := by
  cases row with
  | mk i f c ind l =>
    simp only [mapRow]
    cases hl : map.lookup i with
    | none => rfl
    | some e =>
      simp only [mergeColumnInfosIntoViewRow_id]
      exact h i e hl

theorem mapRows_ids (map : RowIndex) (cols : ColumnInfos) (h : RowIndex.Keyed map) :
    ∀ (rows : List RefNode) (heap : FieldHeap),
      (mapRows map cols rows heap).1.map RefNode.id = rows.map RefNode.id
  | [], heap => by simp [mapRows]
  | row :: rest, heap => by
    simp only [mapRows, List.map_cons, mapRows_ids map cols h rest, mapRow_id map cols h]

/-- C3: on the replace path (`fromRows` non-empty) `mergeRows` returns, for
every `toRows` in a plain array or an `Immutable.List` and every state of the
field objects, a rows list of the length of `toRows` whose row at each position
has the id of the row of `toRows` at that position, whether or not that id occurs
in `fromRows`, and `removedRows` is empty. -/
theorem mergeRows_replace_keeps_ids (kind : RowsKind) (toRows : List RefNode) (r : RefNode)
    (rs : List RefNode) (columnInfosByFieldName : ColumnInfos) (changedIds : Option (List Nat))
    (heap : FieldHeap) :
    ∃ (res : MergeResult) (heap' : FieldHeap),
      mergeRows kind toRows (some (r :: rs)) columnInfosByFieldName changedIds heap =
        some (res, heap') ∧
      res.rows.length = toRows.length ∧
      res.rows.map RefNode.id = toRows.map RefNode.id ∧
      (∀ (k : Nat) (h1 : k < res.rows.length) (h2 : k < toRows.length),
        (res.rows.get ⟨k, h1⟩).id = (toRows.get ⟨k, h2⟩).id) ∧
      res.removedRows = [] := by
  have hk := indexRows_keyed (r :: rs) [] RowIndex.keyed_nil
  have hids := mapRows_ids _ columnInfosByFieldName hk toRows heap
  refine ⟨_, _, rfl, ?_, hids, ?_, rfl⟩
  · have := congrArg List.length hids
    simpa using this
  · intro k h1 h2
    have h3 : (List.map RefNode.id
        (mapRows (indexRows (r :: rs) []) columnInfosByFieldName toRows heap).1)[k]? =
        (List.map RefNode.id toRows)[k]? := by rw [hids]
    simp only [List.getElem?_map] at h3
    rw [List.getElem?_eq_getElem h1, List.getElem?_eq_getElem h2] at h3
    simpa using h3

/-! ### Merge: two calls in a row -/

/-- One call of `mergeRows` with `toRows = [{id: 1, includedDocuments: [{id: 2}]}]`,
`fromRows = [{id: 1, includedDocuments: [{id: 2, fieldsByName: {k}}]}]` and the
column info `k: {widgetType: 'Text'}`: row 1 of the result is the copy of the
entry 1, and its child 2 is the entry 2 itself, whose field `k` got its
`widgetType` in place while the children of row 1 were mapped. -/
theorem mergeRows_shares_field_objects :
    ∃ (res : MergeResult) (heap' : FieldHeap),
      mergeRows RowsKind.array
        [RefNode.mk 1 [] (some [RefNode.mk 2 [] none none none]) none none]
        (some [RefNode.mk 1 [] (some [RefNode.mk 2 [("k", 0)] none none none]) none none])
        [("k", ColumnInfo.mk (some "Text"))] none [ViewRowField.mk "k" "v" none] =
        some (res, heap') ∧
      readRows heap' res.rows =
        [Node.mk 1 []
          (some [Node.mk 2 [("k", ViewRowField.mk "k" "v" (some "Text"))] none none none])
          none none] :=
  ⟨_, _, rfl, rfl⟩

/-- C2 fails on the code.  `toRows = [{id: 1}]`,
`fromRows = [{id: 1, includedDocuments: [{id: 2, fieldsByName: {k}}]}]`, column
info `k: {widgetType: 'Text'}`.  The first call returns row 1 with the child 2
whose field `k` has no `widgetType`.  The second call, on the rows the first one
returned and with the field objects as the first one left them, maps the child 2
of that row, finds it in the index and assigns `widgetType` on its field object;
the row 1 it returns holds that same child, so there `k` has the `widgetType`
`'Text'`: the two calls do not return the same rows.  Child 2 has no
`includedDocuments`, so the second call assigns to no node of `fromRows`. -/
theorem mergeRows_second_call_differs :
    ∃ (first second : MergeResult) (heap1 heap2 : FieldHeap),
      mergeRows RowsKind.array [RefNode.mk 1 [] none none none]
        (some [RefNode.mk 1 [] (some [RefNode.mk 2 [("k", 0)] none none none]) none none])
        [("k", ColumnInfo.mk (some "Text"))] none [ViewRowField.mk "k" "v" none] =
        some (first, heap1) ∧
      mergeRows RowsKind.array first.rows
        (some [RefNode.mk 1 [] (some [RefNode.mk 2 [("k", 0)] none none none]) none none])
        [("k", ColumnInfo.mk (some "Text"))] none heap1 = some (second, heap2) ∧
      readRows heap1 first.rows =
        [Node.mk 1 [] (some [Node.mk 2 [("k", ViewRowField.mk "k" "v" none)] none none none])
          none none] ∧
      readRows heap2 second.rows =
        [Node.mk 1 []
          (some [Node.mk 2 [("k", ViewRowField.mk "k" "v" (some "Text"))] none none none])
          none none] ∧
      readRows heap2 second.rows ≠ readRows heap1 first.rows :=
  ⟨_, _, _, _, rfl, rfl, rfl, rfl, by decide⟩

/-! ### Merge: the deletion path -/

theorem eraseIdx_findIdx_of_nodup (x : Nat) :
    ∀ (rows : List RefNode) (idx : Nat), (rows.map RefNode.id).Nodup →
      rows.findIdx? (fun row => row.id == x) = some idx →
      rows.eraseIdx idx = rows.filter (fun row => decide (row.id ≠ x))
  | [], idx, _, h => by simp at h
  | row :: rest, idx, hnd, h => by
    rw [List.map_cons, List.nodup_cons] at hnd
    by_cases hx : row.id = x
    · have hidx : idx = 0 := by
        simp [List.findIdx?_cons, hx] at h
        exact h.symm
      subst hidx
      have hrest : ∀ r ∈ rest, r.id ≠ x := by
        intro r hr hrx
        apply hnd.1
        rw [hx, ← hrx]
        exact List.mem_map_of_mem _ hr
      simp only [List.eraseIdx_cons_zero, List.filter_cons, hx, ne_eq, not_true_eq_false,
        decide_False, Bool.false_eq_true, ↓reduceIte]
      symm
      rw [List.filter_eq_self]
      intro r hr
      simpa using hrest r hr
    · have hb : (row.id == x) = false := by simpa using hx
      rw [List.findIdx?_cons, hb] at h
      simp only [Bool.false_eq_true, ↓reduceIte] at h
      rw [List.findIdx?_succ, Option.map_eq_some'] at h
      obtain ⟨j, hj, rfl⟩ := h
      have ih := eraseIdx_findIdx_of_nodup x rest j hnd.2 hj
      simp only [List.eraseIdx_cons_succ, ih, List.filter_cons, ne_eq, hx, not_false_eq_true,
        decide_True, ↓reduceIte]

theorem findIdx_none_filter (x : Nat) (rows : List RefNode)
    (h : rows.findIdx? (fun row => row.id == x) = none) :
    rows.filter (fun row => decide (row.id ≠ x)) = rows ∧ x ∉ rows.map RefNode.id := by
  rw [List.findIdx?_eq_none_iff] at h
  constructor
  · rw [List.filter_eq_self]
    intro r hr
    have := h r hr
    simpa using this
  · intro hx
    rw [List.mem_map] at hx
    obtain ⟨r, hr, hrx⟩ := hx
    have := h r hr
    simp [hrx] at this

theorem findIdx_some_mem (x : Nat) (rows : List RefNode) (idx : Nat)
    (h : rows.findIdx? (fun row => row.id == x) = some idx) : x ∈ rows.map RefNode.id := by
  by_contra hx
  have : rows.findIdx? (fun row => row.id == x) = none := by
    rw [List.findIdx?_eq_none_iff]
    intro r hr
    have hne : r.id ≠ x := fun e => hx (e ▸ List.mem_map_of_mem _ hr)
    simpa using hne
  rw [this] at h
  cases h

theorem findIdx_none_of_not_mem (x : Nat) (rows : List RefNode)
    (h : x ∉ rows.map RefNode.id) : rows.findIdx? (fun row => row.id == x) = none := by
  cases hf : rows.findIdx? (fun row => row.id == x) with
  | none => rfl
  | some idx => exact absurd (findIdx_some_mem x rows idx hf) h

/-- On an `Immutable.List` every step of `removeRows` returns. -/
theorem removeRowsStep_immutableList (acc : MergeResult) (id : Nat) :
    removeRowsStep RowsKind.immutableList acc id =
      some (match acc.rows.findIdx? (fun row => row.id == id) with
        | some idx => { rows := acc.rows.eraseIdx idx, removedRows := acc.removedRows ++ [id] }
        | none => acc) := by
  unfold removeRowsStep
  cases acc.rows.findIdx? (fun row => row.id == id) <;> rfl

theorem removeRowsLoop_immutableList (ids : List Nat) :
    ∀ acc : MergeResult, (acc.rows.map RefNode.id).Nodup →
      (∀ x ∈ acc.removedRows, x ∉ acc.rows.map RefNode.id) → acc.removedRows.Nodup →
      ∃ res : MergeResult, removeRowsLoop RowsKind.immutableList ids acc = some res ∧
        res.rows = acc.rows.filter (fun row => decide (row.id ∉ ids)) ∧
        res.removedRows.Nodup ∧
        ∀ x, x ∈ res.removedRows ↔
          x ∈ acc.removedRows ∨ (x ∈ ids ∧ x ∈ acc.rows.map RefNode.id) := by
  induction ids with
  | nil =>
    intro acc _ _ hnd
    exact ⟨acc, rfl, by simp, hnd, by simp⟩
  | cons id rest ih =>
    intro acc hrows hdisj hnd
    simp only [removeRowsLoop, removeRowsStep_immutableList]
    cases hf : acc.rows.findIdx? (fun row => row.id == id) with
    | none =>
      obtain ⟨res, h0, h1, h2, h3⟩ := ih acc hrows hdisj hnd
      obtain ⟨hfil, hnot⟩ := findIdx_none_filter id acc.rows hf
      refine ⟨res, h0, ?_, h2, ?_⟩
      · rw [h1]
        apply List.filter_congr
        intro r hr
        have hne : r.id ≠ id := fun e => hnot (e ▸ List.mem_map_of_mem _ hr)
        simp [hne]
      · intro x
        rw [h3]
        constructor
        · rintro (h | ⟨h, h'⟩)
          · exact Or.inl h
          · exact Or.inr ⟨List.mem_cons_of_mem _ h, h'⟩
        · rintro (h | ⟨h, h'⟩)
          · exact Or.inl h
          · rcases List.mem_cons.mp h with rfl | h
            · exact absurd h' hnot
            · exact Or.inr ⟨h, h'⟩
    | some idx =>
      have hmem := findIdx_some_mem id acc.rows idx hf
      have herase := eraseIdx_findIdx_of_nodup id acc.rows idx hrows hf
      have hrows' : ((acc.rows.filter (fun row => decide (row.id ≠ id))).map RefNode.id).Nodup :=
        (hrows.sublist ((List.filter_sublist _).map _))
      have hidnot : id ∉ (acc.rows.filter (fun row => decide (row.id ≠ id))).map RefNode.id := by
        intro h
        rw [List.mem_map] at h
        obtain ⟨r, hr, hrx⟩ := h
        rw [List.mem_filter] at hr
        simp [hrx] at hr
      have hdisj' : ∀ x ∈ acc.removedRows ++ [id],
          x ∉ (acc.rows.filter (fun row => decide (row.id ≠ id))).map RefNode.id := by
        intro x hx
        rcases List.mem_append.mp hx with h | h
        · intro hx'
          exact hdisj x h (((List.filter_sublist _).map _).subset hx')
        · rw [List.mem_singleton] at h
          subst h
          exact hidnot
      have hnd' : (acc.removedRows ++ [id]).Nodup := by
        rw [List.nodup_append]
        refine ⟨hnd, List.nodup_singleton _, ?_⟩
        intro x hx hx'
        rw [List.mem_singleton] at hx'
        subst hx'
        exact hdisj x hx hmem
      simp only [herase]
      obtain ⟨res, h0, h1, h2, h3⟩ := ih
        { rows := acc.rows.filter (fun row => decide (row.id ≠ id)),
          removedRows := acc.removedRows ++ [id] } hrows' hdisj' hnd'
      refine ⟨res, h0, ?_, h2, ?_⟩
      · rw [h1]
        simp only [List.filter_filter]
        apply List.filter_congr
        intro r _
        by_cases hr : r.id = id <;> simp [hr]
      · intro x
        rw [h3]
        simp only [List.mem_append, List.mem_singleton, List.mem_map, List.mem_filter,
          List.mem_cons, List.not_mem_nil, or_false]
        constructor
        · rintro ((h | h) | ⟨h, r, ⟨hr, _⟩, hrx⟩)
          · exact Or.inl h
          · subst h
            right
            refine ⟨Or.inl rfl, ?_⟩
            simpa [List.mem_map] using hmem
          · exact Or.inr ⟨Or.inr h, r, hr, hrx⟩
        · rintro (h | ⟨h | h, r, hr, hrx⟩)
          · exact Or.inl (Or.inl h)
          · exact Or.inl (Or.inr h)
          · by_cases hx : x = id
            · exact Or.inl (Or.inr hx)
            · right
              refine ⟨h, r, ⟨hr, ?_⟩, hrx⟩
              simp [hrx, hx]

/-- On an `Immutable.List` the loop of `removeRows` returns, whatever the ids. -/
theorem removeRowsLoop_immutableList_returns (ids : List Nat) :
    ∀ acc : MergeResult, ∃ res : MergeResult,
      removeRowsLoop RowsKind.immutableList ids acc = some res := by
  induction ids with
  | nil => intro acc; exact ⟨acc, rfl⟩
  | cons id rest ih =>
    intro acc
    simp only [removeRowsLoop, removeRowsStep_immutableList]
    exact ih _

/-- On a plain array the loop of `removeRows` returns its rows untouched when no
id matches a row. -/
theorem removeRowsLoop_array_of_not_mem (acc : MergeResult) :
    ∀ ids : List Nat, (∀ x ∈ ids, x ∉ acc.rows.map RefNode.id) →
      removeRowsLoop RowsKind.array ids acc = some acc
  | [], _ => rfl
  | id :: rest, h => by
    have hf := findIdx_none_of_not_mem id acc.rows (h id (List.mem_cons_self _ _))
    simp only [removeRowsLoop, removeRowsStep, hf]
    exact removeRowsLoop_array_of_not_mem acc rest
      (fun x hx => h x (List.mem_cons_of_mem _ hx))

/-- On a plain array the loop of `removeRows` throws when an id matches a row. -/
theorem removeRowsLoop_array_of_mem (acc : MergeResult) :
    ∀ ids : List Nat, (∃ x ∈ ids, x ∈ acc.rows.map RefNode.id) →
      removeRowsLoop RowsKind.array ids acc = none
  | [], h => by
    obtain ⟨x, hx, _⟩ := h
    cases hx
  | id :: rest, h => by
    cases hf : acc.rows.findIdx? (fun row => row.id == id) with
    | some idx => simp only [removeRowsLoop, removeRowsStep, hf]
    | none =>
      simp only [removeRowsLoop, removeRowsStep, hf]
      apply removeRowsLoop_array_of_mem acc rest
      obtain ⟨x, hx, hmem⟩ := h
      rcases List.mem_cons.mp hx with rfl | hx
      · exact absurd hmem (findIdx_none_filter _ acc.rows hf).2
      · exact ⟨x, hx, hmem⟩

theorem removeRows_array_eq_none (rows : List RefNode) (ids : List Nat) :
    removeRows RowsKind.array rows ids = none ↔ ∃ x ∈ ids, x ∈ rows.map RefNode.id := by
  constructor
  · intro h
    by_contra hno
    have hall : ∀ x ∈ ids, x ∉ rows.map RefNode.id := fun x hx hm => hno ⟨x, hx, hm⟩
    have := removeRowsLoop_array_of_not_mem { rows := rows, removedRows := [] } ids hall
    rw [removeRows] at h
    rw [h] at this
    cases this
  · intro h
    exact removeRowsLoop_array_of_mem { rows := rows, removedRows := [] } ids h

/-- C4, as stated, fails: rows 1, 2, 3 with distinct ids held in a plain array,
deletion path with `changedIds = [2]`: the call throws at `rowsList.delete`. -/
theorem mergeRows_delete_counterexample :
    ([RefNode.mk 1 [] none (some []) none, RefNode.mk 2 [] none (some []) none,
        RefNode.mk 3 [] none (some []) none].map RefNode.id).Nodup ∧
    mergeRows RowsKind.array
      [RefNode.mk 1 [] none (some []) none, RefNode.mk 2 [] none (some []) none,
        RefNode.mk 3 [] none (some []) none] (some []) [] (some [2]) [] = none :=
  ⟨by decide, rfl⟩

/-- C4, amended: on the deletion path (`fromRows` is the empty list), for rows
with pairwise distinct ids held in an `Immutable.List` and any `changedIds`,
`mergeRows` returns (it does not fail) as `rows` the rows whose id is not in
`changedIds`, in their original order, and as `removedRows` the ids of
`changedIds` that occur in the rows, each once; an id of `changedIds` that
matches no row is left out; the field objects stay as they are.  For rows held
in a plain array the call throws exactly when some id of `changedIds` is the id
of a row, and returns the rows unchanged with `removedRows = []` otherwise. -/
theorem mergeRows_delete (rows : List RefNode) (columnInfosByFieldName : ColumnInfos)
    (changedIds : List Nat) (heap : FieldHeap) (hdistinct : (rows.map RefNode.id).Nodup) :
    (∃ res : MergeResult,
      mergeRows RowsKind.immutableList rows (some []) columnInfosByFieldName (some changedIds)
        heap = some (res, heap) ∧
      res.rows = rows.filter (fun row => decide (row.id ∉ changedIds)) ∧
      res.removedRows.Nodup ∧
      ∀ x, x ∈ res.removedRows ↔ x ∈ changedIds ∧ x ∈ rows.map RefNode.id) ∧
    (mergeRows RowsKind.array rows (some []) columnInfosByFieldName (some changedIds) heap =
        none ↔ ∃ x ∈ changedIds, x ∈ rows.map RefNode.id) ∧
    ((∀ x ∈ changedIds, x ∉ rows.map RefNode.id) →
      mergeRows RowsKind.array rows (some []) columnInfosByFieldName (some changedIds) heap =
        some ({ rows := rows, removedRows := [] }, heap)) := by
  refine ⟨?_, ?_, ?_⟩
  · obtain ⟨res, h0, h1, h2, h3⟩ := removeRowsLoop_immutableList changedIds
      { rows := rows, removedRows := [] } hdistinct (by simp) (by simp)
    refine ⟨res, ?_, h1, h2, ?_⟩
    · simp only [mergeRows, removeRows, h0]
    · intro x
      have := h3 x
      simpa using this
  · rw [← removeRows_array_eq_none]
    simp only [mergeRows]
    cases removeRows RowsKind.array rows changedIds <;> simp
  · intro h
    have := removeRowsLoop_array_of_not_mem { rows := rows, removedRows := [] } changedIds h
    simp only [mergeRows, removeRows, this]

/-- Witness of C4 (amended): rows 1, 2, 3 and `changedIds = [2, 7, 2]`. -/
theorem mergeRows_delete_witness :
    (∃ res : MergeResult,
      mergeRows RowsKind.immutableList
        [RefNode.mk 1 [] none (some []) none, RefNode.mk 2 [] none (some []) none,
          RefNode.mk 3 [] none (some []) none] (some []) [] (some [2, 7, 2]) [] =
        some (res, []) ∧
      res.rows = [RefNode.mk 1 [] none (some []) none, RefNode.mk 2 [] none (some []) none,
          RefNode.mk 3 [] none (some []) none].filter
            (fun row => decide (row.id ∉ [2, 7, 2])) ∧
      res.removedRows.Nodup ∧
      ∀ x, x ∈ res.removedRows ↔ x ∈ [2, 7, 2] ∧
        x ∈ [RefNode.mk 1 [] none (some []) none, RefNode.mk 2 [] none (some []) none,
          RefNode.mk 3 [] none (some []) none].map RefNode.id) ∧
    (mergeRows RowsKind.array
        [RefNode.mk 1 [] none (some []) none, RefNode.mk 2 [] none (some []) none,
          RefNode.mk 3 [] none (some []) none] (some []) [] (some [2, 7, 2]) [] = none ↔
      ∃ x ∈ [2, 7, 2], x ∈ [RefNode.mk 1 [] none (some []) none,
        RefNode.mk 2 [] none (some []) none, RefNode.mk 3 [] none (some []) none].map
          RefNode.id) ∧
    ((∀ x ∈ [2, 7, 2], x ∉ [RefNode.mk 1 [] none (some []) none,
        RefNode.mk 2 [] none (some []) none, RefNode.mk 3 [] none (some []) none].map
          RefNode.id) →
      mergeRows RowsKind.array
        [RefNode.mk 1 [] none (some []) none, RefNode.mk 2 [] none (some []) none,
          RefNode.mk 3 [] none (some []) none] (some []) [] (some [2, 7, 2]) [] =
        some ({ rows := [RefNode.mk 1 [] none (some []) none,
                  RefNode.mk 2 [] none (some []) none, RefNode.mk 3 [] none (some []) none],
                removedRows := [] }, [])) :=
  mergeRows_delete _ [] [2, 7, 2] [] (by decide)


/-! ### Array primitives -/

theorem indexOf_gt_iff {l : List Nat} {x : Nat} : indexOf l x > -1 ↔ x ∈ l := by
  unfold indexOf
  by_cases h : x ∈ l
  · simp only [h, ↓reduceIte, iff_true]
    omega
  · simp [h]

theorem splice_indexOf_of_mem : ∀ {l : List Nat} {x : Nat}, x ∈ l →
    splice l (indexOf l x) 1 = l.erase x
  | [], x, h => by simp at h
  | a :: l, x, h => by
    by_cases hax : a = x
    · subst hax
      simp [splice, indexOf, List.indexOf_cons_eq]
    · have hx : x ∈ l := by
        rcases List.mem_cons.mp h with h | h
        · exact absurd h.symm hax
        · exact h
      have ih := splice_indexOf_of_mem hx
      have hne : ¬ (x = a) := fun e => hax e.symm
      simp only [splice, indexOf, h, hx, ↓reduceIte, List.indexOf_cons_ne _ hax] at ih ⊢
      have hlt : List.indexOf x l < l.length := List.indexOf_lt_length.mpr hx
      have h1 : ¬ ((List.indexOf x l : Int) < 0) := by omega
      have h2 : ¬ (((List.indexOf x l + 1 : Nat) : Int) < 0) := by omega
      simp only [h1, h2, ↓reduceIte, Int.toNat_ofNat] at ih ⊢
      rw [List.erase_cons_tail (by simpa using hax)]
      have e1 : min (List.indexOf x l + 1) (a :: l).length = (min (List.indexOf x l) l.length) + 1 := by
        simp only [List.length_cons]; omega
      rw [e1]
      simp only [List.take_succ_cons, List.cons_append, List.cons.injEq, true_and]
      rw [← ih]
      congr 1

theorem splice_indexOf_of_not_mem {l : List Nat} {x : Nat} (h : x ∉ l) :
    splice l (indexOf l x) 1 = l.dropLast := by
  simp only [splice, indexOf, h, ↓reduceIte]
  have h0 : ((-1 : Int) < 0) := by omega
  simp only [h0, ↓reduceIte]
  have : (-1 : Int).natAbs = 1 := rfl
  rw [this, List.dropLast_eq_take]
  have hd : List.drop (l.length - 1 + 1) l = [] := by
    apply List.drop_eq_nil_of_le
    omega
  rw [hd, List.append_nil]

theorem splice_sublist {α : Type} (l : List α) (start : Int) (n : Nat) :
    (splice l start n).Sublist l := by
  unfold splice
  generalize (if start < 0 then l.length - start.natAbs else min start.toNat l.length) = s
  have h : (l.take s ++ l.drop (s + n)).Sublist (l.take s ++ l.drop s) := by
    apply List.Sublist.append_left
    rw [← List.drop_drop]
    exact List.drop_sublist _ _
  rwa [List.take_append_drop] at h


/-! ### Collapse state builder -/

theorem createCollapsedRowsLoop_spec (keyProperty : Node → Nat) (expandedDepth : Nat) :
    ∀ (rows : List Node) (s : CollapseState), (∀ row ∈ rows, row.indent.isSome = true) →
      createCollapsedRowsLoop keyProperty expandedDepth rows s =
        { collapsedParentRows := s.collapsedParentRows ++
            (rows.filter (collapsesAsParent expandedDepth)).map keyProperty,
          collapsedRows := s.collapsedRows ++
            (rows.filter (collapsesAsRow expandedDepth)).map keyProperty,
          collapsedArrayMap := s.collapsedArrayMap ++
            (rows.filter (collapsesAsParent expandedDepth)).map some }
  | [], s, _ => by simp [createCollapsedRowsLoop]
  | row :: rest, s, h => by
    have hrow : row.indent.isSome = true := h row (List.mem_cons_self _ _)
    have hrest : ∀ r ∈ rest, r.indent.isSome = true :=
      fun r hr => h r (List.mem_cons_of_mem _ hr)
    obtain ⟨indent, hind⟩ := Option.isSome_iff_exists.mp hrow
    have hlen : row.indentLength = indent.length := by simp [Node.indentLength, hind]
    by_cases hp : expandedDepth ≤ indent.length ∧ row.includedDocuments.isSome = true
    · have hP : collapsesAsParent expandedDepth row = true := by
        simp [collapsesAsParent, hlen, hp.1, hp.2]
      have hR : collapsesAsRow expandedDepth row = false := by
        simp [collapsesAsRow, hP]
      simp only [createCollapsedRowsLoop, hind, hp, and_self, ↓reduceIte, createCollapsedMap]
      rw [createCollapsedRowsLoop_spec keyProperty expandedDepth rest _ hrest]
      simp [List.filter_cons, hP, hR]
    · have hP : collapsesAsParent expandedDepth row = false := by
        cases hc : collapsesAsParent expandedDepth row with
        | false => rfl
        | true =>
          simp only [collapsesAsParent, Bool.and_eq_true, decide_eq_true_eq, hlen] at hc
          exact absurd hc hp
      by_cases hr : expandedDepth < indent.length
      · have hR : collapsesAsRow expandedDepth row = true := by
          simp [collapsesAsRow, hP, hlen, hr]
        simp only [createCollapsedRowsLoop, hind, hp, ↓reduceIte, hr]
        rw [createCollapsedRowsLoop_spec keyProperty expandedDepth rest _ hrest]
        simp [List.filter_cons, hP, hR]
      · have hR : collapsesAsRow expandedDepth row = false := by
          simp [collapsesAsRow, hP, hlen, hr]
        simp only [createCollapsedRowsLoop, hind, hp, ↓reduceIte, hr]
        rw [createCollapsedRowsLoop_spec keyProperty expandedDepth rest _ hrest]
        simp [List.filter_cons, hP, hR]

theorem createCollapsedRows_spec (keyProperty : Node → Nat) (expandedDepth : Nat)
    (rows : List Node) (h : ∀ row ∈ rows, row.indent.isSome = true) :
    createCollapsedRows rows true expandedDepth keyProperty =
      some { collapsedParentRows := (rows.filter (collapsesAsParent expandedDepth)).map keyProperty,
             collapsedRows := (rows.filter (collapsesAsRow expandedDepth)).map keyProperty,
             collapsedArrayMap := (rows.filter (collapsesAsParent expandedDepth)).map some } := by
  cases rows with
  | nil => simp [createCollapsedRows]
  | cons row rest =>
    simp only [createCollapsedRows, ↓reduceIte, List.length_cons, ne_eq,
      Nat.add_one_ne_zero, not_false_eq_true]
    rw [createCollapsedRowsLoop_spec keyProperty expandedDepth (row :: rest) _ h]
    simp

/-- C8: for a collapsible table, rows that all carry an indent and any
`expandedDepth`, `createCollapsedRows` dispatches the state in which
`collapsedParentRows` holds the keys of the rows with
`indent.length >= expandedDepth` that have `includedDocuments`, in row order,
`collapsedArrayMap` holds those same rows in the same order, and `collapsedRows`
holds the keys of the remaining rows with `indent.length > expandedDepth`; a row
that meets neither condition (its key being that of no other row) is in none of
the three. -/
theorem createCollapsedRows_depth_rule (keyProperty : Node → Nat) (expandedDepth : Nat)
    (rows : List Node) (h : ∀ row ∈ rows, row.indent.isSome = true) :
    ∃ s : CollapseState,
      createCollapsedRows rows true expandedDepth keyProperty = some s ∧
      s.collapsedParentRows =
        (rows.filter (fun row => decide (expandedDepth ≤ row.indentLength) &&
          row.includedDocuments.isSome)).map keyProperty ∧
      s.collapsedArrayMap =
        (rows.filter (fun row => decide (expandedDepth ≤ row.indentLength) &&
          row.includedDocuments.isSome)).map some ∧
      s.collapsedRows =
        (rows.filter (fun row =>
          !(decide (expandedDepth ≤ row.indentLength) && row.includedDocuments.isSome) &&
            decide (expandedDepth < row.indentLength))).map keyProperty ∧
      ∀ row ∈ rows,
        ¬ (expandedDepth ≤ row.indentLength ∧ row.includedDocuments.isSome = true) →
        ¬ (expandedDepth < row.indentLength) →
        (∀ other ∈ rows, keyProperty other = keyProperty row → other = row) →
        keyProperty row ∉ s.collapsedParentRows ∧ keyProperty row ∉ s.collapsedRows ∧
          some row ∉ s.collapsedArrayMap := by
  refine ⟨_, createCollapsedRows_spec keyProperty expandedDepth rows h, rfl, rfl, rfl, ?_⟩
  intro row _ h1 h2 huniq
  have hP : collapsesAsParent expandedDepth row = false := by
    cases hc : collapsesAsParent expandedDepth row with
    | false => rfl
    | true =>
      simp only [collapsesAsParent, Bool.and_eq_true, decide_eq_true_eq] at hc
      exact absurd hc h1
  have hR : collapsesAsRow expandedDepth row = false := by
    simp [collapsesAsRow, hP, h2]
  refine ⟨?_, ?_, ?_⟩
  · intro hm
    obtain ⟨o, ho, hk⟩ := List.mem_map.mp hm
    obtain ⟨ho1, ho2⟩ := List.mem_filter.mp ho
    rw [huniq o ho1 hk, hP] at ho2
    cases ho2
  · intro hm
    obtain ⟨o, ho, hk⟩ := List.mem_map.mp hm
    obtain ⟨ho1, ho2⟩ := List.mem_filter.mp ho
    rw [huniq o ho1 hk, hR] at ho2
    cases ho2
  · intro hm
    obtain ⟨o, ho, hk⟩ := List.mem_map.mp hm
    obtain ⟨_, ho2⟩ := List.mem_filter.mp ho
    rw [Option.some.inj hk, hP] at ho2
    cases ho2

/-- Witness of C8: the rows of the scenario tree with `expandedDepth = 1`. -/
theorem createCollapsedRows_depth_rule_witness :
    ∃ s : CollapseState,
      createCollapsedRows (flattenRows id (some [scenarioTree])) true 1 Node.id = some s ∧
      s.collapsedParentRows =
        ((flattenRows id (some [scenarioTree])).filter (fun row =>
          decide (1 ≤ row.indentLength) && row.includedDocuments.isSome)).map Node.id ∧
      s.collapsedArrayMap =
        ((flattenRows id (some [scenarioTree])).filter (fun row =>
          decide (1 ≤ row.indentLength) && row.includedDocuments.isSome)).map some ∧
      s.collapsedRows =
        ((flattenRows id (some [scenarioTree])).filter (fun row =>
          !(decide (1 ≤ row.indentLength) && row.includedDocuments.isSome) &&
            decide (1 < row.indentLength))).map Node.id ∧
      ∀ row ∈ flattenRows id (some [scenarioTree]),
        ¬ (1 ≤ row.indentLength ∧ row.includedDocuments.isSome = true) →
        ¬ (1 < row.indentLength) →
        (∀ other ∈ flattenRows id (some [scenarioTree]), other.id = row.id → other = row) →
        row.id ∉ s.collapsedParentRows ∧ row.id ∉ s.collapsedRows ∧
          some row ∉ s.collapsedArrayMap :=
  createCollapsedRows_depth_rule Node.id 1 (flattenRows id (some [scenarioTree]))
    (by decide)

/-- C9, as stated, fails: for the scenario tree, flattened and built with
`expandedDepth = 0`, id 3 is in `collapsedParentRows` (so that set is not `{1}`),
id 3 is not in `collapsedRows` (so that set is not `{2,3,4}`), and
`collapsedArrayMap` has two entries, not one. -/
theorem createCollapsedRows_scenario_counterexample :
    ∃ s : CollapseState,
      createCollapsedRows (flattenRows id (some [scenarioTree])) true 0 Node.id = some s ∧
      3 ∈ s.collapsedParentRows ∧ 3 ∉ s.collapsedRows ∧ s.collapsedArrayMap.length = 2 :=
  ⟨_, rfl, by decide, by decide, by decide⟩

/-- C9, amended: for the scenario tree, flattened with `flattenRows` (whatever
the field formatter) and built with `collapsible = true`, `keyProperty = id` and
`expandedDepth = 0`, the state has `collapsedParentRows = [1, 3]`,
`collapsedRows = [2, 4]` and `collapsedArrayMap` = [row 1, row 3]. -/
theorem createCollapsedRows_scenario (parseToDisplay : FieldsByName → FieldsByName) :
    ∃ s : CollapseState,
      createCollapsedRows (flattenRows parseToDisplay (some [scenarioTree])) true 0 Node.id
        = some s ∧
      s.collapsedParentRows = [1, 3] ∧ s.collapsedRows = [2, 4] ∧
      s.collapsedArrayMap =
        ((flattenRows parseToDisplay (some [scenarioTree])).filter
          (fun row => row.id = 1 ∨ row.id = 3)).map some ∧
      s.collapsedArrayMap.map (Option.map Node.id) = [some 1, some 3] :=
  ⟨_, rfl, rfl, rfl, rfl, rfl⟩


/-! ### Collapse toggle: collapsing -/

mutual
theorem parentIds_subset : ∀ (n : Node) (x : Nat), x ∈ parentIds n → x ∈ preorderIds n
  | Node.mk i f c ind l, x, h => by
    simp only [parentIds, List.mem_append] at h
    simp only [preorderIds, List.mem_cons]
    rcases h with h | h
    · left
      split at h
      · simpa using h
      · simp at h
    · exact Or.inr (parentIdsDocs_subset c x h)
theorem parentIdsDocs_subset : ∀ (c : Option (List Node)) (x : Nat),
    x ∈ parentIdsDocs c → x ∈ preorderIdsDocs c
  | none, x, h => by simp [parentIdsDocs] at h
  | some l, x, h => by
    simp only [parentIdsDocs] at h
    simp only [preorderIdsDocs]
    exact parentIdsList_subset l x h
theorem parentIdsList_subset : ∀ (l : List Node) (x : Nat),
    x ∈ parentIdsList l → x ∈ preorderIdsList l
  | [], x, h => by simp [parentIdsList] at h
  | n :: rest, x, h => by
    simp only [parentIdsList, List.mem_append] at h
    simp only [preorderIdsList, List.mem_append]
    rcases h with h | h
    · exact Or.inl (parentIds_subset n x h)
    · exact Or.inr (parentIdsList_subset rest x h)
end

theorem preorderIds_head (n : Node) : n.id ∈ preorderIds n := by
  cases n
  simp [preorderIds, Node.id]

mutual
theorem inner_collapse_frame : ∀ (n : Node) (s : CollapseState),
    n.includedDocuments.isSome = true → (preorderIds n).Nodup →
    n.id ∉ s.collapsedParentRows →
    (∀ x ∈ parentIdsDocs n.includedDocuments,
      x ∉ s.collapsedParentRows ∧ x ∉ s.collapsedRows) →
    ∃ s', inner Node.id false n s = some s' ∧
      CollapseFrame s s' (preorderIds n) (preorderIdsDocs n.includedDocuments)
  | Node.mk i f c ind l, s, hc, hnd, hR, hfresh => by
    simp only [Node.includedDocuments] at hc hfresh
    simp only [Node.id] at hR
    obtain ⟨docs, rfl⟩ := Option.isSome_iff_exists.mp hc
    simp only [preorderIds, List.nodup_cons] at hnd
    have hidx : ¬ (indexOf s.collapsedParentRows i > -1) := by
      rw [indexOf_gt_iff]; exact hR
    have hfresh' : ∀ x ∈ parentIdsDocs (some docs),
        x ∉ s.collapsedParentRows ++ [i] ∧ x ∉ s.collapsedRows := by
      intro x hx
      refine ⟨?_, (hfresh x hx).2⟩
      simp only [List.mem_append, List.mem_singleton, not_or]
      refine ⟨(hfresh x hx).1, ?_⟩
      rintro rfl
      exact hnd.1 (parentIdsDocs_subset _ _ hx)
    obtain ⟨s', hs', h1, h2, h3, h4⟩ := innerDocs_collapse_frame (some docs)
      { collapsedArrayMap :=
          splice s.collapsedArrayMap (indexOfFirstChild s.collapsedArrayMap docs) docs.length,
        collapsedParentRows := s.collapsedParentRows ++ [i],
        collapsedRows := s.collapsedRows } hnd.2 hfresh'
    refine ⟨s', ?_, h1, h2, ?_, h4⟩
    · simp only [inner, createCollapsedMap, Node.includedDocuments, Node.id, Bool.not_false,
        ↓reduceIte, Bool.false_eq_true, hidx]
      exact hs'
    · intro x hx
      rcases h3 x hx with h | h
      · simp only [List.mem_append, List.mem_singleton] at h
        rcases h with h | h
        · exact Or.inl h
        · right; simp [preorderIds, h]
      · right; simp only [preorderIds, List.mem_cons]; exact Or.inr h
theorem innerDocs_collapse_frame : ∀ (c : Option (List Node)) (s : CollapseState),
    (preorderIdsDocs c).Nodup →
    (∀ x ∈ parentIdsDocs c, x ∉ s.collapsedParentRows ∧ x ∉ s.collapsedRows) →
    ∃ s', innerDocs Node.id false c s = some s' ∧
      CollapseFrame s s' (preorderIdsDocs c) (preorderIdsDocs c)
  | none, s, _, _ => by
    refine ⟨s, by simp [innerDocs], ?_⟩
    simp [CollapseFrame, preorderIdsDocs]
  | some l, s, hnd, hfresh => by
    simp only [preorderIdsDocs] at hnd ⊢
    simp only [parentIdsDocs] at hfresh
    obtain ⟨s', hs', hframe⟩ := innerLoop_collapse_frame l s hnd hfresh
    exact ⟨s', by simpa [innerDocs] using hs', hframe⟩
theorem innerLoop_collapse_frame : ∀ (l : List Node) (s : CollapseState),
    (preorderIdsList l).Nodup →
    (∀ x ∈ parentIdsList l, x ∉ s.collapsedParentRows ∧ x ∉ s.collapsedRows) →
    ∃ s', innerLoop Node.id false l s = some s' ∧
      CollapseFrame s s' (preorderIdsList l) (preorderIdsList l)
  | [], s, _, _ => by
    refine ⟨s, by simp [innerLoop], ?_⟩
    simp [CollapseFrame, preorderIdsList]
  | Node.mk i f c ind lc :: rest, s, hnd, hfresh => by
    simp only [preorderIdsList, preorderIds, List.cons_append, List.nodup_cons,
      List.mem_append, not_or, List.nodup_append] at hnd
    obtain ⟨⟨hi1, hi2⟩, hndc, hndrest, hdisj⟩ := hnd
    have hdisj' : ∀ x, x ∈ preorderIdsDocs c → x ∉ preorderIdsList rest :=
      fun x hx hx' => hdisj hx hx'
    have hfreshrest : ∀ x ∈ parentIdsList rest,
        x ∉ s.collapsedParentRows ∧ x ∉ s.collapsedRows := by
      intro x hx
      apply hfresh
      simp only [parentIdsList, List.mem_append]
      exact Or.inr hx
    by_cases hmem : i ∈ s.collapsedRows
    · -- the child is hidden already: it is skipped, and it is a leaf
      have hidx : indexOf s.collapsedRows i > -1 := indexOf_gt_iff.mpr hmem
      have hleaf : c = none := by
        cases c with
        | none => rfl
        | some docs =>
          exfalso
          have := hfresh i (by simp [parentIdsList, parentIds])
          exact this.2 hmem
      subst hleaf
      obtain ⟨s', hs', h1, h2, h3, h4⟩ := innerLoop_collapse_frame rest s hndrest hfreshrest
      refine ⟨s', ?_, h1, ?_, ?_, ?_⟩
      · simp only [innerLoop, Bool.false_eq_true, ↓reduceIte, Node.id, hidx]
        exact hs'
      · intro x hx
        simp only [preorderIdsList, preorderIds, preorderIdsDocs, List.cons_append,
          List.nil_append, List.mem_cons] at hx
        rcases hx with rfl | hx
        · exact h1 _ hmem
        · exact h2 x hx
      · intro x hx
        rcases h3 x hx with h | h
        · exact Or.inl h
        · right; simp only [preorderIdsList, List.mem_append]; exact Or.inr h
      · intro x hx
        rcases h4 x hx with h | h
        · exact Or.inl h
        · right; simp only [preorderIdsList, List.mem_append]; exact Or.inr h
    · have hidx : ¬ (indexOf s.collapsedRows i > -1) := by
        rw [indexOf_gt_iff]; exact hmem
      cases c with
      | none =>
        have hfresh2 : ∀ x ∈ parentIdsList rest,
            x ∉ s.collapsedParentRows ∧ x ∉ s.collapsedRows ++ [i] := by
          intro x hx
          refine ⟨(hfreshrest x hx).1, ?_⟩
          simp only [List.mem_append, List.mem_singleton, not_or]
          refine ⟨(hfreshrest x hx).2, ?_⟩
          rintro rfl
          exact hi2 (parentIdsList_subset _ _ hx)
        obtain ⟨s', hs', h1, h2, h3, h4⟩ := innerLoop_collapse_frame rest
          { s with collapsedRows := s.collapsedRows ++ [i] } hndrest hfresh2
        refine ⟨s', ?_, ?_, ?_, ?_, ?_⟩
        · simp only [innerLoop, Bool.false_eq_true, ↓reduceIte, Node.id, hidx,
            Node.includedDocuments]
          exact hs'
        · intro x hx
          exact h1 x (by simp [hx])
        · intro x hx
          simp only [preorderIdsList, preorderIds, preorderIdsDocs, List.cons_append,
            List.nil_append, List.mem_cons] at hx
          rcases hx with rfl | hx
          · exact h1 _ (by simp)
          · exact h2 x hx
        · intro x hx
          rcases h3 x hx with h | h
          · exact Or.inl h
          · right; simp only [preorderIdsList, List.mem_append]; exact Or.inr h
        · intro x hx
          rcases h4 x hx with h | h
          · simp only [List.mem_append, List.mem_singleton] at h
            rcases h with h | h
            · exact Or.inl h
            · right; simp [preorderIdsList, preorderIds, h]
          · right; simp only [preorderIdsList, List.mem_append]; exact Or.inr h
      | some docs =>
        have hic : i ∉ s.collapsedParentRows ∧ i ∉ s.collapsedRows :=
          hfresh i (by simp [parentIdsList, parentIds])
        have hfreshc : ∀ x ∈ parentIdsDocs (Node.mk i f (some docs) ind lc).includedDocuments,
            x ∉ s.collapsedParentRows ∧ x ∉ s.collapsedRows ++ [i] := by
          intro x hx
          simp only [Node.includedDocuments] at hx
          have hxf := hfresh x (by
            simp only [parentIdsList, parentIds, List.mem_append]
            exact Or.inl (Or.inr hx))
          refine ⟨hxf.1, ?_⟩
          simp only [List.mem_append, List.mem_singleton, not_or]
          refine ⟨hxf.2, ?_⟩
          rintro rfl
          exact hi1 (parentIdsDocs_subset _ _ hx)
        obtain ⟨s1, hs1, g1, g2, g3, g4⟩ := inner_collapse_frame (Node.mk i f (some docs) ind lc)
          { s with collapsedRows := s.collapsedRows ++ [i] } rfl
          (by simp only [preorderIds, List.nodup_cons]; exact ⟨hi1, hndc⟩)
          hic.1 hfreshc
        simp only [Node.includedDocuments] at g2 g4
        have hfresh2 : ∀ x ∈ parentIdsList rest,
            x ∉ s1.collapsedParentRows ∧ x ∉ s1.collapsedRows := by
          intro x hx
          have hxr := parentIdsList_subset _ _ hx
          constructor
          · intro h
            rcases g3 x h with h | h
            · exact (hfreshrest x hx).1 h
            · simp only [preorderIds, List.mem_cons] at h
              rcases h with rfl | h
              · exact hi2 hxr
              · exact hdisj' x h hxr
          · intro h
            rcases g4 x h with h | h
            · simp only [List.mem_append, List.mem_singleton] at h
              rcases h with h | rfl
              · exact (hfreshrest x hx).2 h
              · exact hi2 hxr
            · exact hdisj' x h hxr
        obtain ⟨s', hs', h1, h2, h3, h4⟩ := innerLoop_collapse_frame rest s1 hndrest hfresh2
        refine ⟨s', ?_, ?_, ?_, ?_, ?_⟩
        · simp only [innerLoop, Bool.false_eq_true, ↓reduceIte, Node.id, hidx,
            Node.includedDocuments]
          rw [hs1]
          exact hs'
        · intro x hx
          exact h1 x (g1 x (by simp [hx]))
        · intro x hx
          simp only [preorderIdsList, preorderIds, List.cons_append, List.mem_cons,
            List.mem_append] at hx
          rcases hx with rfl | hx | hx
          · exact h1 _ (g1 _ (by simp))
          · exact h1 _ (g2 x hx)
          · exact h2 x hx
        · intro x hx
          rcases h3 x hx with h | h
          · rcases g3 x h with h | h
            · exact Or.inl h
            · right; simp only [preorderIdsList, List.mem_append]; exact Or.inl h
          · right; simp only [preorderIdsList, List.mem_append]; exact Or.inr h
        · intro x hx
          rcases h4 x hx with h | h
          · rcases g4 x h with h | h
            · simp only [List.mem_append, List.mem_singleton] at h
              rcases h with h | h
              · exact Or.inl h
              · right; simp [preorderIdsList, preorderIds, h]
            · right
              simp only [preorderIdsList, preorderIds, List.cons_append, List.mem_cons,
                List.mem_append]
              exact Or.inr (Or.inl h)
          · right; simp only [preorderIdsList, List.mem_append]; exact Or.inr h
end


/-- C5, as stated, fails: in the state that `createCollapsedRows` builds for the
scenario tree and an expand of node 1 leaves behind (`collapsedParentRows = [3]`,
`collapsedRows = []`), a collapse of node 1 hides the ids 2 and 3 only; id 4, a
descendant of node 1, is not in `collapsedRows`. -/
theorem collapseTableRow_collapse_counterexample :
    ∃ s0 s1 s2 : CollapseState,
      createCollapsedRows (flattenRows id (some [scenarioTree])) true 0 Node.id = some s0 ∧
      collapseTableRow Node.id s0 true scenarioTree = some s1 ∧
      s1.collapsedParentRows = [3] ∧ s1.collapsedRows = [] ∧
      collapseTableRow Node.id s1 false scenarioTree = some s2 ∧
      s2.collapsedRows = [2, 3] ∧
      4 ∈ descendantIds scenarioTree ∧ 4 ∉ s2.collapsedRows :=
  ⟨_, _, _, rfl, rfl, rfl, rfl, rfl, rfl, by decide, by decide⟩

/-- C5, amended: for every collapse state and every node `R` with children,
when the ids in the subtree of `R` are pairwise distinct, the id of `R` is not in
`collapsedParentRows`, and no descendant of `R` that itself has children is
already in `collapsedParentRows` or `collapsedRows`, a collapse of `R` by
`collapseTableRow` succeeds and leaves the id of every descendant of `R`, direct
and transitive, in `collapsedRows`. -/
theorem collapseTableRow_collapse_hides_subtree (s : CollapseState) (R : Node)
    (hchildren : R.includedDocuments.isSome = true)
    (hdistinct : (preorderIds R).Nodup)
    (hR : R.id ∉ s.collapsedParentRows)
    (hfresh : ∀ x ∈ parentIdsDocs R.includedDocuments,
      x ∉ s.collapsedParentRows ∧ x ∉ s.collapsedRows) :
    ∃ s' : CollapseState,
      collapseTableRow Node.id s false R = some s' ∧
      ∀ x ∈ descendantIds R, x ∈ s'.collapsedRows := by
  obtain ⟨s', hs', _, h2, _, _⟩ := inner_collapse_frame R s hchildren hdistinct hR hfresh
  exact ⟨s', hs', h2⟩

/-- Witness of C5 (amended): the scenario tree collapsed in the empty state. -/
theorem collapseTableRow_collapse_hides_subtree_witness :
    ∃ s' : CollapseState,
      collapseTableRow Node.id
        { collapsedParentRows := [], collapsedRows := [], collapsedArrayMap := [] }
        false scenarioTree = some s' ∧
      ∀ x ∈ descendantIds scenarioTree, x ∈ s'.collapsedRows :=
  collapseTableRow_collapse_hides_subtree
    { collapsedParentRows := [], collapsedRows := [], collapsedArrayMap := [] }
    scenarioTree (by decide) (by decide) (by decide) (by decide)

/-! ### Collapse toggle: expanding -/

/-- C6 fails on the code: in the state built for the scenario tree with
`expandedDepth = 0` (`collapsedRows = [2, 4]`), the expand of node 1 leaves
`collapsedRows = []`: id 4, a grandchild of node 1 and no direct child, is
removed as well. -/
theorem collapseTableRow_expand_removes_grandchild :
    ∃ s0 s1 : CollapseState,
      createCollapsedRows (flattenRows id (some [scenarioTree])) true 0 Node.id = some s0 ∧
      s0.collapsedParentRows = [1, 3] ∧ s0.collapsedRows = [2, 4] ∧
      collapseTableRow Node.id s0 true scenarioTree = some s1 ∧
      childIds scenarioTree = [2, 3] ∧
      4 ∈ s0.collapsedRows ∧ 4 ∉ childIds scenarioTree ∧ 4 ∉ s1.collapsedRows ∧
      s1.collapsedRows = [] :=
  ⟨_, _, rfl, rfl, rfl, rfl, rfl, by decide, by decide, by decide, rfl⟩


theorem createCollapsedMapLoop_some (node : Node) :
    ∀ (m acc : List (Option Node)), (∀ item ∈ m, item.isSome = true) →
      (∀ item ∈ acc, item.isSome = true) → node.includedDocuments.isSome = true →
      ∃ r, createCollapsedMapLoop node m acc = some r ∧ ∀ item ∈ r, item.isSome = true
  | [], acc, _, hacc, _ => ⟨acc, by simp [createCollapsedMapLoop], hacc⟩
  | none :: rest, acc, hm, _, _ => by
    have := hm none (List.mem_cons_self _ _)
    simp at this
  | some item :: rest, acc, hm, hacc, hc => by
    have hrest : ∀ x ∈ rest, x.isSome = true := fun x hx => hm x (List.mem_cons_of_mem _ hx)
    simp only [createCollapsedMapLoop]
    split
    · apply createCollapsedMapLoop_some node rest _ hrest _ hc
      intro x hx
      simp only [List.mem_append, List.mem_singleton] at hx
      rcases hx with (hx | hx) | hx
      · exact hacc x hx
      · subst hx; rfl
      · obtain ⟨docs, hd⟩ := Option.isSome_iff_exists.mp hc
        rw [hd] at hx
        simp only [concatArg, List.mem_map] at hx
        obtain ⟨d, _, rfl⟩ := hx
        rfl
    · apply createCollapsedMapLoop_some node rest _ hrest _ hc
      intro x hx
      simp only [List.mem_append, List.mem_singleton] at hx
      rcases hx with hx | hx
      · exact hacc x hx
      · subst hx; rfl

theorem innerLoop_expand (docs : List Node) :
    ∀ s : CollapseState, ∃ s', innerLoop Node.id true docs s = some s' ∧
      s'.collapsedParentRows = s.collapsedParentRows ∧
      s'.collapsedArrayMap = s.collapsedArrayMap ∧
      s'.collapsedRows.Sublist s.collapsedRows ∧
      (s.collapsedRows.Nodup → ∀ c ∈ docs, c.id ∉ s'.collapsedRows) := by
  induction docs with
  | nil => intro s; exact ⟨s, by simp [innerLoop], rfl, rfl, List.Sublist.refl _, by simp⟩
  | cons c rest ih =>
    intro s
    obtain ⟨s', hs', h1, h2, h3, h4⟩ := ih
      { s with collapsedRows := splice s.collapsedRows (indexOf s.collapsedRows c.id) 1 }
    have hsub := splice_sublist s.collapsedRows (indexOf s.collapsedRows c.id) 1
    refine ⟨s', by simpa [innerLoop] using hs', h1, h2, h3.trans hsub, ?_⟩
    intro hnd x hx
    have hnd' := hnd.sublist hsub
    rcases List.mem_cons.mp hx with rfl | hx
    · intro hmem
      have hmem' := h3.subset hmem
      by_cases hin : x.id ∈ s.collapsedRows
      · simp only [splice_indexOf_of_mem hin] at hmem'
        exact (List.Nodup.mem_erase_iff hnd).mp hmem' |>.1 rfl
      · exact hin (hsub.subset hmem')
    · exact h4 hnd' x hx

theorem inner_expand (R : Node) (s : CollapseState)
    (hchildren : R.includedDocuments.isSome = true)
    (hmap : ∀ item ∈ s.collapsedArrayMap, item.isSome = true) :
    ∃ s', inner Node.id true R s = some s' ∧
      s'.collapsedParentRows =
        splice s.collapsedParentRows (indexOf s.collapsedParentRows R.id) 1 ∧
      (∀ item ∈ s'.collapsedArrayMap, item.isSome = true) ∧
      s'.collapsedRows.Sublist s.collapsedRows ∧
      (s.collapsedRows.Nodup → ∀ x ∈ childIds R, x ∉ s'.collapsedRows) := by
  cases R with
  | mk i f c ind l =>
    obtain ⟨docs, rfl⟩ := Option.isSome_iff_exists.mp hchildren
    obtain ⟨m, hm, hmsome⟩ := createCollapsedMapLoop_some (Node.mk i f (some docs) ind l)
      s.collapsedArrayMap [] hmap (by simp) hchildren
    obtain ⟨s', hs', h1, h2, h3, h4⟩ := innerLoop_expand docs
      { collapsedArrayMap := m,
        collapsedParentRows := splice s.collapsedParentRows (indexOf s.collapsedParentRows i) 1,
        collapsedRows := s.collapsedRows }
    refine ⟨s', ?_, h1, ?_, h3, ?_⟩
    · simp only [inner, createCollapsedMap, Bool.not_true, Bool.false_eq_true, ↓reduceIte, hm,
        innerDocs, Node.id]
      exact hs'
    · rw [h2]; exact hmsome
    · intro hnd x hx
      simp only [childIds, Node.includedDocuments, List.mem_map] at hx
      obtain ⟨cnode, hc, rfl⟩ := hx
      exact h4 hnd cnode hc

theorem innerLoop_collapse_marked (docs : List Node) :
    ∀ s : CollapseState,
      (∀ c ∈ docs, c.includedDocuments.isSome = true → c.id ∈ s.collapsedParentRows) →
      ∃ s', innerLoop Node.id false docs s = some s' ∧
        s'.collapsedParentRows = s.collapsedParentRows ∧
        s'.collapsedArrayMap.Sublist s.collapsedArrayMap := by
  induction docs with
  | nil => intro s _; exact ⟨s, by simp [innerLoop], rfl, List.Sublist.refl _⟩
  | cons c rest ih =>
    intro s h
    have hrest : ∀ c' ∈ rest, c'.includedDocuments.isSome = true →
        c'.id ∈ s.collapsedParentRows := fun c' hc' => h c' (List.mem_cons_of_mem _ hc')
    by_cases hmem : indexOf s.collapsedRows c.id > -1
    · obtain ⟨s', hs', h1, h2⟩ := ih s hrest
      exact ⟨s', by simpa [innerLoop, hmem] using hs', h1, h2⟩
    · cases c with
      | mk i f cc ind l =>
        cases cc with
        | none =>
          obtain ⟨s', hs', h1, h2⟩ := ih { s with collapsedRows := s.collapsedRows ++ [i] } hrest
          refine ⟨s', ?_, h1, h2⟩
          simp only [Node.id] at hmem
          simp only [innerLoop, Bool.false_eq_true, ↓reduceIte, Node.id, hmem,
            Node.includedDocuments]
          exact hs'
        | some docs =>
          have hin : i ∈ s.collapsedParentRows := h _ (List.mem_cons_self _ _) rfl
          have hidx : indexOf s.collapsedParentRows i > -1 := indexOf_gt_iff.mpr hin
          obtain ⟨s', hs', h1, h2⟩ := ih
            { collapsedParentRows := s.collapsedParentRows,
              collapsedRows := s.collapsedRows ++ [i],
              collapsedArrayMap :=
                splice s.collapsedArrayMap (indexOfFirstChild s.collapsedArrayMap docs)
                  docs.length } hrest
          refine ⟨s', ?_, h1, h2.trans (splice_sublist _ _ _)⟩
          simp only [Node.id] at hmem
          simp only [innerLoop, Bool.false_eq_true, ↓reduceIte, Node.id, hmem,
            Node.includedDocuments, inner, createCollapsedMap, Bool.not_false, hidx]
          exact hs'

/-- C7, as stated, fails: collapsing the scenario tree in the empty state and
then expanding it leaves id 3 in `collapsedParentRows`, which was empty before
the collapse. -/
theorem collapseTableRow_round_trip_counterexample :
    ∃ s1 s2 : CollapseState,
      collapseTableRow Node.id
        { collapsedParentRows := [], collapsedRows := [], collapsedArrayMap := [] }
        false scenarioTree = some s1 ∧
      s1.collapsedParentRows = [1, 3] ∧
      collapseTableRow Node.id s1 true scenarioTree = some s2 ∧
      s2.collapsedParentRows = [3] ∧
      3 ∈ s2.collapsedParentRows ∧ 3 ∉ ([] : List Nat) :=
  ⟨_, _, rfl, rfl, rfl, rfl, by decide, by decide⟩

/-- C7, amended: for every collapse state whose `collapsedArrayMap` has no
`undefined` entry and every node `R` with children whose id is not in
`collapsedParentRows`, when every child of `R` that has children of its own is in
`collapsedParentRows` already (so in particular when all children of `R` are
leaves), collapsing `R` and then expanding `R` on the resulting state both
succeed and give back the `collapsedParentRows` from before the collapse. -/
theorem collapseTableRow_round_trip (s : CollapseState) (R : Node)
    (hchildren : R.includedDocuments.isSome = true)
    (hR : R.id ∉ s.collapsedParentRows)
    (hmap : ∀ item ∈ s.collapsedArrayMap, item.isSome = true)
    (hkids : ∀ docs, R.includedDocuments = some docs →
      ∀ c ∈ docs, c.includedDocuments.isSome = true → c.id ∈ s.collapsedParentRows) :
    ∃ s1 s2 : CollapseState,
      collapseTableRow Node.id s false R = some s1 ∧
      collapseTableRow Node.id s1 true R = some s2 ∧
      s2.collapsedParentRows = s.collapsedParentRows := by
  cases R with
  | mk i f c ind l =>
    obtain ⟨docs, rfl⟩ := Option.isSome_iff_exists.mp hchildren
    simp only [Node.id] at hR
    have hidx : ¬ (indexOf s.collapsedParentRows i > -1) := by
      rw [indexOf_gt_iff]; exact hR
    obtain ⟨s1, hs1, hp1, hm1⟩ := innerLoop_collapse_marked docs
      { collapsedArrayMap :=
          splice s.collapsedArrayMap (indexOfFirstChild s.collapsedArrayMap docs) docs.length,
        collapsedParentRows := s.collapsedParentRows ++ [i],
        collapsedRows := s.collapsedRows }
      (fun c hc hcc => List.mem_append_left _ (hkids docs rfl c hc hcc))
    have hmap1 : ∀ item ∈ s1.collapsedArrayMap, item.isSome = true := by
      intro item hitem
      exact hmap item ((splice_sublist _ _ _).subset (hm1.subset hitem))
    obtain ⟨s2, hs2, hp2, _, _, _⟩ := inner_expand (Node.mk i f (some docs) ind l) s1
      hchildren hmap1
    refine ⟨s1, s2, ?_, hs2, ?_⟩
    · simp only [collapseTableRow, inner, createCollapsedMap, Bool.not_false,
        Bool.false_eq_true, ↓reduceIte, Node.id, hidx, innerDocs, Node.includedDocuments]
      exact hs1
    · rw [hp2, hp1]
      have hin : i ∈ s.collapsedParentRows ++ [i] := by simp
      simp only [Node.id]
      rw [splice_indexOf_of_mem hin, List.erase_append_right _ hR]
      simp

/-- Witness of C7 (amended): node 3 of the scenario tree, whose only child is a
leaf, collapsed and expanded in a state that holds id 1. -/
theorem collapseTableRow_round_trip_witness :
    ∃ s1 s2 : CollapseState,
      collapseTableRow Node.id
        { collapsedParentRows := [1], collapsedRows := [2], collapsedArrayMap := [] }
        false (Node.mk 3 [] (some [leafNode 4]) none none) = some s1 ∧
      collapseTableRow Node.id s1 true (Node.mk 3 [] (some [leafNode 4]) none none) = some s2 ∧
      s2.collapsedParentRows = [1] :=
  collapseTableRow_round_trip
    { collapsedParentRows := [1], collapsedRows := [2], collapsedArrayMap := [] }
    (Node.mk 3 [] (some [leafNode 4]) none none) (by decide) (by decide) (by decide)
    (by
      intro docs h c hc hcc
      simp only [Node.includedDocuments, Option.some.injEq] at h
      subst h
      simp only [List.mem_singleton] at hc
      subst hc
      simp [leafNode, Node.includedDocuments] at hcc)


/-! ### Tree vocabulary -/

mutual
theorem preorderIds_eq_map : ∀ n : Node, preorderIds n = (subnodes n).map Node.id
  | Node.mk i f c ind l => by
    simp only [preorderIds, subnodes, List.map_cons, Node.id]
    rw [preorderIdsDocs_eq_map c]
theorem preorderIdsDocs_eq_map : ∀ c : Option (List Node),
    preorderIdsDocs c = (subnodesDocs c).map Node.id
  | none => by simp [preorderIdsDocs, subnodesDocs]
  | some l => by
    simp only [preorderIdsDocs, subnodesDocs]
    exact preorderIdsList_eq_map l
theorem preorderIdsList_eq_map : ∀ l : List Node,
    preorderIdsList l = (subnodesList l).map Node.id
  | [] => by simp [preorderIdsList, subnodesList]
  | n :: rest => by
    simp only [preorderIdsList, subnodesList, List.map_append]
    rw [preorderIds_eq_map n, preorderIdsList_eq_map rest]
end

mutual
theorem subnodes_skeleton : ∀ n : Node, subnodes (skeleton n) = (subnodes n).map skeleton
  | Node.mk i f c ind l => by
    simp only [skeleton, subnodes, List.map_cons]
    rw [subnodesDocs_skeleton c]
theorem subnodesDocs_skeleton : ∀ c : Option (List Node),
    subnodesDocs (skeletonDocs c) = (subnodesDocs c).map skeleton
  | none => by simp [skeletonDocs, subnodesDocs]
  | some l => by
    simp only [skeletonDocs, subnodesDocs]
    exact subnodesList_skeleton l
theorem subnodesList_skeleton : ∀ l : List Node,
    subnodesList (skeletonList l) = (subnodesList l).map skeleton
  | [] => by simp [skeletonList, subnodesList]
  | n :: rest => by
    simp only [skeletonList, subnodesList, List.map_append]
    rw [subnodes_skeleton n, subnodesList_skeleton rest]
end

theorem skeleton_id (n : Node) : (skeleton n).id = n.id := by
  cases n
  simp [skeleton, Node.id]

theorem skeletonList_ids : ∀ l : List Node, (skeletonList l).map Node.id = l.map Node.id
  | [] => by simp [skeletonList]
  | n :: rest => by
    simp only [skeletonList, List.map_cons, skeleton_id, skeletonList_ids rest]

theorem skeleton_childIds (n : Node) : childIds (skeleton n) = childIds n := by
  cases n with
  | mk i f c ind l =>
    cases c with
    | none => simp [skeleton, skeletonDocs, childIds, Node.includedDocuments]
    | some docs =>
      simp only [skeleton, skeletonDocs, childIds, Node.includedDocuments]
      exact skeletonList_ids docs

theorem subnodes_self (n : Node) : n ∈ subnodes n := by
  cases n
  simp [subnodes]

mutual
theorem subnodes_trans : ∀ (n m k : Node), m ∈ subnodes n → k ∈ subnodes m → k ∈ subnodes n
  | Node.mk i f c ind l, m, k, hm, hk => by
    simp only [subnodes, List.mem_cons] at hm ⊢
    rcases hm with rfl | hm
    · simpa only [subnodes, List.mem_cons] using hk
    · exact Or.inr (subnodesDocs_trans c m k hm hk)
theorem subnodesDocs_trans : ∀ (c : Option (List Node)) (m k : Node),
    m ∈ subnodesDocs c → k ∈ subnodes m → k ∈ subnodesDocs c
  | none, m, k, hm, _ => by simp [subnodesDocs] at hm
  | some l, m, k, hm, hk => by
    simp only [subnodesDocs] at hm ⊢
    exact subnodesList_trans l m k hm hk
theorem subnodesList_trans : ∀ (l : List Node) (m k : Node),
    m ∈ subnodesList l → k ∈ subnodes m → k ∈ subnodesList l
  | [], m, k, hm, _ => by simp [subnodesList] at hm
  | n :: rest, m, k, hm, hk => by
    simp only [subnodesList, List.mem_append] at hm ⊢
    rcases hm with hm | hm
    · exact Or.inl (subnodes_trans n m k hm hk)
    · exact Or.inr (subnodesList_trans rest m k hm hk)
end

theorem subnodesList_of_mem {l : List Node} {n : Node} (h : n ∈ l) :
    ∀ m ∈ subnodes n, m ∈ subnodesList l := by
  induction l with
  | nil => simp at h
  | cons a rest ih =>
    intro m hm
    simp only [subnodesList, List.mem_append]
    rcases List.mem_cons.mp h with rfl | h
    · exact Or.inl hm
    · exact Or.inr (ih h m hm)

theorem childIds_subset_descendantIds (n : Node) : ∀ x ∈ childIds n, x ∈ descendantIds n := by
  cases n with
  | mk i f c ind l =>
    cases c with
    | none => simp [childIds, Node.includedDocuments]
    | some docs =>
      intro x hx
      simp only [childIds, Node.includedDocuments, List.mem_map] at hx
      obtain ⟨d, hd, rfl⟩ := hx
      simp only [descendantIds, Node.includedDocuments, preorderIdsDocs,
        preorderIdsList_eq_map, List.mem_map]
      exact ⟨d, subnodesList_of_mem hd d (subnodes_self d), rfl⟩

theorem isParentIn_isAncestorIn {T : List Node} {p x : Nat} (h : IsParentIn T p x) :
    IsAncestorIn T p x := by
  obtain ⟨n, hn, hid, hx⟩ := h
  exact ⟨n, hn, hid, childIds_subset_descendantIds n x hx⟩

theorem isParentIn_mono {F G : List Node} (h : ∀ m ∈ subnodesList F, m ∈ subnodesList G)
    {p x : Nat} (hp : IsParentIn F p x) : IsParentIn G p x := by
  obtain ⟨n, hn, hid, hx⟩ := hp
  exact ⟨n, h n hn, hid, hx⟩

theorem isParentIn_of_isNodeOf {T : List Node} {n : Node} (hn : IsNodeOf T n) {p x : Nat}
    (h : IsParentIn [n] p x) : IsParentIn T p x := by
  obtain ⟨m, hm, hid, hx⟩ := h
  simp only [subnodesList, List.append_nil] at hm
  obtain ⟨t, ht, hsk⟩ := List.mem_map.mp hn
  have h1 : skeleton m ∈ subnodes (skeleton n) := by
    rw [subnodes_skeleton]; exact List.mem_map_of_mem _ hm
  rw [← hsk, subnodes_skeleton] at h1
  obtain ⟨t', ht', hsk'⟩ := List.mem_map.mp h1
  refine ⟨t', subnodesList_trans T t t' ht ht', ?_, ?_⟩
  · rw [← skeleton_id t', hsk', skeleton_id, hid]
  · rw [← skeleton_childIds t', hsk', skeleton_childIds]; exact hx

theorem childIds_of_isNodeOf {T : List Node} (hT : (preorderIdsList T).Nodup) {n : Node}
    (hn : IsNodeOf T n) {x : Nat} (h : IsParentIn T n.id x) : x ∈ childIds n := by
  obtain ⟨m, hm, hid, hx⟩ := h
  obtain ⟨t, ht, hsk⟩ := List.mem_map.mp hn
  have htid : t.id = m.id := by rw [hid, ← skeleton_id t, hsk, skeleton_id]
  rw [preorderIdsList_eq_map] at hT
  have := List.inj_on_of_nodup_map hT ht hm htid
  subst this
  rw [← skeleton_childIds n, ← hsk, skeleton_childIds]
  exact hx


/-! ### Reachable collapse states -/

theorem collapseKeeps_refl (F roots : List Node) (s : CollapseState) :
    CollapseKeeps F roots s s :=
  ⟨fun _ h => h, fun h => h, List.Sublist.refl _, fun _ h => Or.inl h⟩

theorem subnodesList_cons_left (n : Node) (rest : List Node) :
    ∀ m ∈ subnodesList [n], m ∈ subnodesList (n :: rest) := by
  intro m hm
  simp only [subnodesList, List.append_nil, List.mem_append] at hm ⊢
  exact Or.inl hm

theorem subnodesList_cons_right (n : Node) (rest : List Node) :
    ∀ m ∈ subnodesList rest, m ∈ subnodesList (n :: rest) := by
  intro m hm
  simp only [subnodesList, List.mem_append]
  exact Or.inr hm

theorem subnodesList_docs (i : Nat) (f : FieldsByName) (docs : List Node)
    (ind : Option (List Bool)) (l : Option Bool) :
    ∀ m ∈ subnodesList docs, m ∈ subnodesList [Node.mk i f (some docs) ind l] := by
  intro m hm
  simp only [subnodesList, subnodes, subnodesDocs, List.append_nil, List.mem_cons]
  exact Or.inr hm

mutual
theorem inner_collapse_keeps : ∀ (n : Node) (s : CollapseState),
    n.includedDocuments.isSome = true →
    ∃ s', inner Node.id false n s = some s' ∧ CollapseKeeps [n] [] s s'
  | Node.mk i f c ind l, s, hc => by
    obtain ⟨docs, rfl⟩ := Option.isSome_iff_exists.mp hc
    by_cases hidx : indexOf s.collapsedParentRows i > -1
    · refine ⟨{ collapsedParentRows := s.collapsedParentRows,
                collapsedRows := s.collapsedRows,
                collapsedArrayMap := splice s.collapsedArrayMap
                  (indexOfFirstChild s.collapsedArrayMap docs) docs.length },
        ?_, fun _ h => h, fun h => h, splice_sublist _ _ _, fun _ h => Or.inl h⟩
      simp only [inner, createCollapsedMap, Bool.not_false, Bool.false_eq_true, ↓reduceIte,
        Node.id, Node.includedDocuments, hidx]
    · obtain ⟨s', hs', h1, h2, h3, h4⟩ := innerLoop_collapse_keeps docs
        { collapsedArrayMap :=
            splice s.collapsedArrayMap (indexOfFirstChild s.collapsedArrayMap docs) docs.length,
          collapsedParentRows := s.collapsedParentRows ++ [i],
          collapsedRows := s.collapsedRows }
      refine ⟨s', ?_, ?_, h2, h3.trans (splice_sublist _ _ _), ?_⟩
      · simp only [inner, createCollapsedMap, Bool.not_false, Bool.false_eq_true, ↓reduceIte,
          Node.id, Node.includedDocuments, hidx, innerDocs]
        exact hs'
      · intro p hp
        exact h1 p (List.mem_append_left _ hp)
      · intro x hx
        rcases h4 x hx with h | h | ⟨p, hp, hpar⟩
        · exact Or.inl h
        · right; right
          refine ⟨i, h1 i (by simp), Node.mk i f (some docs) ind l, ?_, rfl, ?_⟩
          · simp [subnodesList, subnodes]
          · simpa [childIds, Node.includedDocuments] using h
        · right; right
          exact ⟨p, hp, isParentIn_mono (subnodesList_docs i f docs ind l) hpar⟩
theorem innerLoop_collapse_keeps : ∀ (docs : List Node) (s : CollapseState),
    ∃ s', innerLoop Node.id false docs s = some s' ∧ CollapseKeeps docs docs s s'
  | [], s => ⟨s, by simp [innerLoop], collapseKeeps_refl _ _ s⟩
  | Node.mk i f c ind l :: rest, s => by
    by_cases hidx : indexOf s.collapsedRows i > -1
    · obtain ⟨s', hs', h1, h2, h3, h4⟩ := innerLoop_collapse_keeps rest s
      refine ⟨s', ?_, h1, h2, h3, ?_⟩
      · simp only [innerLoop, Bool.false_eq_true, ↓reduceIte, Node.id, hidx]
        exact hs'
      · intro x hx
        rcases h4 x hx with h | h | ⟨p, hp, hpar⟩
        · exact Or.inl h
        · right; left; exact List.mem_cons_of_mem _ h
        · right; right
          exact ⟨p, hp, isParentIn_mono (subnodesList_cons_right _ rest) hpar⟩
    · have hnot : i ∉ s.collapsedRows := fun h => hidx (indexOf_gt_iff.mpr h)
      have hnd : s.collapsedRows.Nodup → (s.collapsedRows ++ [i]).Nodup := by
        intro h
        rw [List.nodup_append]
        refine ⟨h, List.nodup_singleton _, ?_⟩
        intro x hx hx'
        rw [List.mem_singleton] at hx'
        subst hx'
        exact hnot hx
      cases c with
      | none =>
        obtain ⟨s', hs', h1, h2, h3, h4⟩ := innerLoop_collapse_keeps rest
          { s with collapsedRows := s.collapsedRows ++ [i] }
        refine ⟨s', ?_, h1, fun h => h2 (hnd h), h3, ?_⟩
        · simp only [innerLoop, Bool.false_eq_true, ↓reduceIte, Node.id, hidx,
            Node.includedDocuments]
          exact hs'
        · intro x hx
          rcases h4 x hx with h | h | ⟨p, hp, hpar⟩
          · simp only [List.mem_append, List.mem_singleton] at h
            rcases h with h | h
            · exact Or.inl h
            · right; left; simp [h, Node.id]
          · right; left; exact List.mem_cons_of_mem _ h
          · right; right
            exact ⟨p, hp, isParentIn_mono (subnodesList_cons_right _ rest) hpar⟩
      | some docs =>
        obtain ⟨s1, hs1, g1, g2, g3, g4⟩ := inner_collapse_keeps (Node.mk i f (some docs) ind l)
          { s with collapsedRows := s.collapsedRows ++ [i] } rfl
        obtain ⟨s', hs', h1, h2, h3, h4⟩ := innerLoop_collapse_keeps rest s1
        refine ⟨s', ?_, fun p hp => h1 p (g1 p hp), fun h => h2 (g2 (hnd h)), h3.trans g3, ?_⟩
        · simp only [innerLoop, Bool.false_eq_true, ↓reduceIte, Node.id, hidx,
            Node.includedDocuments]
          rw [hs1]
          exact hs'
        · intro x hx
          rcases h4 x hx with h | h | ⟨p, hp, hpar⟩
          · rcases g4 x h with h | h | ⟨p, hp, hpar⟩
            · simp only [List.mem_append, List.mem_singleton] at h
              rcases h with h | h
              · exact Or.inl h
              · right; left; simp [h, Node.id]
            · simp at h
            · right; right
              exact ⟨p, h1 p hp, isParentIn_mono (subnodesList_cons_left _ rest) hpar⟩
          · right; left; exact List.mem_cons_of_mem _ h
          · right; right
            exact ⟨p, hp, isParentIn_mono (subnodesList_cons_right _ rest) hpar⟩
end

theorem collapse_preserves_inv {T : List Node} {s : CollapseState} {n : Node}
    (hinv : CollapseInv T s) (hn : IsNodeOf T n) (hc : n.includedDocuments.isSome = true) :
    ∃ s', collapseTableRow Node.id s false n = some s' ∧ CollapseInv T s' := by
  obtain ⟨s', hs', h1, h2, h3, h4⟩ := inner_collapse_keeps n s hc
  obtain ⟨i1, i2, i3⟩ := hinv
  refine ⟨s', hs', h2 i1, fun item hi => i2 item (h3.subset hi), ?_⟩
  intro x hx
  rcases h4 x hx with h | h | ⟨p, hp, hpar⟩
  · obtain ⟨p, hp, hpar⟩ := i3 x h
    exact ⟨p, h1 p hp, hpar⟩
  · simp at h
  · exact ⟨p, hp, isParentIn_of_isNodeOf hn hpar⟩

theorem expand_preserves_inv {T : List Node} (hT : (preorderIdsList T).Nodup)
    {s : CollapseState} {n : Node}
    (hinv : CollapseInv T s) (hn : IsNodeOf T n) (hc : n.includedDocuments.isSome = true)
    (hin : n.id ∈ s.collapsedParentRows) :
    ∃ s', collapseTableRow Node.id s true n = some s' ∧ CollapseInv T s' := by
  obtain ⟨i1, i2, i3⟩ := hinv
  obtain ⟨s', hs', h1, h2, h3, h4⟩ := inner_expand n s hc i2
  refine ⟨s', hs', i1.sublist h3, h2, ?_⟩
  intro x hx
  obtain ⟨p, hp, hpar⟩ := i3 x (h3.subset hx)
  by_cases hpn : p = n.id
  · subst hpn
    exact absurd hx (h4 i1 x (childIds_of_isNodeOf hT hn hpar))
  · refine ⟨p, ?_, hpar⟩
    rw [h1, splice_indexOf_of_mem hin]
    exact (List.mem_erase_of_ne hpn).mpr hp


theorem markParentLast_length (ind : List Bool) (b : Bool) :
    (markParentLast ind b).length = ind.length := by
  unfold markParentLast
  split <;> simp

theorem rowPlaced_mono {F G : List Node} {d : Nat} {rows rows' : List Node} {r : Node}
    (h : RowPlaced F d rows r) (hrows : ∀ q ∈ rows, q ∈ rows')
    (hsub : ∀ m ∈ subnodesList F, m ∈ subnodesList G)
    (hroots : ∀ x ∈ F.map Node.id, x ∈ G.map Node.id) : RowPlaced G d rows' r := by
  obtain ⟨h1, h2⟩ := h
  refine ⟨h1, ?_⟩
  rcases h2 with ⟨ha, hb⟩ | ⟨ha, q, hq, hq1, hq2, hq3⟩
  · exact Or.inl ⟨ha, hroots _ hb⟩
  · exact Or.inr ⟨ha, q, hrows q hq, hq1, hq2, isParentIn_mono hsub hq3⟩

/-- The rows of one node: its own row first, then the rows of its descendants. -/
theorem rowPlaced_node (i : Nat) (f : FieldsByName) (c : Option (List Node))
    (oi : Option (List Bool)) (lc : Option Bool) (d : Nat) (r0 : Node) (rowsDocs : List Node)
    (hid : r0.id = i) (hlen : r0.indentLength = d) (hind : r0.indent.isSome = true)
    (hinc : c.isSome = true → r0.includedDocuments.isSome = true)
    (hdocs : ∀ r ∈ rowsDocs, ∃ l, c = some l ∧ RowPlaced l (d + 1) rowsDocs r) :
    ∀ r ∈ r0 :: rowsDocs, RowPlaced [Node.mk i f c oi lc] d (r0 :: rowsDocs) r := by
  intro r hr
  rcases List.mem_cons.mp hr with rfl | hr
  · exact ⟨hind, Or.inl ⟨hlen, by rw [hid]; simp [Node.id]⟩⟩
  · obtain ⟨l, rfl, h1, h2⟩ := hdocs r hr
    refine ⟨h1, Or.inr ?_⟩
    rcases h2 with ⟨ha, hb⟩ | ⟨ha, q, hq, hq1, hq2, hq3⟩
    · refine ⟨by omega, r0, List.mem_cons_self _ _, hinc rfl, by omega, ?_⟩
      refine ⟨Node.mk i f (some l) oi lc, by simp [subnodesList, subnodes],
        by rw [hid]; rfl, ?_⟩
      simpa [childIds, Node.includedDocuments] using hb
    · exact ⟨by omega, q, List.mem_cons_of_mem _ hq, hq1, hq2,
        isParentIn_mono (subnodesList_docs i f l oi lc) hq3⟩

mutual
theorem mapIncludedDocs_placed (p : FieldsByName → FieldsByName) :
    ∀ (c : Option (List Node)) (ind : List Bool) (nl : Bool),
      ((c.isSome = true → (mapIncludedDocs p c ind nl).2.isSome = true)) ∧
      ∀ r ∈ (mapIncludedDocs p c ind nl).1,
        ∃ l, c = some l ∧ RowPlaced l (ind.length + 1) (mapIncludedDocs p c ind nl).1 r
  | none, _, _ => by simp [mapIncludedDocs]
  | some l, ind, nl => by
    refine ⟨by simp [mapIncludedDocs], ?_⟩
    intro r hr
    simp only [mapIncludedDocs] at hr ⊢
    exact ⟨l, rfl, mapIncludedLoop_placed p l ind nl r hr⟩
theorem mapIncludedLoop_placed (p : FieldsByName → FieldsByName) :
    ∀ (l : List Node) (ind : List Bool) (nl : Bool),
      ∀ r ∈ (mapIncludedLoop p l ind nl).1,
        RowPlaced l (ind.length + 1) (mapIncludedLoop p l ind nl).1 r
  | [], _, _ => by simp [mapIncludedLoop]
  | child :: rest, ind, nl => by
    intro r hr
    simp only [mapIncludedLoop, List.mem_append] at hr ⊢
    rcases hr with hr | hr
    · exact rowPlaced_mono (mapIncludedChild_placed p child rest.isEmpty ind nl r hr)
        (fun q hq => List.mem_append_left _ hq) (subnodesList_cons_left child rest)
        (by intro x hx; simp only [List.map_cons, List.map_nil, List.mem_singleton] at hx
            simp [hx])
    · exact rowPlaced_mono (mapIncludedLoop_placed p rest ind nl r hr)
        (fun q hq => List.mem_append_right _ hq) (subnodesList_cons_right child rest)
        (by intro x hx; exact List.mem_cons_of_mem _ hx)
theorem mapIncludedChild_placed (p : FieldsByName → FieldsByName) :
    ∀ (n : Node) (isLast : Bool) (ind : List Bool) (nl : Bool),
      ∀ r ∈ (mapIncludedChild p n isLast ind nl).1,
        RowPlaced [n] (ind.length + 1) (mapIncludedChild p n isLast ind nl).1 r
  | Node.mk i f c oi l, isLast, ind, nl => by
    have hd := mapIncludedDocs_placed p c (markParentLast (ind ++ [true]) nl)
      (truthy (if isLast then some true else l))
    have hlen : (markParentLast (ind ++ [true]) nl).length = ind.length + 1 := by
      rw [markParentLast_length]; simp
    rw [hlen] at hd
    simp only [mapIncludedChild]
    exact rowPlaced_node i f c oi l (ind.length + 1) _ _ rfl
      (by simp [Node.indentLength, Node.indent, hlen]) rfl hd.1 hd.2
end

theorem mapIncluded_placed (p : FieldsByName → FieldsByName) (n : Node) :
    ∀ r ∈ (mapIncluded p n none false).1, RowPlaced [n] 0 (mapIncluded p n none false).1 r := by
  cases n with
  | mk i f c oi l =>
    have hd := mapIncludedDocs_placed p c (markParentLast [] false) (truthy l)
    have hlen : (markParentLast [] false).length = 0 := by rw [markParentLast_length]; rfl
    rw [hlen] at hd
    simp only [mapIncluded, Node.includedDocuments, Node.lastChild, Option.getD_none, Node.id,
      Node.fieldsByName]
    exact rowPlaced_node i f c oi l 0 _ _ rfl
      (by simp [Node.indentLength, Node.indent, hlen]) rfl hd.1 hd.2

theorem flattenRowsLoop_placed (p : FieldsByName → FieldsByName) :
    ∀ (T : List Node), ∀ r ∈ (flattenRowsLoop p T).1, RowPlaced T 0 (flattenRowsLoop p T).1 r
  | [] => by simp [flattenRowsLoop]
  | n :: rest => by
    intro r hr
    simp only [flattenRowsLoop, List.mem_append] at hr ⊢
    rcases hr with hr | hr
    · exact rowPlaced_mono (mapIncluded_placed p n r hr)
        (fun q hq => List.mem_append_left _ hq) (subnodesList_cons_left n rest)
        (by intro x hx; simp only [List.map_cons, List.map_nil, List.mem_singleton] at hx
            simp [hx])
    · exact rowPlaced_mono (flattenRowsLoop_placed p rest r hr)
        (fun q hq => List.mem_append_right _ hq) (subnodesList_cons_right n rest)
        (by intro x hx; exact List.mem_cons_of_mem _ hx)

theorem build_inv (p : FieldsByName → FieldsByName) (T : List Node) (D : Nat)
    (hT : (preorderIdsList T).Nodup) :
    ∃ s, createCollapsedRows (flattenRows p (some T)) true D Node.id = some s ∧
      CollapseInv T s := by
  have hplaced := flattenRowsLoop_placed p T
  have hind : ∀ row ∈ flattenRows p (some T), row.indent.isSome = true :=
    fun row hrow => (hplaced row hrow).1
  refine ⟨_, createCollapsedRows_spec Node.id D _ hind, ?_, ?_, ?_⟩
  · have hids : ((flattenRows p (some T)).map Node.id).Nodup := by
      have := flattenRowsLoop_ids p T
      simp only [flattenRows]
      rw [this]; exact hT
    exact hids.sublist ((List.filter_sublist _).map _)
  · intro item hitem
    obtain ⟨r, _, rfl⟩ := List.mem_map.mp hitem
    rfl
  · intro x hx
    obtain ⟨r, hr, rfl⟩ := List.mem_map.mp hx
    obtain ⟨hr1, hr2⟩ := List.mem_filter.mp hr
    simp only [collapsesAsRow, Bool.and_eq_true, decide_eq_true_eq] at hr2
    obtain ⟨_, h2⟩ := hplaced r hr1
    rcases h2 with ⟨ha, _⟩ | ⟨_, q, hq, hq1, hq2, hq3⟩
    · omega
    · refine ⟨q.id, ?_, hq3⟩
      apply List.mem_map_of_mem
      rw [List.mem_filter]
      refine ⟨hq, ?_⟩
      simp only [collapsesAsParent, Bool.and_eq_true, decide_eq_true_eq]
      exact ⟨by omega, hq1⟩

theorem reachable_inv (p : FieldsByName → FieldsByName) (T : List Node) (D : Nat)
    (hT : (preorderIdsList T).Nodup) (s : CollapseState) (h : Reachable p T D s) :
    CollapseInv T s := by
  induction h with
  | build s hs =>
    obtain ⟨s0, hs0, hinv⟩ := build_inv p T D hT
    rw [hs0] at hs
    cases hs
    exact hinv
  | toggle s s' n collapse _ hn hc hflag hs' ih =>
    cases collapse with
    | true =>
      obtain ⟨s'', hs'', hinv⟩ := expand_preserves_inv hT ih hn hc (hflag.mp rfl)
      rw [hs''] at hs'
      cases hs'
      exact hinv
    | false =>
      obtain ⟨s'', hs'', hinv⟩ := collapse_preserves_inv ih hn hc
      rw [hs''] at hs'
      cases hs'
      exact hinv

/-- C10: for every tree `T` with table-wide unique ids and every `expandedDepth`,
in the state that `createCollapsedRows` builds from `flattenRows(T)` and in every
state reached from it by `collapseTableRow` calls on nodes of `T` that have
children, with a flag that agrees with the state, every id in `collapsedRows`
has an ancestor in `T` whose id is in `collapsedParentRows`.  The build and every
such call succeed, so these states exist. -/
theorem reachable_no_orphans (parseToDisplay : FieldsByName → FieldsByName) (T : List Node)
    (expandedDepth : Nat) (hT : (preorderIdsList T).Nodup) (s : CollapseState)
    (h : Reachable parseToDisplay T expandedDepth s) :
    (∀ x ∈ s.collapsedRows, ∃ a ∈ s.collapsedParentRows, IsAncestorIn T a x) ∧
    (∃ s0, createCollapsedRows (flattenRows parseToDisplay (some T)) true expandedDepth Node.id
      = some s0) ∧
    ∀ (n : Node) (collapse : Bool), IsNodeOf T n → n.includedDocuments.isSome = true →
      (collapse = true ↔ n.id ∈ s.collapsedParentRows) →
      ∃ s', collapseTableRow Node.id s collapse n = some s' := by
  have hinv := reachable_inv parseToDisplay T expandedDepth hT s h
  refine ⟨?_, ?_, ?_⟩
  · intro x hx
    obtain ⟨a, ha, hpar⟩ := hinv.2.2 x hx
    exact ⟨a, ha, isParentIn_isAncestorIn hpar⟩
  · obtain ⟨s0, hs0, _⟩ := build_inv parseToDisplay T expandedDepth hT
    exact ⟨s0, hs0⟩
  · intro n collapse hn hc hflag
    cases collapse with
    | true =>
      obtain ⟨s', hs', _⟩ := expand_preserves_inv hT hinv hn hc (hflag.mp rfl)
      exact ⟨s', hs'⟩
    | false =>
      obtain ⟨s', hs', _⟩ := collapse_preserves_inv hinv hn hc
      exact ⟨s', hs'⟩


/-- Witness of C10: the scenario tree, built with `expandedDepth = 0`, after
the expand of node 3: `collapsedParentRows = [1]`, `collapsedRows = [2]`. -/
theorem reachable_no_orphans_witness :
    (preorderIdsList [scenarioTree]).Nodup ∧
    ∃ s : CollapseState, Reachable id [scenarioTree] 0 s ∧
      s.collapsedParentRows = [1] ∧ s.collapsedRows = [2] ∧
      (∀ x ∈ s.collapsedRows, ∃ a ∈ s.collapsedParentRows, IsAncestorIn [scenarioTree] a x) := by
  have h0 : Reachable id [scenarioTree] 0 _ := Reachable.build _ rfl
  have h1 := Reachable.toggle _ _ (Node.mk 3 [] (some [leafNode 4]) (some [true]) (some true))
    true h0 (by decide) rfl (by decide) rfl
  exact ⟨by decide, _, h1, rfl, rfl,
    (reachable_no_orphans id [scenarioTree] 0 (by decide) _ h1).1⟩


/-! ### Rows and places -/

mutual
theorem places_depth_ge : ∀ (n : Node) (d : Nat) (last : Bool),
    ∀ pl ∈ places n d last, d ≤ pl.depth
  | Node.mk i f c ind l, d, last => by
    intro pl hpl
    simp only [places, List.mem_cons] at hpl
    rcases hpl with rfl | hpl
    · exact Nat.le_refl _
    · exact Nat.le_of_succ_le (placesDocs_depth_ge c (d + 1) pl hpl)
theorem placesDocs_depth_ge : ∀ (c : Option (List Node)) (d : Nat),
    ∀ pl ∈ placesDocs c d, d ≤ pl.depth
  | none, _ => by simp [placesDocs]
  | some docs, d => by
    simp only [placesDocs]
    exact placesList_depth_ge docs d
theorem placesList_depth_ge : ∀ (l : List Node) (d : Nat),
    ∀ pl ∈ placesList l d, d ≤ pl.depth
  | [], _ => by simp [placesList]
  | n :: rest, d => by
    intro pl hpl
    simp only [placesList, List.mem_append] at hpl
    rcases hpl with hpl | hpl
    · exact places_depth_ge n d rest.isEmpty pl hpl
    · exact placesList_depth_ge rest d pl hpl
end

/-- What `flattenRows` puts into the row of a place below the roots. -/
theorem placeInfo_child (p : FieldsByName → FieldsByName) (pl : Place) (h : 1 ≤ pl.depth) :
    placeInfo p pl =
      (pl.node.id, p pl.node.fieldsByName, some pl.depth,
        if pl.isLast then some true else pl.node.lastChild) := by
  have : pl.depth ≠ 0 := by omega
  simp [placeInfo, this]

mutual
theorem mapIncludedDocs_info (p : FieldsByName → FieldsByName) :
    ∀ (c : Option (List Node)) (ind : List Bool) (nl : Bool),
      (mapIncludedDocs p c ind nl).1.map rowInfo =
        (placesDocs c (ind.length + 1)).map (placeInfo p)
  | none, _, _ => by simp [mapIncludedDocs, placesDocs]
  | some l, ind, nl => by
    simp only [mapIncludedDocs, placesDocs]
    exact mapIncludedLoop_info p l ind nl
theorem mapIncludedLoop_info (p : FieldsByName → FieldsByName) :
    ∀ (l : List Node) (ind : List Bool) (nl : Bool),
      (mapIncludedLoop p l ind nl).1.map rowInfo =
        (placesList l (ind.length + 1)).map (placeInfo p)
  | [], _, _ => by simp [mapIncludedLoop, placesList]
  | child :: rest, ind, nl => by
    simp only [mapIncludedLoop, placesList, List.map_append]
    rw [mapIncludedChild_info p child rest.isEmpty ind nl, mapIncludedLoop_info p rest ind nl]
theorem mapIncludedChild_info (p : FieldsByName → FieldsByName) :
    ∀ (n : Node) (isLast : Bool) (ind : List Bool) (nl : Bool),
      (mapIncludedChild p n isLast ind nl).1.map rowInfo =
        (places n (ind.length + 1) isLast).map (placeInfo p)
  | Node.mk i f c oi l, isLast, ind, nl => by
    have hlen : (markParentLast (ind ++ [true]) nl).length = ind.length + 1 := by
      rw [markParentLast_length]; simp
    have hd := mapIncludedDocs_info p c (markParentLast (ind ++ [true]) nl)
      (truthy (if isLast then some true else l))
    rw [hlen] at hd
    simp only [mapIncludedChild, places, List.map_cons, hd]
    congr 1
    simp [rowInfo, placeInfo, Node.id, Node.fieldsByName, Node.indent, Node.lastChild, hlen]
end

theorem mapIncluded_info (p : FieldsByName → FieldsByName) (n : Node) :
    (mapIncluded p n none false).1.map rowInfo = (places n 0 false).map (placeInfo p) := by
  cases n with
  | mk i f c oi l =>
    have hlen : (markParentLast [] false).length = 0 := by rw [markParentLast_length]; rfl
    have hd := mapIncludedDocs_info p c (markParentLast [] false) (truthy l)
    rw [hlen] at hd
    simp only [mapIncluded, places, List.map_cons, Node.includedDocuments, Node.lastChild,
      Option.getD_none, hd]
    congr 1

theorem flattenRowsLoop_info (p : FieldsByName → FieldsByName) :
    ∀ T : List Node, (flattenRowsLoop p T).1.map rowInfo = (placesRoots T).map (placeInfo p)
  | [] => by simp [flattenRowsLoop, placesRoots]
  | n :: rest => by
    simp only [flattenRowsLoop, placesRoots, List.map_append]
    rw [mapIncluded_info p n, flattenRowsLoop_info p rest]


mutual
theorem places_node_mem : ∀ (n : Node) (d : Nat) (last : Bool),
    ∀ pl ∈ places n d last, pl.node ∈ subnodes n
  | Node.mk i f c ind l, d, last => by
    intro pl hpl
    simp only [places, List.mem_cons] at hpl
    simp only [subnodes, List.mem_cons]
    rcases hpl with rfl | hpl
    · exact Or.inl rfl
    · exact Or.inr (placesDocs_node_mem c (d + 1) pl hpl)
theorem placesDocs_node_mem : ∀ (c : Option (List Node)) (d : Nat),
    ∀ pl ∈ placesDocs c d, pl.node ∈ subnodesDocs c
  | none, _ => by simp [placesDocs]
  | some docs, d => by
    simp only [placesDocs, subnodesDocs]
    exact placesList_node_mem docs d
theorem placesList_node_mem : ∀ (l : List Node) (d : Nat),
    ∀ pl ∈ placesList l d, pl.node ∈ subnodesList l
  | [], _ => by simp [placesList]
  | n :: rest, d => by
    intro pl hpl
    simp only [placesList, List.mem_append] at hpl
    simp only [subnodesList, List.mem_append]
    rcases hpl with hpl | hpl
    · exact Or.inl (places_node_mem n d rest.isEmpty pl hpl)
    · exact Or.inr (placesList_node_mem rest d pl hpl)
end

theorem placesRoots_node_mem : ∀ (T : List Node), ∀ pl ∈ placesRoots T, pl.node ∈ subnodesList T
  | [] => by simp [placesRoots]
  | n :: rest => by
    intro pl hpl
    simp only [placesRoots, List.mem_append] at hpl
    simp only [subnodesList, List.mem_append]
    rcases hpl with hpl | hpl
    · exact Or.inl (places_node_mem n 0 false pl hpl)
    · exact Or.inr (placesRoots_node_mem rest pl hpl)

/-- C11: for every tree `T`, the rows of `flattenRows(T)` are, in order, the rows
of the places of `T`, each with an indent whose length is the depth of its node:
`0` for a root node, one more than the depth of the parent for a child node.
Said by rows: every row either has an indent of length `0` and the id of a root,
or has the row of its parent among the rows, with an indent exactly one
shorter. -/
theorem flattenRows_indent_length (parseToDisplay : FieldsByName → FieldsByName)
    (T : List Node) :
    (flattenRows parseToDisplay (some T)).map
        (fun row => (row.id, row.indent.map List.length)) =
      (placesRoots T).map (fun pl => (pl.node.id, some pl.depth)) ∧
    ∀ row ∈ flattenRows parseToDisplay (some T),
      (row.indentLength = 0 ∧ row.id ∈ T.map Node.id) ∨
      ∃ parent ∈ flattenRows parseToDisplay (some T),
        IsParentIn T parent.id row.id ∧ parent.indentLength + 1 = row.indentLength := by
  constructor
  · have h := congrArg (List.map (fun e : Nat × FieldsByName × Option Nat × Option Bool =>
      (e.1, e.2.2.1))) (flattenRowsLoop_info parseToDisplay T)
    simpa [List.map_map, Function.comp_def, rowInfo, placeInfo, flattenRows] using h
  · intro row hrow
    obtain ⟨_, h⟩ := flattenRowsLoop_placed parseToDisplay T row hrow
    rcases h with h | ⟨_, q, hq, _, hq2, hq3⟩
    · exact Or.inl h
    · exact Or.inr ⟨q, hq, hq3, hq2⟩

/-- C12 fails on the code: `flattenRows` with a formatter that rewrites date
fields leaves the child node 2 of its argument with the formatted
`fieldsByName`: the tree after the call is not the tree before it. -/
theorem flattenRows_assigns_child_fields :
    flattenRowsInputAfter sampleParseToDisplay (some [datedTree]) =
      some [Node.mk 1 []
        (some [Node.mk 2
          [("DateOrdered",
            { field := "DateOrdered", value := "Moment", widgetType := some "Date" })]
          none none none])
        none none] ∧
    flattenRowsInputAfter sampleParseToDisplay (some [datedTree]) ≠ some [datedTree] := by
  constructor <;> decide

/-- C13, as stated, fails: the row of a root node keeps the raw `fieldsByName`.
For the root with a date field, formatted by the sample formatter, the row shows
the raw value, not the formatted one. -/
theorem flattenRows_root_fields_counterexample :
    ∃ row, flattenRows sampleParseToDisplay
        (some [Node.mk 1
          [("DateOrdered",
            { field := "DateOrdered", value := "2020-01-01", widgetType := some "Date" })]
          none none none]) = [row] ∧
      row.fieldsByName =
        [("DateOrdered",
          { field := "DateOrdered", value := "2020-01-01", widgetType := some "Date" })] ∧
      row.fieldsByName ≠
        sampleParseToDisplay
          [("DateOrdered",
            { field := "DateOrdered", value := "2020-01-01", widgetType := some "Date" })] :=
  ⟨_, rfl, by decide, by decide⟩

/-- C13, amended: for every tree `T` the rows of `flattenRows(T)` are, in order,
the rows of the places of `T`; the row of a node that is not a root has
`fieldsByName` equal to `parseToDisplay` of the `fieldsByName` of the node, and
the row of a root node has the `fieldsByName` of the node as it is. -/
theorem flattenRows_fields (parseToDisplay : FieldsByName → FieldsByName) (T : List Node) :
    (flattenRows parseToDisplay (some T)).map (fun row => (row.id, row.fieldsByName)) =
      (placesRoots T).map (fun pl =>
        (pl.node.id,
          if pl.depth = 0 then pl.node.fieldsByName
          else parseToDisplay pl.node.fieldsByName)) := by
  have h := congrArg (List.map (fun e : Nat × FieldsByName × Option Nat × Option Bool =>
    (e.1, e.2.1))) (flattenRowsLoop_info parseToDisplay T)
  simpa [List.map_map, Function.comp_def, rowInfo, placeInfo, flattenRows] using h

/-- C15: for every tree `T` whose raw nodes carry no `lastChild`, the rows of
`flattenRows(T)` are, in order, the rows of the places of `T`, and a row has
`lastChild = true` exactly when its node is the last element of an
`includedDocuments` list; every other row, so every other element of such a list
and every root, has no `lastChild`. -/
theorem flattenRows_lastChild (parseToDisplay : FieldsByName → FieldsByName) (T : List Node)
    (hraw : ∀ n ∈ subnodesList T, n.lastChild = none) :
    (flattenRows parseToDisplay (some T)).map (fun row => (row.id, row.lastChild)) =
      (placesRoots T).map (fun pl => (pl.node.id, if pl.isLast then some true else none)) := by
  have h := congrArg (List.map (fun e : Nat × FieldsByName × Option Nat × Option Bool =>
    (e.1, e.2.2.2))) (flattenRowsLoop_info parseToDisplay T)
  simp only [List.map_map, Function.comp_def, rowInfo, placeInfo] at h
  simp only [flattenRows]
  rw [h]
  apply List.map_congr_left
  intro pl hpl
  rw [hraw pl.node (placesRoots_node_mem T pl hpl)]

/-- Witness of C15: the scenario tree, whose nodes 3 and 4 are last elements. -/
theorem flattenRows_lastChild_witness :
    (flattenRows id (some [scenarioTree])).map (fun row => (row.id, row.lastChild)) =
      (placesRoots [scenarioTree]).map
        (fun pl => (pl.node.id, if pl.isLast then some true else none)) :=
  flattenRows_lastChild id [scenarioTree] (by decide)


/-! ### The indent of a child row -/

theorem rowIndented_mono {F G : List Node} {base : List Bool} {rows rows' : List Node}
    {r : Node} (h : RowIndented F base rows r) (hrows : ∀ q ∈ rows, q ∈ rows')
    (hsub : ∀ m ∈ subnodesList F, m ∈ subnodesList G)
    (hroots : ∀ x ∈ F.map Node.id, x ∈ G.map Node.id) : RowIndented G base rows' r := by
  rcases h with ⟨ha, hb⟩ | ⟨q, hq, qind, hq1, hq2, hq3⟩
  · exact Or.inl ⟨ha, hroots _ hb⟩
  · exact Or.inr ⟨q, hrows q hq, qind, hq1, isParentIn_mono hsub hq2, hq3⟩

theorem rowIndented_node (i : Nat) (f : FieldsByName) (c : Option (List Node))
    (oi : Option (List Bool)) (lc : Option Bool) (base : List Bool) (r0 : Node)
    (rowsDocs : List Node) (hid : r0.id = i) (hind : r0.indent = some base)
    (hdocs : ∀ r ∈ rowsDocs, ∃ l, c = some l ∧
      RowIndented l (markParentLast (base ++ [true]) (truthy r0.lastChild)) rowsDocs r) :
    ∀ r ∈ r0 :: rowsDocs, RowIndented [Node.mk i f c oi lc] base (r0 :: rowsDocs) r := by
  intro r hr
  rcases List.mem_cons.mp hr with rfl | hr
  · exact Or.inl ⟨hind, by rw [hid]; simp [Node.id]⟩
  · obtain ⟨l, rfl, h⟩ := hdocs r hr
    right
    rcases h with ⟨ha, hb⟩ | ⟨q, hq, qind, hq1, hq2, hq3⟩
    · refine ⟨r0, List.mem_cons_self _ _, base, hind, ?_, ha⟩
      refine ⟨Node.mk i f (some l) oi lc, by simp [subnodesList, subnodes],
        by rw [hid]; rfl, ?_⟩
      simpa [childIds, Node.includedDocuments] using hb
    · exact ⟨q, List.mem_cons_of_mem _ hq, qind, hq1,
        isParentIn_mono (subnodesList_docs i f l oi lc) hq2, hq3⟩

mutual
theorem mapIncludedDocs_indented (p : FieldsByName → FieldsByName) :
    ∀ (c : Option (List Node)) (ind : List Bool) (nl : Bool),
      ∀ r ∈ (mapIncludedDocs p c ind nl).1,
        ∃ l, c = some l ∧
          RowIndented l (markParentLast (ind ++ [true]) nl) (mapIncludedDocs p c ind nl).1 r
  | none, _, _ => by simp [mapIncludedDocs]
  | some l, ind, nl => by
    intro r hr
    simp only [mapIncludedDocs] at hr ⊢
    exact ⟨l, rfl, mapIncludedLoop_indented p l ind nl r hr⟩
theorem mapIncludedLoop_indented (p : FieldsByName → FieldsByName) :
    ∀ (l : List Node) (ind : List Bool) (nl : Bool),
      ∀ r ∈ (mapIncludedLoop p l ind nl).1,
        RowIndented l (markParentLast (ind ++ [true]) nl) (mapIncludedLoop p l ind nl).1 r
  | [], _, _ => by simp [mapIncludedLoop]
  | child :: rest, ind, nl => by
    intro r hr
    simp only [mapIncludedLoop, List.mem_append] at hr ⊢
    rcases hr with hr | hr
    · exact rowIndented_mono (mapIncludedChild_indented p child rest.isEmpty ind nl r hr)
        (fun q hq => List.mem_append_left _ hq) (subnodesList_cons_left child rest)
        (by intro x hx; simp only [List.map_cons, List.map_nil, List.mem_singleton] at hx
            simp [hx])
    · exact rowIndented_mono (mapIncludedLoop_indented p rest ind nl r hr)
        (fun q hq => List.mem_append_right _ hq) (subnodesList_cons_right child rest)
        (by intro x hx; exact List.mem_cons_of_mem _ hx)
theorem mapIncludedChild_indented (p : FieldsByName → FieldsByName) :
    ∀ (n : Node) (isLast : Bool) (ind : List Bool) (nl : Bool),
      ∀ r ∈ (mapIncludedChild p n isLast ind nl).1,
        RowIndented [n] (markParentLast (ind ++ [true]) nl)
          (mapIncludedChild p n isLast ind nl).1 r
  | Node.mk i f c oi l, isLast, ind, nl => by
    have hd := mapIncludedDocs_indented p c (markParentLast (ind ++ [true]) nl)
      (truthy (if isLast then some true else l))
    simp only [mapIncludedChild]
    exact rowIndented_node i f c oi l _ _ _ rfl rfl hd
end

theorem mapIncluded_indented (p : FieldsByName → FieldsByName) (n : Node) :
    ∀ r ∈ (mapIncluded p n none false).1, RowIndented [n] [] (mapIncluded p n none false).1 r := by
  cases n with
  | mk i f c oi l =>
    have hd := mapIncludedDocs_indented p c (markParentLast [] false) (truthy l)
    simp only [mapIncluded, Node.includedDocuments, Node.lastChild, Option.getD_none, Node.id,
      Node.fieldsByName]
    exact rowIndented_node i f c oi l [] _ _ rfl rfl hd

theorem flattenRowsLoop_indented (p : FieldsByName → FieldsByName) :
    ∀ (T : List Node), ∀ r ∈ (flattenRowsLoop p T).1, RowIndented T [] (flattenRowsLoop p T).1 r
  | [] => by simp [flattenRowsLoop]
  | n :: rest => by
    intro r hr
    simp only [flattenRowsLoop, List.mem_append] at hr ⊢
    rcases hr with hr | hr
    · exact rowIndented_mono (mapIncluded_indented p n r hr)
        (fun q hq => List.mem_append_left _ hq) (subnodesList_cons_left n rest)
        (by intro x hx; simp only [List.map_cons, List.map_nil, List.mem_singleton] at hx
            simp [hx])
    · exact rowIndented_mono (flattenRowsLoop_indented p rest r hr)
        (fun q hq => List.mem_append_right _ hq) (subnodesList_cons_right n rest)
        (by intro x hx; exact List.mem_cons_of_mem _ hx)

theorem markParentLast_false (ind : List Bool) : markParentLast ind false = ind := by
  simp [markParentLast]

theorem markParentLast_append_true (ind : List Bool) (h : ind ≠ []) :
    markParentLast (ind ++ [true]) true = ind.dropLast ++ [false, true] := by
  obtain ⟨init, a, rfl⟩ : ∃ init a, ind = init ++ [a] := by
    rcases List.eq_nil_or_concat ind with h' | ⟨init, a, h'⟩
    · exact absurd h' h
    · exact ⟨init, a, by simpa using h'⟩
  have hlen : 2 ≤ (init ++ [a] ++ [true]).length := by simp
  simp only [markParentLast, hlen, and_self, ↓reduceIte, List.dropLast_concat]
  have e : (init ++ [a] ++ [true]).length - 2 = init.length := by simp
  rw [e, List.append_assoc, List.set_append_right _ _ (Nat.le_refl _)]
  simp

/-- C14, as stated, fails: in the rows of the scenario tree the row of node 4 has
the indent `[false, true]` while the row of its parent, node 3, has the indent
`[true]`, which is no prefix of it. -/
theorem flattenRows_indent_prefix_counterexample :
    (flattenRows id (some [scenarioTree])).map (fun row => (row.id, row.indent)) =
      [(1, some []), (2, some [true]), (3, some [true]), (4, some [false, true])] ∧
    IsParentIn [scenarioTree] 3 4 ∧
    ¬ ([true] <+: [false, true]) := by
  refine ⟨by decide, ?_, by decide⟩
  exact ⟨Node.mk 3 [] (some [leafNode 4]) none none, by decide, rfl, by decide⟩

/-- C14, amended: for every tree `T` and every row of `flattenRows(T)` that
comes from a child node (its indent is not empty), the row of its parent is among
the rows, and the indent of the child row is the indent of the parent row with
`true` appended when the parent row is not marked `lastChild` or has an empty
indent; when the parent row is marked `lastChild` and has a non-empty indent, it
is the indent of the parent row with its last entry replaced by `false`, and
`true` appended. -/
theorem flattenRows_child_indent (parseToDisplay : FieldsByName → FieldsByName)
    (T : List Node) (row : Node) (hrow : row ∈ flattenRows parseToDisplay (some T))
    (hchild : 0 < row.indentLength) :
    ∃ parent ∈ flattenRows parseToDisplay (some T), ∃ pind : List Bool,
      parent.indent = some pind ∧ IsParentIn T parent.id row.id ∧
      ((parent.lastChild ≠ some true ∨ pind = []) → row.indent = some (pind ++ [true])) ∧
      ((parent.lastChild = some true ∧ pind ≠ []) →
        row.indent = some (pind.dropLast ++ [false, true])) := by
  rcases flattenRowsLoop_indented parseToDisplay T row hrow with ⟨h, _⟩ | ⟨q, hq, qind, h1, h2, h3⟩
  · simp [Node.indentLength, h] at hchild
  · refine ⟨q, hq, qind, h1, h2, ?_, ?_⟩
    · intro hc
      rw [h3]
      rcases hc with hc | hc
      · have : truthy q.lastChild = false := by
          cases hl : q.lastChild with
          | none => rfl
          | some b =>
            cases b with
            | false => rfl
            | true => exact absurd hl hc
        rw [this, markParentLast_false]
      · subst hc
        simp [markParentLast]
    · rintro ⟨hc1, hc2⟩
      rw [h3, hc1]
      simp only [truthy]
      rw [markParentLast_append_true qind hc2]

/-- Witness of C14 (amended): the row of node 4 of the scenario tree. -/
theorem flattenRows_child_indent_witness :
    ∃ parent ∈ flattenRows id (some [scenarioTree]), ∃ pind : List Bool,
      parent.indent = some pind ∧
      IsParentIn [scenarioTree] parent.id (Node.mk 4 [] none (some [false, true]) (some true)).id ∧
      ((parent.lastChild ≠ some true ∨ pind = []) →
        (Node.mk 4 [] none (some [false, true]) (some true)).indent = some (pind ++ [true])) ∧
      ((parent.lastChild = some true ∧ pind ≠ []) →
        (Node.mk 4 [] none (some [false, true]) (some true)).indent =
          some (pind.dropLast ++ [false, true])) :=
  flattenRows_child_indent id [scenarioTree]
    (Node.mk 4 [] none (some [false, true]) (some true)) (by decide) (by decide)


/-! ### The snapshot list `collapsedArrayMap` -/

theorem createCollapsedMapLoop_eq (node : Node) :
    ∀ (m acc : List (Option Node)), (∀ item ∈ m, item.isSome = true) →
      createCollapsedMapLoop node m acc = some (acc ++ insertChildren node m)
  | [], acc, _ => by simp [createCollapsedMapLoop, insertChildren]
  | none :: rest, acc, hm => by
    have := hm none (List.mem_cons_self _ _)
    simp at this
  | some item :: rest, acc, hm => by
    have hrest : ∀ x ∈ rest, x.isSome = true := fun x hx => hm x (List.mem_cons_of_mem _ hx)
    simp only [createCollapsedMapLoop, insertChildren, Option.map_some', Option.some.injEq]
    split
    · rw [createCollapsedMapLoop_eq node rest _ hrest]
      simp
    · rw [createCollapsedMapLoop_eq node rest _ hrest]
      simp

theorem mem_insertChildren (node : Node) :
    ∀ (m : List (Option Node)), ∀ item ∈ m, item ∈ insertChildren node m
  | [], _, h => by simp at h
  | a :: rest, item, h => by
    simp only [insertChildren, List.mem_append]
    rcases List.mem_cons.mp h with rfl | h
    · left
      split <;> simp
    · exact Or.inr (mem_insertChildren node rest item h)

theorem insertChildren_of_unknown (node : Node) :
    ∀ (m : List (Option Node)), (∀ item ∈ m, item.map Node.id ≠ some node.id) →
      insertChildren node m = m
  | [], _ => rfl
  | a :: rest, h => by
    have ha : a.map Node.id ≠ some node.id := h a (List.mem_cons_self _ _)
    simp only [insertChildren, ha, ↓reduceIte, List.singleton_append]
    rw [insertChildren_of_unknown node rest (fun x hx => h x (List.mem_cons_of_mem _ hx))]

theorem inner_expand_map (R : Node) (s : CollapseState)
    (hmap : ∀ item ∈ s.collapsedArrayMap, item.isSome = true) :
    ∃ s', inner Node.id true R s = some s' ∧
      s'.collapsedArrayMap = insertChildren R s.collapsedArrayMap := by
  cases R with
  | mk i f c ind l =>
    have hm := createCollapsedMapLoop_eq (Node.mk i f c ind l) s.collapsedArrayMap [] hmap
    cases c with
    | none =>
      refine ⟨{ collapsedArrayMap := insertChildren (Node.mk i f none ind l) s.collapsedArrayMap,
                collapsedParentRows :=
                  splice s.collapsedParentRows (indexOf s.collapsedParentRows i) 1,
                collapsedRows := s.collapsedRows }, ?_, rfl⟩
      simp only [inner, createCollapsedMap, Bool.not_true, Bool.false_eq_true, ↓reduceIte, hm,
        innerDocs, List.nil_append, Node.id]
    | some docs =>
      obtain ⟨s', hs', _, h2, _, _⟩ := innerLoop_expand docs
        { collapsedArrayMap := insertChildren (Node.mk i f (some docs) ind l) s.collapsedArrayMap,
          collapsedParentRows :=
            splice s.collapsedParentRows (indexOf s.collapsedParentRows i) 1,
          collapsedRows := s.collapsedRows }
      refine ⟨s', ?_, h2⟩
      simp only [inner, createCollapsedMap, Bool.not_true, Bool.false_eq_true, ↓reduceIte, hm,
        innerDocs, List.nil_append, Node.id]
      exact hs'

/-- C16, as stated, fails: in the state built for the scenario tree the expand
of node 3 keeps the snapshot with id 3 in `collapsedArrayMap` (and adds node 4
after it), and the collapse of node 1 in the empty state returns an empty
`collapsedArrayMap`, without a snapshot of node 1. -/
theorem collapseTableRow_map_counterexample :
    ∃ s0 s1 s2 : CollapseState,
      createCollapsedRows (flattenRows id (some [scenarioTree])) true 0 Node.id = some s0 ∧
      collapseTableRow Node.id s0 true (Node.mk 3 [] (some [leafNode 4]) none none) = some s1 ∧
      s1.collapsedArrayMap.map (Option.map Node.id) = [some 1, some 3, some 4] ∧
      collapseTableRow Node.id
        { collapsedParentRows := [], collapsedRows := [], collapsedArrayMap := [] }
        false scenarioTree = some s2 ∧
      s2.collapsedArrayMap = [] :=
  ⟨_, _, _, rfl, rfl, rfl, rfl, rfl⟩

/-- C16, amended: for every collapse state whose `collapsedArrayMap` has no
`undefined` entry and every node `R` with children, an expand of `R` by
`collapseTableRow` returns the `collapsedArrayMap` with every entry kept, the
snapshot of `R` included, and the children of `R` put in after every entry with
the id of `R`; a collapse of `R` appends nothing: the `collapsedArrayMap` it
returns is a sub-list of the one it started from. -/
theorem collapseTableRow_map (s : CollapseState) (R : Node)
    (hchildren : R.includedDocuments.isSome = true)
    (hmap : ∀ item ∈ s.collapsedArrayMap, item.isSome = true) :
    (∃ s' : CollapseState, collapseTableRow Node.id s true R = some s' ∧
      s'.collapsedArrayMap = insertChildren R s.collapsedArrayMap ∧
      ∀ item ∈ s.collapsedArrayMap, item ∈ s'.collapsedArrayMap) ∧
    (∃ s' : CollapseState, collapseTableRow Node.id s false R = some s' ∧
      s'.collapsedArrayMap.Sublist s.collapsedArrayMap) := by
  constructor
  · obtain ⟨s', hs', h⟩ := inner_expand_map R s hmap
    refine ⟨s', hs', h, ?_⟩
    intro item hitem
    rw [h]
    exact mem_insertChildren R _ item hitem
  · obtain ⟨s', hs', _, _, h3, _⟩ := inner_collapse_keeps R s hchildren
    exact ⟨s', hs', h3⟩

/-- Witness of C16 (amended): node 3 of the scenario tree in a state that holds
its snapshot. -/
theorem collapseTableRow_map_witness :
    (∃ s' : CollapseState,
      collapseTableRow Node.id
        { collapsedParentRows := [3], collapsedRows := [4],
          collapsedArrayMap := [some (Node.mk 3 [] (some [leafNode 4]) (some [true]) none)] }
        true (Node.mk 3 [] (some [leafNode 4]) none none) = some s' ∧
      s'.collapsedArrayMap =
        insertChildren (Node.mk 3 [] (some [leafNode 4]) none none)
          [some (Node.mk 3 [] (some [leafNode 4]) (some [true]) none)] ∧
      ∀ item ∈ [some (Node.mk 3 [] (some [leafNode 4]) (some [true]) none)],
        item ∈ s'.collapsedArrayMap) ∧
    (∃ s' : CollapseState,
      collapseTableRow Node.id
        { collapsedParentRows := [3], collapsedRows := [4],
          collapsedArrayMap := [some (Node.mk 3 [] (some [leafNode 4]) (some [true]) none)] }
        false (Node.mk 3 [] (some [leafNode 4]) none none) = some s' ∧
      s'.collapsedArrayMap.Sublist
        [some (Node.mk 3 [] (some [leafNode 4]) (some [true]) none)]) :=
  collapseTableRow_map
    { collapsedParentRows := [3], collapsedRows := [4],
      collapsedArrayMap := [some (Node.mk 3 [] (some [leafNode 4]) (some [true]) none)] }
    (Node.mk 3 [] (some [leafNode 4]) none none) (by decide) (by decide)


/-! ### Toggle of a row that the state does not know -/

mutual
theorem inner_collapse_grows : ∀ (n : Node) (s : CollapseState),
    n.includedDocuments.isSome = true →
    ∃ s', inner Node.id false n s = some s' ∧
      (∀ x ∈ s.collapsedRows, x ∈ s'.collapsedRows) ∧
      (∀ x ∈ s.collapsedParentRows, x ∈ s'.collapsedParentRows) ∧
      n.id ∈ s'.collapsedParentRows ∧
      (n.id ∉ s.collapsedParentRows → ∀ x ∈ childIds n, x ∈ s'.collapsedRows)
  | Node.mk i f c ind l, s, hc => by
    obtain ⟨docs, rfl⟩ := Option.isSome_iff_exists.mp hc
    by_cases hidx : indexOf s.collapsedParentRows i > -1
    · have hin : i ∈ s.collapsedParentRows := indexOf_gt_iff.mp hidx
      refine ⟨{ collapsedParentRows := s.collapsedParentRows,
                collapsedRows := s.collapsedRows,
                collapsedArrayMap := splice s.collapsedArrayMap
                  (indexOfFirstChild s.collapsedArrayMap docs) docs.length },
        ?_, fun _ h => h, fun _ h => h, hin, fun h => absurd hin h⟩
      simp only [inner, createCollapsedMap, Bool.not_false, Bool.false_eq_true, ↓reduceIte,
        Node.id, Node.includedDocuments, hidx]
    · obtain ⟨s', hs', h1, h2, h3⟩ := innerLoop_collapse_grows docs
        { collapsedArrayMap :=
            splice s.collapsedArrayMap (indexOfFirstChild s.collapsedArrayMap docs) docs.length,
          collapsedParentRows := s.collapsedParentRows ++ [i],
          collapsedRows := s.collapsedRows }
      refine ⟨s', ?_, h1, fun x hx => h2 x (List.mem_append_left _ hx),
        h2 i (by simp), ?_⟩
      · simp only [inner, createCollapsedMap, Bool.not_false, Bool.false_eq_true, ↓reduceIte,
          Node.id, Node.includedDocuments, hidx, innerDocs]
        exact hs'
      · intro _ x hx
        simp only [childIds, Node.includedDocuments, List.mem_map] at hx
        obtain ⟨cn, hcn, rfl⟩ := hx
        exact h3 cn hcn
theorem innerLoop_collapse_grows : ∀ (docs : List Node) (s : CollapseState),
    ∃ s', innerLoop Node.id false docs s = some s' ∧
      (∀ x ∈ s.collapsedRows, x ∈ s'.collapsedRows) ∧
      (∀ x ∈ s.collapsedParentRows, x ∈ s'.collapsedParentRows) ∧
      ∀ c ∈ docs, c.id ∈ s'.collapsedRows
  | [], s => ⟨s, by simp [innerLoop], fun _ h => h, fun _ h => h, by simp⟩
  | Node.mk i f c ind l :: rest, s => by
    by_cases hidx : indexOf s.collapsedRows i > -1
    · obtain ⟨s', hs', h1, h2, h3⟩ := innerLoop_collapse_grows rest s
      refine ⟨s', ?_, h1, h2, ?_⟩
      · simp only [innerLoop, Bool.false_eq_true, ↓reduceIte, Node.id, hidx]
        exact hs'
      · intro cn hcn
        rcases List.mem_cons.mp hcn with rfl | hcn
        · exact h1 _ (indexOf_gt_iff.mp hidx)
        · exact h3 cn hcn
    · cases c with
      | none =>
        obtain ⟨s', hs', h1, h2, h3⟩ := innerLoop_collapse_grows rest
          { s with collapsedRows := s.collapsedRows ++ [i] }
        refine ⟨s', ?_, fun x hx => h1 x (List.mem_append_left _ hx), h2, ?_⟩
        · simp only [innerLoop, Bool.false_eq_true, ↓reduceIte, Node.id, hidx,
            Node.includedDocuments]
          exact hs'
        · intro cn hcn
          rcases List.mem_cons.mp hcn with rfl | hcn
          · exact h1 _ (by simp [Node.id])
          · exact h3 cn hcn
      | some docs =>
        obtain ⟨s1, hs1, g1, g2, _, _⟩ := inner_collapse_grows (Node.mk i f (some docs) ind l)
          { s with collapsedRows := s.collapsedRows ++ [i] } rfl
        obtain ⟨s', hs', h1, h2, h3⟩ := innerLoop_collapse_grows rest s1
        refine ⟨s', ?_, fun x hx => h1 x (g1 x (List.mem_append_left _ hx)),
          fun x hx => h2 x (g2 x hx), ?_⟩
        · simp only [innerLoop, Bool.false_eq_true, ↓reduceIte, Node.id, hidx,
            Node.includedDocuments]
          rw [hs1]
          exact hs'
        · intro cn hcn
          rcases List.mem_cons.mp hcn with rfl | hcn
          · exact h1 _ (g1 _ (by simp [Node.id]))
          · exact h3 cn hcn
end

/-- C17, as stated, fails: in the state `collapsedParentRows = [1]`,
`collapsedRows = [2]`, a collapse of node 9 with the child 10, ids that occur
nowhere in the state, returns a state with 9 and 10 added, and an expand of it
returns a state without 1 and 2. -/
theorem collapseTableRow_unknown_row_counterexample :
    ∃ s1 s2 : CollapseState,
      collapseTableRow Node.id
        { collapsedParentRows := [1], collapsedRows := [2], collapsedArrayMap := [] }
        false (Node.mk 9 [] (some [leafNode 10]) none none) = some s1 ∧
      s1.collapsedParentRows = [1, 9] ∧ s1.collapsedRows = [2, 10] ∧
      collapseTableRow Node.id
        { collapsedParentRows := [1], collapsedRows := [2], collapsedArrayMap := [] }
        true (Node.mk 9 [] (some [leafNode 10]) none none) = some s2 ∧
      s2.collapsedParentRows = [] ∧ s2.collapsedRows = [] :=
  ⟨_, _, rfl, rfl, rfl, rfl, rfl, rfl⟩

/-- C17, amended: `collapseTableRow` has no check for an unknown row and reports
nothing.  For every collapse state and every node with children whose id is not
in `collapsedParentRows`, so also for a node whose ids occur nowhere in the
state, a collapse returns a state with the id of the node in
`collapsedParentRows` and the ids of its children in `collapsedRows`.  An expand
of a node whose id is the id of no entry of `collapsedArrayMap` (none of them
`undefined`) returns the `collapsedArrayMap` it started from. -/
theorem collapseTableRow_unknown_row (s : CollapseState) (node : Node)
    (hchildren : node.includedDocuments.isSome = true)
    (hparents : node.id ∉ s.collapsedParentRows)
    (hmap : ∀ item ∈ s.collapsedArrayMap, ∃ n, item = some n ∧ n.id ≠ node.id) :
    (∃ s' : CollapseState, collapseTableRow Node.id s false node = some s' ∧
      node.id ∈ s'.collapsedParentRows ∧ ∀ x ∈ childIds node, x ∈ s'.collapsedRows) ∧
    (∃ s' : CollapseState, collapseTableRow Node.id s true node = some s' ∧
      s'.collapsedArrayMap = s.collapsedArrayMap) := by
  constructor
  · obtain ⟨s', hs', _, _, h3, h4⟩ := inner_collapse_grows node s hchildren
    exact ⟨s', hs', h3, h4 hparents⟩
  · have hsome : ∀ item ∈ s.collapsedArrayMap, item.isSome = true := by
      intro item hitem
      obtain ⟨n, rfl, _⟩ := hmap item hitem
      rfl
    have hne : ∀ item ∈ s.collapsedArrayMap, item.map Node.id ≠ some node.id := by
      intro item hitem
      obtain ⟨n, rfl, hn⟩ := hmap item hitem
      simpa using hn
    obtain ⟨s', hs', h⟩ := inner_expand_map node s hsome
    exact ⟨s', hs', by rw [h, insertChildren_of_unknown node _ hne]⟩

/-- Witness of C17 (amended): node 9 with the child 10 in a state that knows
the ids 1, 2 and 3 only. -/
theorem collapseTableRow_unknown_row_witness :
    (∃ s' : CollapseState,
      collapseTableRow Node.id
        { collapsedParentRows := [1], collapsedRows := [2],
          collapsedArrayMap := [some (Node.mk 1 [] (some [leafNode 2]) (some []) none)] }
        false (Node.mk 9 [] (some [leafNode 10]) none none) = some s' ∧
      (Node.mk 9 [] (some [leafNode 10]) none none).id ∈ s'.collapsedParentRows ∧
      ∀ x ∈ childIds (Node.mk 9 [] (some [leafNode 10]) none none), x ∈ s'.collapsedRows) ∧
    (∃ s' : CollapseState,
      collapseTableRow Node.id
        { collapsedParentRows := [1], collapsedRows := [2],
          collapsedArrayMap := [some (Node.mk 1 [] (some [leafNode 2]) (some []) none)] }
        true (Node.mk 9 [] (some [leafNode 10]) none none) = some s' ∧
      s'.collapsedArrayMap = [some (Node.mk 1 [] (some [leafNode 2]) (some []) none)]) :=
  collapseTableRow_unknown_row
    { collapsedParentRows := [1], collapsedRows := [2],
      collapsedArrayMap := [some (Node.mk 1 [] (some [leafNode 2]) (some []) none)] }
    (Node.mk 9 [] (some [leafNode 10]) none none) (by decide) (by decide)
    (by
      intro item hitem
      simp only [List.mem_singleton] at hitem
      subst hitem
      exact ⟨_, rfl, by decide⟩)


/-! ### Build from rows with a malformed row -/

theorem createCollapsedRowsLoop_append (keyProperty : Node → Nat) (expandedDepth : Nat)
    (rest : List Node) :
    ∀ (pre : List Node) (s : CollapseState), (∀ row ∈ pre, row.indent.isSome = true) →
      createCollapsedRowsLoop keyProperty expandedDepth (pre ++ rest) s =
        createCollapsedRowsLoop keyProperty expandedDepth rest
          (createCollapsedRowsLoop keyProperty expandedDepth pre s)
  | [], s, _ => by simp [createCollapsedRowsLoop]
  | row :: pre, s, h => by
    have hrow : row.indent.isSome = true := h row (List.mem_cons_self _ _)
    have hpre : ∀ r ∈ pre, r.indent.isSome = true :=
      fun r hr => h r (List.mem_cons_of_mem _ hr)
    obtain ⟨indent, hind⟩ := Option.isSome_iff_exists.mp hrow
    simp only [List.cons_append, createCollapsedRowsLoop, hind]
    by_cases hp : expandedDepth ≤ indent.length ∧ row.includedDocuments.isSome = true
    · simp only [hp, and_self, ↓reduceIte, createCollapsedMap]
      exact createCollapsedRowsLoop_append keyProperty expandedDepth rest pre _ hpre
    · by_cases hr : expandedDepth < indent.length
      · simp only [hp, ↓reduceIte, hr]
        exact createCollapsedRowsLoop_append keyProperty expandedDepth rest pre _ hpre
      · simp only [hp, ↓reduceIte, hr]
        exact createCollapsedRowsLoop_append keyProperty expandedDepth rest pre _ hpre

/-- C18, as stated, fails: for the rows [row 1 with a child and an indent, row 2
without an indent] of a collapsible table, `createCollapsedRows` does not fail;
it dispatches a state whose `collapsedParentRows` and `collapsedArrayMap` are
filled from row 1, the row before the malformed one. -/
theorem createCollapsedRows_malformed_counterexample :
    ∃ s : CollapseState,
      createCollapsedRows
        [Node.mk 1 [] (some [leafNode 2]) (some []) none, Node.mk 2 [] none none none]
        true 0 Node.id = some s ∧
      s.collapsedParentRows = [1] ∧
      s.collapsedArrayMap = [some (Node.mk 1 [] (some [leafNode 2]) (some []) none)] :=
  ⟨_, rfl, rfl, rfl⟩

/-- C18, amended: for every collapsible table and every rows list whose first
row without an indent is `bad`, after the rows `pre` that all carry an indent,
`createCollapsedRows` does not fail: the `catch` swallows the error, the rows
from `bad` on are skipped, and the state dispatched is the one that the depth
rule builds from the rows `pre`. -/
theorem createCollapsedRows_malformed (keyProperty : Node → Nat) (expandedDepth : Nat)
    (pre : List Node) (bad : Node) (post : List Node)
    (hpre : ∀ row ∈ pre, row.indent.isSome = true) (hbad : bad.indent = none) :
    ∃ s : CollapseState,
      createCollapsedRows (pre ++ bad :: post) true expandedDepth keyProperty = some s ∧
      createCollapsedRows pre true expandedDepth keyProperty = some s ∧
      s.collapsedParentRows =
        (pre.filter (fun row => decide (expandedDepth ≤ row.indentLength) &&
          row.includedDocuments.isSome)).map keyProperty ∧
      s.collapsedArrayMap =
        (pre.filter (fun row => decide (expandedDepth ≤ row.indentLength) &&
          row.includedDocuments.isSome)).map some ∧
      s.collapsedRows =
        (pre.filter (fun row =>
          !(decide (expandedDepth ≤ row.indentLength) && row.includedDocuments.isSome) &&
            decide (expandedDepth < row.indentLength))).map keyProperty := by
  refine ⟨_, ?_, createCollapsedRows_spec keyProperty expandedDepth pre hpre, rfl, rfl, rfl⟩
  have hne : (pre ++ bad :: post).length ≠ 0 := by simp
  simp only [createCollapsedRows, ↓reduceIte, hne, ne_eq, not_false_eq_true]
  rw [createCollapsedRowsLoop_append keyProperty expandedDepth (bad :: post) pre _ hpre,
    createCollapsedRowsLoop_spec keyProperty expandedDepth pre _ hpre]
  simp [createCollapsedRowsLoop, hbad]

/-- Witness of C18 (amended): row 1 with an indent, then row 2 without one. -/
theorem createCollapsedRows_malformed_witness :
    ∃ s : CollapseState,
      createCollapsedRows
        ([Node.mk 1 [] (some [leafNode 2]) (some []) none] ++ Node.mk 2 [] none none none :: [])
        true 0 Node.id = some s ∧
      createCollapsedRows [Node.mk 1 [] (some [leafNode 2]) (some []) none] true 0 Node.id
        = some s ∧
      s.collapsedParentRows =
        ([Node.mk 1 [] (some [leafNode 2]) (some []) none].filter
          (fun row => decide (0 ≤ row.indentLength) && row.includedDocuments.isSome)).map
          Node.id ∧
      s.collapsedArrayMap =
        ([Node.mk 1 [] (some [leafNode 2]) (some []) none].filter
          (fun row => decide (0 ≤ row.indentLength) && row.includedDocuments.isSome)).map some ∧
      s.collapsedRows =
        ([Node.mk 1 [] (some [leafNode 2]) (some []) none].filter (fun row =>
          !(decide (0 ≤ row.indentLength) && row.includedDocuments.isSome) &&
            decide (0 < row.indentLength))).map Node.id :=
  createCollapsedRows_malformed Node.id 0 [Node.mk 1 [] (some [leafNode 2]) (some []) none]
    (Node.mk 2 [] none none none) [] (by decide) rfl

/-! ### Rows in the heap -/

theorem readFields_cons (heap : FieldHeap) (k : String) (a : FieldRef)
    (rest : List (String × FieldRef)) :
    readFields heap ((k, a) :: rest) =
      (match heap[a]? with
        | some v => (k, v) :: readFields heap rest
        | none => readFields heap rest) := by
  unfold readFields
  rw [List.filterMap_cons]
  cases heap[a]? <;> rfl

theorem getElem_append_length (heap ext : FieldHeap) (v : ViewRowField) :
    (heap ++ v :: ext)[heap.length]? = some v := by
  rw [List.getElem?_append_right (le_refl _)]
  simp

theorem allocFields_read : ∀ (f : FieldsByName) (heap : FieldHeap),
    ∃ ext : FieldHeap, (allocFields f heap).2 = heap ++ ext ∧
      ∀ more : FieldHeap, readFields (heap ++ ext ++ more) (allocFields f heap).1 = f
  | [], heap => ⟨[], by simp [allocFields], fun more => by simp [allocFields, readFields]⟩
  | e :: rest, heap => by
    obtain ⟨ext, h1, h2⟩ := allocFields_read rest (heap ++ [e.2])
    refine ⟨e.2 :: ext, ?_, ?_⟩
    · simp only [allocFields, h1, List.append_assoc, List.singleton_append]
    · intro more
      have h3 := h2 more
      simp only [List.append_assoc, List.singleton_append] at h3
      simp only [allocFields, readFields_cons, List.append_assoc, List.cons_append]
      rw [getElem_append_length]
      simp only [List.cons_append] at h3
      rw [h3]

mutual
theorem allocRows_read : ∀ (rows : List Node) (heap : FieldHeap),
    ∃ ext : FieldHeap, (allocRows rows heap).2 = heap ++ ext ∧
      ∀ more : FieldHeap, readRows (heap ++ ext ++ more) (allocRows rows heap).1 = rows
  | [], heap => ⟨[], by simp [allocRows], fun more => by simp [allocRows, readRows]⟩
  | row :: rest, heap => by
    obtain ⟨e1, h1, r1⟩ := allocNode_read row heap
    obtain ⟨e2, h2, r2⟩ := allocRows_read rest (allocNode row heap).2
    rw [h1] at h2 r2
    refine ⟨e1 ++ e2, ?_, ?_⟩
    · simp only [allocRows]
      rw [h1, h2, List.append_assoc]
    · intro more
      simp only [allocRows, readRows]
      have a1 := r1 (e2 ++ more)
      have a2 := r2 more
      rw [h1]
      simp only [List.append_assoc] at a1 a2 ⊢
      rw [a1, a2]
theorem allocNode_read : ∀ (n : Node) (heap : FieldHeap),
    ∃ ext : FieldHeap, (allocNode n heap).2 = heap ++ ext ∧
      ∀ more : FieldHeap, readNode (heap ++ ext ++ more) (allocNode n heap).1 = n
  | Node.mk i f c ind l, heap => by
    obtain ⟨e1, h1, r1⟩ := allocFields_read f heap
    obtain ⟨e2, h2, r2⟩ := allocDocs_read c (allocFields f heap).2
    rw [h1] at h2 r2
    refine ⟨e1 ++ e2, ?_, ?_⟩
    · simp only [allocNode]
      rw [h1, h2, List.append_assoc]
    · intro more
      simp only [allocNode, readNode]
      have a1 := r1 (e2 ++ more)
      have a2 := r2 more
      rw [h1]
      simp only [List.append_assoc] at a1 a2 ⊢
      rw [a1, a2]
theorem allocDocs_read : ∀ (c : Option (List Node)) (heap : FieldHeap),
    ∃ ext : FieldHeap, (allocDocs c heap).2 = heap ++ ext ∧
      ∀ more : FieldHeap, readDocs (heap ++ ext ++ more) (allocDocs c heap).1 = c
  | none, heap => ⟨[], by simp [allocDocs], fun more => by simp [allocDocs, readDocs]⟩
  | some l, heap => by
    obtain ⟨e1, h1, r1⟩ := allocRows_read l heap
    refine ⟨e1, ?_, ?_⟩
    · simp only [allocDocs, h1]
    · intro more
      simp only [allocDocs, readDocs, r1 more]
end

/-- Every rows list has a representation in every heap: put into the heap as
fresh objects and read back, the rows are the rows. -/
theorem readRows_allocRows (rows : List Node) (heap : FieldHeap) :
    readRows (allocRows rows heap).2 (allocRows rows heap).1 = rows := by
  obtain ⟨ext, h1, h2⟩ := allocRows_read rows heap
  have := h2 []
  rw [List.append_nil, ← h1] at this
  exact this

/-! ### Merge: identity and indent -/

/-- C19: for every `toRows`, in a plain array or an `Immutable.List`, and any
column infos, `mergeRows` called with `fromRows` absent and `changedIds` absent
returns `rows` equal to `toRows`, same elements in the same order, and
`removedRows = []`; no field object is touched. -/
theorem mergeRows_identity (kind : RowsKind) (toRows : List RefNode)
    (columnInfosByFieldName : ColumnInfos) (heap : FieldHeap) :
    ∃ res : MergeResult,
      mergeRows kind toRows none columnInfosByFieldName none heap = some (res, heap) ∧
      res.rows = toRows ∧ res.removedRows = [] :=
  ⟨_, rfl, rfl, rfl⟩

theorem readNode_id (heap : FieldHeap) (n : RefNode) : (readNode heap n).id = n.id := by
  cases n
  rfl

theorem readNode_indent (heap : FieldHeap) (n : RefNode) :
    (readNode heap n).indent = n.indent := by
  cases n
  rfl

theorem lookup_cons_node (map : RowIndex) (n : RefNode) (i : Nat) :
    List.lookup i ((n.id, n) :: map) = if i = n.id then some n else map.lookup i := by
  by_cases h : i = n.id
  · subst h; simp [List.lookup]
  · have hne : (i == n.id) = false := by simpa using h
    simp [List.lookup, hne, h]

mutual
theorem indexRows_lookup_some (heap : FieldHeap) :
    ∀ (rows : List RefNode) (map : RowIndex) (i : Nat) (e : RefNode),
      (indexRows rows map).lookup i = some e →
        readNode heap e ∈ subnodesList (readRows heap rows) ∨ map.lookup i = some e
  | [], map, i, e, h => by
    simp only [indexRows] at h
    exact Or.inr h
  | row :: rest, map, i, e, h => by
    simp only [indexRows] at h
    simp only [readRows, subnodesList, List.mem_append]
    rcases indexRows_lookup_some heap rest _ i e h with h | h
    · exact Or.inl (Or.inr h)
    · rcases indexRow_lookup_some heap row map i e h with h | h
      · exact Or.inl (Or.inl h)
      · exact Or.inr h
theorem indexRow_lookup_some (heap : FieldHeap) :
    ∀ (row : RefNode) (map : RowIndex) (i : Nat) (e : RefNode),
      (indexRow row map).lookup i = some e →
        readNode heap e ∈ subnodes (readNode heap row) ∨ map.lookup i = some e
  | RefNode.mk j f c ind l, map, i, e, h => by
    simp only [indexRow] at h
    simp only [readNode, subnodes, List.mem_cons]
    rcases indexRowsDocs_lookup_some heap c _ i e h with h | h
    · exact Or.inl (Or.inr h)
    · have h' := lookup_cons_node map (RefNode.mk j f c ind l) i
      simp only [RefNode.id] at h'
      rw [h'] at h
      split at h
      · left; left
        rw [← Option.some.inj h]
        rfl
      · exact Or.inr h
theorem indexRowsDocs_lookup_some (heap : FieldHeap) :
    ∀ (c : Option (List RefNode)) (map : RowIndex) (i : Nat) (e : RefNode),
      (indexRowsDocs c map).lookup i = some e →
        readNode heap e ∈ subnodesDocs (readDocs heap c) ∨ map.lookup i = some e
  | none, map, i, e, h => by
    simp only [indexRowsDocs] at h
    exact Or.inr h
  | some docs, map, i, e, h => by
    simp only [indexRowsDocs] at h
    simp only [readDocs, subnodesDocs]
    exact indexRows_lookup_some heap docs map i e h
end

mutual
theorem indexRows_lookup_isSome (heap : FieldHeap) :
    ∀ (rows : List RefNode) (map : RowIndex) (i : Nat),
      (i ∈ preorderIdsList (readRows heap rows) ∨ (map.lookup i).isSome = true) →
        ((indexRows rows map).lookup i).isSome = true
  | [], map, i, h => by
    simp only [indexRows]
    rcases h with h | h
    · simp [readRows, preorderIdsList] at h
    · exact h
  | row :: rest, map, i, h => by
    simp only [indexRows]
    apply indexRows_lookup_isSome heap rest
    simp only [readRows, preorderIdsList, List.mem_append] at h
    rcases h with (h | h) | h
    · exact Or.inr (indexRow_lookup_isSome heap row map i (Or.inl h))
    · exact Or.inl h
    · exact Or.inr (indexRow_lookup_isSome heap row map i (Or.inr h))
theorem indexRow_lookup_isSome (heap : FieldHeap) :
    ∀ (row : RefNode) (map : RowIndex) (i : Nat),
      (i ∈ preorderIds (readNode heap row) ∨ (map.lookup i).isSome = true) →
        ((indexRow row map).lookup i).isSome = true
  | RefNode.mk j f c ind l, map, i, h => by
    simp only [indexRow]
    apply indexRowsDocs_lookup_isSome heap c
    have h' := lookup_cons_node map (RefNode.mk j f c ind l) i
    simp only [RefNode.id] at h'
    simp only [readNode, preorderIds, List.mem_cons] at h
    rcases h with (h | h) | h
    · right; rw [h']; simp [h]
    · exact Or.inl h
    · right; rw [h']; split
      · rfl
      · exact h
theorem indexRowsDocs_lookup_isSome (heap : FieldHeap) :
    ∀ (c : Option (List RefNode)) (map : RowIndex) (i : Nat),
      (i ∈ preorderIdsDocs (readDocs heap c) ∨ (map.lookup i).isSome = true) →
        ((indexRowsDocs c map).lookup i).isSome = true
  | none, map, i, h => by
    simp only [indexRowsDocs]
    rcases h with h | h
    · simp [readDocs, preorderIdsDocs] at h
    · exact h
  | some docs, map, i, h => by
    simp only [indexRowsDocs]
    simp only [readDocs, preorderIdsDocs] at h
    exact indexRows_lookup_isSome heap docs map i h
end

theorem mapRow_indent (heap : FieldHeap) (fromRows : List RefNode) (cols : ColumnInfos)
    (hraw : ∀ n ∈ subnodesList (readRows heap fromRows), n.indent = none) (row : RefNode)
    (h1 : FieldHeap) :
    (mapRow (indexRows fromRows []) cols row h1).1.id = row.id ∧
    (row.id ∈ preorderIdsList (readRows heap fromRows) →
      (mapRow (indexRows fromRows []) cols row h1).1.indent = none) ∧
    (row.id ∉ preorderIdsList (readRows heap fromRows) →
      (mapRow (indexRows fromRows []) cols row h1).1.indent = row.indent) := by
  have hk := indexRows_keyed fromRows [] RowIndex.keyed_nil
  refine ⟨mapRow_id _ cols hk row h1, ?_, ?_⟩
  · intro hin
    have hs := indexRows_lookup_isSome heap fromRows [] row.id (Or.inl hin)
    obtain ⟨e, he⟩ := Option.isSome_iff_exists.mp hs
    have hmem : readNode heap e ∈ subnodesList (readRows heap fromRows) := by
      rcases indexRows_lookup_some heap fromRows [] row.id e he with h | h
      · exact h
      · simp [List.lookup] at h
    cases row with
    | mk i f c ind l =>
      simp only [RefNode.id] at he
      simp only [mapRow, he, mergeColumnInfosIntoViewRow_indent]
      rw [← readNode_indent heap e]
      exact hraw _ hmem
  · intro hnot
    cases row with
    | mk i f c ind l =>
      simp only [RefNode.id] at hnot
      cases hl : (indexRows fromRows []).lookup i with
      | none => simp only [mapRow, hl, RefNode.indent]
      | some e =>
        exfalso
        apply hnot
        have hmem : readNode heap e ∈ subnodesList (readRows heap fromRows) := by
          rcases indexRows_lookup_some heap fromRows [] i e hl with h | h
          · exact h
          · simp [List.lookup] at h
        rw [preorderIdsList_eq_map, ← hk i e hl, ← readNode_id heap e]
        exact List.mem_map_of_mem _ hmem

theorem mapRows_indent (heap : FieldHeap) (fromRows : List RefNode) (cols : ColumnInfos)
    (hraw : ∀ n ∈ subnodesList (readRows heap fromRows), n.indent = none)
    (hA hB : FieldHeap) :
    ∀ (rows : List RefNode) (h1 : FieldHeap),
      List.Forall₂
        (fun row row' =>
          row'.id = row.id ∧
          (row.id ∈ preorderIdsList (readRows heap fromRows) → row'.indent = none) ∧
          (row.id ∉ preorderIdsList (readRows heap fromRows) → row'.indent = row.indent))
        (readRows hA rows) (readRows hB (mapRows (indexRows fromRows []) cols rows h1).1)
  | [], h1 => by
    simp only [mapRows, readRows]
    exact List.Forall₂.nil
  | row :: rest, h1 => by
    simp only [mapRows, readRows]
    refine List.Forall₂.cons ?_ (mapRows_indent heap fromRows cols hraw hA hB rest _)
    simp only [readNode_id, readNode_indent]
    exact mapRow_indent heap fromRows cols hraw row h1

/-- C20, as stated, fails: merging the raw node 1 into the one flattened row of
the tree with the single node 1 returns a row without an indent, although its
depth in the tree is 0. -/
theorem mergeRows_indent_counterexample :
    ∃ (res : MergeResult) (heap' : FieldHeap),
      readRows [] [RefNode.mk 1 [] none (some []) none] = flattenRows id (some [leafNode 1]) ∧
      readRows [] [RefNode.mk 1 [] none none none] = [leafNode 1] ∧
      mergeRows RowsKind.array [RefNode.mk 1 [] none (some []) none]
        (some [RefNode.mk 1 [] none none none]) [] none [] = some (res, heap') ∧
      (flattenRows id (some [leafNode 1])).map Node.indent = [some []] ∧
      (readRows heap' res.rows).map Node.indent = [none] :=
  ⟨_, _, rfl, rfl, rfl, rfl, rfl⟩

/-- C20, amended: for every tree `T`, rows `toRows` that read as `flattenRows(T)`
(in a plain array or an `Immutable.List`) and every non-empty `fromRows` made of
raw nodes (no node of it carries an indent), the rows that
`mergeRows(flattenRows(T), fromRows)` returns match the rows of `flattenRows(T)`
one by one: same id; a row whose id occurs nowhere in `fromRows` keeps its
indent, so its length still is the depth of its node in `T`; a row whose id
occurs in `fromRows`, at any level, is the incoming raw node and has no indent. -/
theorem mergeRows_indent (kind : RowsKind) (parseToDisplay : FieldsByName → FieldsByName)
    (T : List Node) (toRows : List RefNode) (r : RefNode) (rs : List RefNode)
    (columnInfosByFieldName : ColumnInfos) (changedIds : Option (List Nat)) (heap : FieldHeap)
    (hrows : readRows heap toRows = flattenRows parseToDisplay (some T))
    (hraw : ∀ n ∈ subnodesList (readRows heap (r :: rs)), n.indent = none) :
    ∃ (res : MergeResult) (heap' : FieldHeap),
      mergeRows kind toRows (some (r :: rs)) columnInfosByFieldName changedIds heap =
        some (res, heap') ∧
      List.Forall₂
        (fun row row' =>
          row'.id = row.id ∧
          (row.id ∈ preorderIdsList (readRows heap (r :: rs)) → row'.indent = none) ∧
          (row.id ∉ preorderIdsList (readRows heap (r :: rs)) → row'.indent = row.indent))
        (flattenRows parseToDisplay (some T)) (readRows heap' res.rows) := by
  refine ⟨_, _, rfl, ?_⟩
  rw [← hrows]
  exact mapRows_indent heap (r :: rs) columnInfosByFieldName hraw heap _ toRows heap

/-- Witness of C20 (amended): the scenario tree merged with the raw node 3. -/
theorem mergeRows_indent_witness :
    ∃ (res : MergeResult) (heap' : FieldHeap),
      mergeRows RowsKind.array
        [RefNode.mk 1 []
            (some [RefNode.mk 2 [] none none none,
              RefNode.mk 3 [] (some [RefNode.mk 4 [] none none none]) none none])
            (some []) none,
          RefNode.mk 2 [] none (some [true]) none,
          RefNode.mk 3 [] (some [RefNode.mk 4 [] none none none]) (some [true]) (some true),
          RefNode.mk 4 [] none (some [false, true]) (some true)]
        (some (RefNode.mk 3 [] (some [RefNode.mk 4 [] none none none]) none none :: []))
        [] none [] = some (res, heap') ∧
      List.Forall₂
        (fun row row' =>
          row'.id = row.id ∧
          (row.id ∈ preorderIdsList (readRows []
              (RefNode.mk 3 [] (some [RefNode.mk 4 [] none none none]) none none :: [])) →
            row'.indent = none) ∧
          (row.id ∉ preorderIdsList (readRows []
              (RefNode.mk 3 [] (some [RefNode.mk 4 [] none none none]) none none :: [])) →
            row'.indent = row.indent))
        (flattenRows id (some [scenarioTree])) (readRows heap' res.rows) :=
  mergeRows_indent RowsKind.array id [scenarioTree] _
    (RefNode.mk 3 [] (some [RefNode.mk 4 [] none none none]) none none) [] [] none []
    (by decide) (by decide)


/-! ### The content of the indent -/

theorem chainIndent_concat (lasts : List Bool) (b : Bool) :
    chainIndent (lasts ++ [b]) = lasts.map (fun x => !x) ++ [true] := by
  simp [chainIndent]

theorem chainLast_concat (lasts : List Bool) (b : Bool) : chainLast (lasts ++ [b]) = b := by
  simp [chainLast]

theorem markParentLast_chain (lasts : List Bool) :
    markParentLast (chainIndent lasts ++ [true]) (chainLast lasts) =
      lasts.map (fun x => !x) ++ [true] := by
  rcases List.eq_nil_or_concat lasts with h | ⟨init, b, h⟩
  · subst h
    simp [chainIndent, chainLast, markParentLast]
  · have h' : lasts = init ++ [b] := by simpa using h
    subst h'
    rw [chainIndent_concat, chainLast_concat]
    cases b with
    | false => simp [markParentLast]
    | true =>
      have hne : init.map (fun x => !x) ++ [true] ≠ [] := by simp
      rw [markParentLast_append_true _ hne]
      simp [List.dropLast_concat]


mutual
theorem mapIncludedDocs_chain (p : FieldsByName → FieldsByName) :
    ∀ (c : Option (List Node)) (lasts : List Bool),
      (∀ n ∈ subnodesDocs c, n.lastChild = none) →
      (mapIncludedDocs p c (chainIndent lasts) (chainLast lasts)).1.map
          (fun row => (row.id, row.indent)) =
        (chainsDocs c lasts).map (fun cp => (cp.node.id, some (chainIndent cp.lasts)))
  | none, _, _ => by simp [mapIncludedDocs, chainsDocs]
  | some l, lasts, h => by
    simp only [mapIncludedDocs, chainsDocs]
    exact mapIncludedLoop_chain p l lasts (by simpa [subnodesDocs] using h)
theorem mapIncludedLoop_chain (p : FieldsByName → FieldsByName) :
    ∀ (l : List Node) (lasts : List Bool),
      (∀ n ∈ subnodesList l, n.lastChild = none) →
      (mapIncludedLoop p l (chainIndent lasts) (chainLast lasts)).1.map
          (fun row => (row.id, row.indent)) =
        (chainsList l lasts).map (fun cp => (cp.node.id, some (chainIndent cp.lasts)))
  | [], _, _ => by simp [mapIncludedLoop, chainsList]
  | child :: rest, lasts, h => by
    have h1 : ∀ n ∈ subnodes child, n.lastChild = none := by
      intro n hn
      apply h
      simp only [subnodesList, List.mem_append]
      exact Or.inl hn
    have h2 : ∀ n ∈ subnodesList rest, n.lastChild = none := by
      intro n hn
      apply h
      simp only [subnodesList, List.mem_append]
      exact Or.inr hn
    simp only [mapIncludedLoop, chainsList, List.map_append]
    rw [mapIncludedChild_chain p child rest.isEmpty lasts h1,
      mapIncludedLoop_chain p rest lasts h2]
theorem mapIncludedChild_chain (p : FieldsByName → FieldsByName) :
    ∀ (n : Node) (isLast : Bool) (lasts : List Bool),
      (∀ m ∈ subnodes n, m.lastChild = none) →
      (mapIncludedChild p n isLast (chainIndent lasts) (chainLast lasts)).1.map
          (fun row => (row.id, row.indent)) =
        (chains n (lasts ++ [isLast])).map (fun cp => (cp.node.id, some (chainIndent cp.lasts)))
  | Node.mk i f c oi l, isLast, lasts, h => by
    have hl : l = none := h (Node.mk i f c oi l) (by simp [subnodes])
    subst hl
    have hc : ∀ m ∈ subnodesDocs c, m.lastChild = none := by
      intro m hm
      apply h
      simp only [subnodes, List.mem_cons]
      exact Or.inr hm
    have hmark : markParentLast (chainIndent lasts ++ [true]) (chainLast lasts) =
        chainIndent (lasts ++ [isLast]) := by
      rw [markParentLast_chain, chainIndent_concat]
    have htruthy : truthy (if isLast then some true else none) = chainLast (lasts ++ [isLast]) := by
      rw [chainLast_concat]
      cases isLast <;> rfl
    have hd := mapIncludedDocs_chain p c (lasts ++ [isLast]) hc
    simp only [mapIncludedChild, chains, List.map_cons, hmark, htruthy]
    rw [hd]
    rfl
end

theorem mapIncluded_chain (p : FieldsByName → FieldsByName) (n : Node)
    (h : ∀ m ∈ subnodes n, m.lastChild = none) :
    (mapIncluded p n none false).1.map (fun row => (row.id, row.indent)) =
      (chains n []).map (fun cp => (cp.node.id, some (chainIndent cp.lasts))) := by
  cases n with
  | mk i f c oi l =>
    have hl : l = none := h (Node.mk i f c oi l) (by simp [subnodes])
    subst hl
    have hc : ∀ m ∈ subnodesDocs c, m.lastChild = none := by
      intro m hm
      apply h
      simp only [subnodes, List.mem_cons]
      exact Or.inr hm
    have hd := mapIncludedDocs_chain p c [] hc
    have h1 : markParentLast ([] : List Bool) false = chainIndent [] := by
      simp [markParentLast, chainIndent]
    have h2 : truthy none = chainLast [] := rfl
    simp only [mapIncluded, chains, List.map_cons, Node.includedDocuments, Node.lastChild,
      Option.getD_none, h1, h2]
    rw [hd]
    rfl

theorem flattenRowsLoop_chain (p : FieldsByName → FieldsByName) :
    ∀ (T : List Node), (∀ n ∈ subnodesList T, n.lastChild = none) →
      (flattenRowsLoop p T).1.map (fun row => (row.id, row.indent)) =
        (chainsRoots T).map (fun cp => (cp.node.id, some (chainIndent cp.lasts)))
  | [], _ => by simp [flattenRowsLoop, chainsRoots]
  | n :: rest, h => by
    have h1 : ∀ m ∈ subnodes n, m.lastChild = none := by
      intro m hm
      apply h
      simp only [subnodesList, List.mem_append]
      exact Or.inl hm
    have h2 : ∀ m ∈ subnodesList rest, m.lastChild = none := by
      intro m hm
      apply h
      simp only [subnodesList, List.mem_append]
      exact Or.inr hm
    simp only [flattenRowsLoop, chainsRoots, List.map_append]
    rw [mapIncluded_chain p n h1, flattenRowsLoop_chain p rest h2]

theorem chainIndent_length (lasts : List Bool) : (chainIndent lasts).length = lasts.length := by
  rcases List.eq_nil_or_concat lasts with h | ⟨init, b, h⟩
  · subst h; rfl
  · have h' : lasts = init ++ [b] := by simpa using h
    subst h'
    rw [chainIndent_concat]
    simp

theorem chainIndent_last (lasts : List Bool) (d : Nat) (h : lasts.length = d + 1) :
    (chainIndent lasts)[d]? = some true := by
  rcases List.eq_nil_or_concat lasts with h0 | ⟨init, b, h0⟩
  · subst h0; simp at h
  · have h' : lasts = init ++ [b] := by simpa using h0
    subst h'
    have hd : d = init.length := by simpa using h.symm
    subst hd
    rw [chainIndent_concat]
    simp

theorem chainIndent_entry (lasts : List Bool) (j : Nat) (h : j + 1 < lasts.length) (b : Bool)
    (hb : lasts[j]? = some b) : (chainIndent lasts)[j]? = some (!b) := by
  rcases List.eq_nil_or_concat lasts with h0 | ⟨init, x, h0⟩
  · subst h0; simp at h
  · have h' : lasts = init ++ [x] := by simpa using h0
    subst h'
    have hj : j < init.length := by simpa using h
    rw [List.getElem?_append_left hj] at hb
    rw [chainIndent_concat, List.getElem?_append_left (by simpa using hj), List.getElem?_map, hb]
    rfl

/-- C21: for every tree `T` whose raw nodes carry no `lastChild`, the rows of
`flattenRows(T)` are, in order, the rows of the nodes of `T` with their ancestor
chains `a_0`, ..., `a_d`, and the indent of a row at depth `d >= 1` has `d`
entries, the last one, `indent[d-1]`, `true`, and every entry `indent[j]` with
`j < d-1` `false` when `a_(j+1)` is the last element of the `includedDocuments`
list of its parent and `true` when it is not. -/
theorem flattenRows_indent_content (parseToDisplay : FieldsByName → FieldsByName)
    (T : List Node) (hraw : ∀ n ∈ subnodesList T, n.lastChild = none) :
    List.Forall₂
      (fun row cp =>
        row.id = cp.node.id ∧
        ∃ indent : List Bool, row.indent = some indent ∧
          indent.length = cp.lasts.length ∧
          (∀ d, cp.lasts.length = d + 1 → indent[d]? = some true) ∧
          ∀ j, j + 1 < cp.lasts.length → ∀ b, cp.lasts[j]? = some b →
            indent[j]? = some (!b))
      (flattenRows parseToDisplay (some T)) (chainsRoots T) := by
  have h := flattenRowsLoop_chain parseToDisplay T hraw
  have h2 : List.Forall₂
      (fun (row : Node) (cp : ChainPlace) =>
        (row.id, row.indent) = (cp.node.id, some (chainIndent cp.lasts)))
      (flattenRowsLoop parseToDisplay T).1 (chainsRoots T) := by
    rw [← List.forall₂_eq_eq_eq] at h
    rw [List.forall₂_map_left_iff, List.forall₂_map_right_iff] at h
    exact h
  simp only [flattenRows]
  refine h2.imp ?_
  intro row cp heq
  simp only [Prod.mk.injEq] at heq
  exact ⟨heq.1, chainIndent cp.lasts, heq.2, chainIndent_length _,
    fun d hd => chainIndent_last _ d hd, fun j hj b hb => chainIndent_entry _ j hj b hb⟩

/-- Witness of C21: the scenario tree; the row of node 4, with the chain 1, 3, 4
of two last elements, has the indent `[false, true]`. -/
theorem flattenRows_indent_content_witness :
    List.Forall₂
      (fun row cp =>
        row.id = cp.node.id ∧
        ∃ indent : List Bool, row.indent = some indent ∧
          indent.length = cp.lasts.length ∧
          (∀ d, cp.lasts.length = d + 1 → indent[d]? = some true) ∧
          ∀ j, j + 1 < cp.lasts.length → ∀ b, cp.lasts[j]? = some b →
            indent[j]? = some (!b))
      (flattenRows id (some [scenarioTree])) (chainsRoots [scenarioTree]) :=
  flattenRows_indent_content id [scenarioTree] (by decide)

/-! ### Merge: the combinations of `fromRows` and `changedIds` -/

/-- On the deletion path `mergeRows` throws exactly when `removeRows` does. -/
theorem deletePath_eq_none (kind : RowsKind) (toRows : List RefNode)
    (cols : ColumnInfos) (ids : List Nat) (heap : FieldHeap) :
    mergeRows kind toRows (some []) cols (some ids) heap = none ↔
      removeRows kind toRows ids = none := by
  simp only [mergeRows]
  cases removeRows kind toRows ids <;> simp

/-- C22, as stated, fails: `fromRows` is the empty list and `changedIds` is
present, a combination the claim counts among those that return, but the rows
are held in a plain array and `changedIds` names row 1: the call throws. -/
theorem mergeRows_defined_counterexample :
    mergeRows RowsKind.array [RefNode.mk 1 [] none none none] (some []) [] (some [1]) [] =
        none ∧
      ¬ (((some [] : Option (List RefNode)) = none ∧
            (some [1] : Option (List Nat)).isSome = true) ∨
          ((some [] : Option (List RefNode)) = some [] ∧
            (some [1] : Option (List Nat)) = none)) :=
  ⟨rfl, by simp⟩

/-- C22, amended: `mergeRows` fails exactly when `fromRows` is absent while
`changedIds` is present, or `fromRows` is the empty list while `changedIds` is
absent, or `fromRows` is the empty list, `toRows` is held in a plain array and
some id of `changedIds` is the id of a row of `toRows`; in every other case, for
every state of the field objects, it returns a `{ rows, removedRows }` result. -/
theorem mergeRows_defined (kind : RowsKind) (toRows : List RefNode)
    (fromRows : Option (List RefNode)) (columnInfosByFieldName : ColumnInfos)
    (changedIds : Option (List Nat)) (heap : FieldHeap) :
    (mergeRows kind toRows fromRows columnInfosByFieldName changedIds heap = none ↔
      (fromRows = none ∧ changedIds.isSome = true) ∨
        (fromRows = some [] ∧ changedIds = none) ∨
        (fromRows = some [] ∧ kind = RowsKind.array ∧
          ∃ ids, changedIds = some ids ∧ ∃ x ∈ ids, x ∈ toRows.map RefNode.id)) ∧
    (¬ ((fromRows = none ∧ changedIds.isSome = true) ∨
        (fromRows = some [] ∧ changedIds = none) ∨
        (fromRows = some [] ∧ kind = RowsKind.array ∧
          ∃ ids, changedIds = some ids ∧ ∃ x ∈ ids, x ∈ toRows.map RefNode.id)) →
      ∃ (res : MergeResult) (heap' : FieldHeap),
        mergeRows kind toRows fromRows columnInfosByFieldName changedIds heap =
          some (res, heap')) := by
  have key : mergeRows kind toRows fromRows columnInfosByFieldName changedIds heap = none ↔
      (fromRows = none ∧ changedIds.isSome = true) ∨
        (fromRows = some [] ∧ changedIds = none) ∨
        (fromRows = some [] ∧ kind = RowsKind.array ∧
          ∃ ids, changedIds = some ids ∧ ∃ x ∈ ids, x ∈ toRows.map RefNode.id) := by
    cases fromRows with
    | none =>
      cases changedIds with
      | none => simp [mergeRows]
      | some ids => simp [mergeRows]
    | some l =>
      cases l with
      | nil =>
        cases changedIds with
        | none => simp [mergeRows]
        | some ids =>
          rw [deletePath_eq_none]
          cases kind with
          | array =>
            rw [removeRows_array_eq_none]
            simp
          | immutableList =>
            obtain ⟨res, hres⟩ := removeRowsLoop_immutableList_returns ids
              { rows := toRows, removedRows := [] }
            simp [removeRows, hres]
      | cons r rs =>
        cases changedIds with
        | none => simp [mergeRows]
        | some ids => simp [mergeRows]
  refine ⟨key, ?_⟩
  intro hno
  cases hm : mergeRows kind toRows fromRows columnInfosByFieldName changedIds heap with
  | none => exact absurd (key.mp hm) hno
  | some p => exact ⟨p.1, p.2, rfl⟩

end DocumentList
